import Mathlib

/-!
Verification of the Othello AI search engine (`src/agent.py`).

The search engine (minimax / alpha-beta with optional caching and move
ordering) is translated from `src/agent.py`.  The board-rules functions it
imports from `othello_shared` (`get_possible_moves`, `play_move`,
`get_score`) are not part of the sources; the engine is therefore
parameterised over a `Rules` structure (mirroring the import), and a
concrete rules instance modelled from the specification is provided for
evaluating the engine on concrete boards.

Python's unbounded recursion is modelled with an explicit fuel parameter:
a result of `none` means the recursion did not terminate within the given
fuel; `some` results are the values Python computes.  All numeric values
the agent manipulates are integers or the floats `float('inf')` /
`float('-inf')`, captured exactly by the `Ext` type.
-/

set_option maxHeartbeats 1600000
set_option synthInstance.maxSize 2000

namespace OthelloAI

/-- The numeric values flowing through the search: exact integers
(`compute_utility` results) and the two infinities used as initial
bounds/best values.  This captures exactly the Python floats the agent
ever creates. -/
inductive Ext : Type where
  | ninf : Ext
  | fin : ℤ → Ext
  | pinf : Ext
deriving DecidableEq, Repr

namespace Ext

/-- Boolean order on `Ext`, mirroring IEEE comparisons on the values used. -/
def ble : Ext → Ext → Bool
  | ninf, _ => true
  | fin _, ninf => false
  | fin a, fin b => a ≤ b
  | fin _, pinf => true
  | pinf, pinf => true
  | pinf, _ => false

instance : LE Ext := ⟨fun a b => ble a b = true⟩
instance : LT Ext := ⟨fun a b => ble b a = false⟩

instance (a b : Ext) : Decidable (a ≤ b) :=
  inferInstanceAs (Decidable (ble a b = true))

instance (a b : Ext) : Decidable (a < b) :=
  inferInstanceAs (Decidable (ble b a = false))

theorem le_iff_ble (a b : Ext) : a ≤ b ↔ ble a b = true := Iff.rfl

theorem lt_iff_ble (a b : Ext) : a < b ↔ ble b a = false := Iff.rfl

instance : LinearOrder Ext where
  le_refl a := by cases a <;> simp [le_iff_ble, ble]
  le_trans a b c := by
    cases a <;> cases b <;> cases c <;> simp [le_iff_ble, ble] <;> omega
  le_antisymm a b := by
    cases a <;> cases b <;> simp [le_iff_ble, ble] <;> omega
  le_total a b := by
    cases a <;> cases b <;> simp [le_iff_ble, ble] <;> omega
  lt_iff_le_not_le a b := by
    cases a <;> cases b <;> simp [le_iff_ble, lt_iff_ble, ble] <;> omega
  decidableLE a b := inferInstanceAs (Decidable (ble a b = true))
  decidableLT a b := inferInstanceAs (Decidable (ble b a = false))

@[simp] theorem ninf_le (a : Ext) : ninf ≤ a := by cases a <;> simp [le_iff_ble, ble]

@[simp] theorem le_pinf (a : Ext) : a ≤ pinf := by cases a <;> simp [le_iff_ble, ble]

@[simp] theorem fin_le_fin {a b : ℤ} : (fin a ≤ fin b) ↔ a ≤ b := by
  simp [le_iff_ble, ble]

@[simp] theorem fin_lt_fin {a b : ℤ} : (fin a < fin b) ↔ a < b := by
  simp [lt_iff_ble, ble]

@[simp] theorem ninf_lt_fin (a : ℤ) : ninf < fin a := by simp [lt_iff_ble, ble]

@[simp] theorem fin_lt_pinf (a : ℤ) : fin a < pinf := by simp [lt_iff_ble, ble]

@[simp] theorem ninf_lt_pinf : ninf < pinf := by simp [lt_iff_ble, ble]

@[simp] theorem not_lt_ninf (a : Ext) : ¬ a < ninf := by
  cases a <;> simp [lt_iff_ble, ble]

@[simp] theorem not_pinf_lt (a : Ext) : ¬ pinf < a := by
  cases a <;> simp [lt_iff_ble, ble]

@[simp] theorem not_fin_le_ninf (a : ℤ) : ¬ fin a ≤ ninf := by
  simp [le_iff_ble, ble]

@[simp] theorem not_pinf_le_fin (a : ℤ) : ¬ pinf ≤ fin a := by
  simp [le_iff_ble, ble]

theorem lt_pinf_of_ne {a : Ext} (h : a ≠ pinf) : a < pinf := by
  cases a with
  | ninf => simp
  | fin z => simp
  | pinf => exact absurd rfl h

theorem ninf_lt_of_ne {a : Ext} (h : a ≠ ninf) : ninf < a := by
  cases a with
  | ninf => exact absurd rfl h
  | fin z => simp
  | pinf => simp

theorem eq_ninf_of_le {a : Ext} (h : a ≤ ninf) : a = ninf := by
  cases a with
  | ninf => rfl
  | fin z => exact absurd h (by simp)
  | pinf => exact absurd h (by simp [le_iff_ble, ble])

theorem eq_pinf_of_le {a : Ext} (h : pinf ≤ a) : a = pinf := by
  cases a with
  | ninf => exact absurd h (by simp [le_iff_ble, ble])
  | fin z => exact absurd h (by simp)
  | pinf => rfl

end Ext

/-- A board: rows of cells, cell values as Python ints (0 empty, 1 dark,
2 light). -/
abbrev Board := List (List ℤ)

/-- A move `(i, j)` as a pair of Python ints. -/
abbrev Move := ℤ × ℤ

/-- The external board-rules contract that `src/agent.py` imports from
`othello_shared` (spec §4.2): move generation, move application, score
counting. -/
structure Rules where
  get_possible_moves : Board → ℤ → List Move
  play_move : Board → ℤ → ℤ → ℤ → Board
  get_score : Board → ℤ × ℤ

/-- `compute_utility` from `src/agent.py` (lines 18-26): disk-count
differential from `color`'s perspective; any color other than 1 or 2 is
logged and evaluated to the neutral value 0 (the logging is an I/O
effect outside this embedding; the returned value is modelled exactly). -/
def compute_utility (R : Rules) (board : Board) (color : ℤ) : ℤ :=
  let s := R.get_score board
  if color = 1 then s.1 - s.2
  else if color = 2 then s.2 - s.1
  else 0

/-- The body of the nested cell loop of `compute_heuristic`
(src/agent.py lines 46-65): accumulate the (dark, light) stability sums
for cell `(i, j)` — corners add 5, other border cells 2, interior cells
1, to the side occupying the cell. -/
def heuristicStep (board : Board) (n : Nat) (acc : ℤ × ℤ) (i j : Nat) : ℤ × ℤ :=
  let cell := (((board.get? i).getD []).get? j).getD 0
  if (i = 0 ∧ j = 0) ∨ (i = 0 ∧ j = n - 1) ∨ (i = n - 1 ∧ j = 0) ∨
      (i = n - 1 ∧ j = n - 1) then
    if cell = 1 then (acc.1 + 5, acc.2)
    else if cell = 2 then (acc.1, acc.2 + 5)
    else acc
  else if i = 0 ∨ i = n - 1 ∨ j = 0 ∨ j = n - 1 then
    if cell = 1 then (acc.1 + 2, acc.2)
    else if cell = 2 then (acc.1, acc.2 + 2)
    else acc
  else
    if cell = 1 then (acc.1 + 1, acc.2)
    else if cell = 2 then (acc.1, acc.2 + 1)
    else acc

/-- `compute_heuristic` from `src/agent.py` (lines 31-74).  Python float
arithmetic on `0.3`/`0.7` is embedded as exact rational arithmetic.  A
color other than 1 or 2 falls through both branches and returns Python
`None`, modelled as `Option.none`. -/
def compute_heuristic (R : Rules) (board : Board) (color : ℤ) : Option ℚ :=
  let n := board.length
  let s := R.get_score board
  let coin_parity : ℤ := s.1 - s.2
  let st := (List.range n).foldl
    (fun acc i => (List.range n).foldl
      (fun acc2 j => heuristicStep board n acc2 i j) acc) (0, 0)
  let stable : ℤ := st.1 - st.2
  let utility : ℚ := (3 / 10 : ℚ) * (coin_parity : ℚ) + (7 / 10 : ℚ) * (stable : ℚ)
  if color = 1 then some utility
  else if color = 2 then some (-utility)
  else none

/-- The process-wide `cached_states` dict.  Minimax entries are keyed by
`(board, color)` (2-tuples) and alpha-beta entries by
`(board, color, alpha, beta)` (4-tuples); the two key shapes can never
collide in the Python dict, so they are modelled as two association
lists. -/
structure Cache where
  mm : List ((Board × ℤ) × (Option Move × Ext))
  ab : List ((Board × ℤ × Ext × Ext) × (Option Move × Ext))
deriving DecidableEq

def emptyCache : Cache := ⟨[], []⟩

/-- First-match association-list lookup, the semantics of a Python dict
read where insertion conses the newest binding in front. -/
def findEntry {κ ν : Type} [DecidableEq κ] : List (κ × ν) → κ → Option ν
  | [], _ => none
  | (k, v) :: rest, key => if k = key then some v else findEntry rest key

/-- Insertion into a key-sorted list, placing the element after
existing equal keys.  Because `sortByKey` inserts earlier elements into
the sorted tail, elements with equal keys come out in reversed input
order — a deviation from Python's stable `sorted` that affects only
which of several equal-key moves an ordering-enabled run visits first;
none of the properties proved below depends on that tie order, and the
concrete instances evaluated have distinct keys at the decisive
position. -/
def sortedInsert (key : Move → ℤ) (x : Move) : List Move → List Move
  | [] => [x]
  | y :: ys => if key y ≤ key x then y :: sortedInsert key x ys else x :: y :: ys

/-- The ascending key sort of Python's `sorted(moves, key=...)`
(src/agent.py lines 146/175), built from `sortedInsert`: same sorted
key order as Python, but ties between equal keys come out reversed
instead of preserved (see `sortedInsert`). -/
def sortByKey (key : Move → ℤ) : List Move → List Move
  | [] => []
  | x :: xs => sortedInsert key x (sortByKey key xs)

/-- The `for move in possible_moves` loop of `minimax_min_node`
(src/agent.py lines 87-91), with the recursive call abstracted as
`child`.  `bm`/`bu` are `best_move`/`best_utility`; the Python guard
`not best_move or utility < best_utility` short-circuits, so the initial
`float('inf')` is assigned over unconditionally on the first iteration
(a move tuple is always truthy). -/
def mmLoopMin (child : Board → Cache → Option ((Option Move × Ext) × Cache))
    (play : Move → Board) :
    List Move → Option Move → Ext → Cache → Option ((Option Move × Ext) × Cache)
  | [], bm, bu, cache => some ((bm, bu), cache)
  | move :: rest, bm, bu, cache =>
    match child (play move) cache with
    | none => none
    | some ((_, utility), cache1) =>
      if bm = none ∨ utility < bu then
        mmLoopMin child play rest (some move) utility cache1
      else
        mmLoopMin child play rest bm bu cache1

/-- The `for move in possible_moves` loop of `minimax_max_node`
(src/agent.py lines 108-112). -/
def mmLoopMax (child : Board → Cache → Option ((Option Move × Ext) × Cache))
    (play : Move → Board) :
    List Move → Option Move → Ext → Cache → Option ((Option Move × Ext) × Cache)
  | [], bm, bu, cache => some ((bm, bu), cache)
  | move :: rest, bm, bu, cache =>
    match child (play move) cache with
    | none => none
    | some ((_, utility), cache1) =>
      if bm = none ∨ bu < utility then
        mmLoopMax child play rest (some move) utility cache1
      else
        mmLoopMax child play rest bm bu cache1

mutual

/-- `minimax_min_node` from src/agent.py (lines 77-96). -/
def minimax_min_node (R : Rules) (fuel : Nat) (board : Board)
    (color limit caching : ℤ) (cache : Cache) :
    Option ((Option Move × Ext) × Cache) :=
  match fuel with
  | 0 => none
  | fuel + 1 =>
    match (if caching = 1 then findEntry cache.mm (board, color) else none) with
    | some r => some (r, cache)
    | none =>
      let possible_moves := R.get_possible_moves board color
      if possible_moves = [] ∨ limit = 0 then
        some ((none, Ext.fin (compute_utility R board color)), cache)
      else
        match mmLoopMin
            (fun b cc => minimax_max_node R fuel b (3 - color) (limit - 1) caching cc)
            (fun m => R.play_move board color m.1 m.2)
            possible_moves none Ext.pinf cache with
        | none => none
        | some ((bm, bu), cache1) =>
          let cache2 := if caching = 1 then
              { cache1 with mm := ((board, color), (bm, bu)) :: cache1.mm }
            else cache1
          some ((bm, bu), cache2)

/-- `minimax_max_node` from src/agent.py (lines 98-117). -/
def minimax_max_node (R : Rules) (fuel : Nat) (board : Board)
    (color limit caching : ℤ) (cache : Cache) :
    Option ((Option Move × Ext) × Cache) :=
  match fuel with
  | 0 => none
  | fuel + 1 =>
    match (if caching = 1 then findEntry cache.mm (board, color) else none) with
    | some r => some (r, cache)
    | none =>
      let possible_moves := R.get_possible_moves board color
      if possible_moves = [] ∨ limit = 0 then
        some ((none, Ext.fin (compute_utility R board color)), cache)
      else
        match mmLoopMax
            (fun b cc => minimax_min_node R fuel b (3 - color) (limit - 1) caching cc)
            (fun m => R.play_move board color m.1 m.2)
            possible_moves none Ext.ninf cache with
        | none => none
        | some ((bm, bu), cache1) =>
          let cache2 := if caching = 1 then
              { cache1 with mm := ((board, color), (bm, bu)) :: cache1.mm }
            else cache1
          some ((bm, bu), cache2)

end

/-- `select_move_minimax` from src/agent.py (lines 119-133): runs the
max node and keeps only the move. -/
def select_move_minimax (R : Rules) (fuel : Nat) (board : Board)
    (color limit caching : ℤ) (cache : Cache) : Option (Option Move) :=
  (minimax_max_node R fuel board color limit caching cache).map (fun r => r.1.1)

/-- The loop of `alphabeta_min_node` (src/agent.py lines 149-158): the
child is called with the current (mutated) window; `beta` is narrowed to
the running best and the loop breaks when `beta <= alpha`.  Returns the
final value of the `beta` variable alongside the result (the store at
line 161 keys on it).  The break test is made every iteration, whereas
Python tests it only immediately after narrowing `beta`; the two
coincide on every call entered with `alpha < beta` (the invariant of
every entry-point-reachable call) and differ only on degenerate
received windows. -/
def abLoopMin (child : Ext → Ext → Board → Cache → Option ((Option Move × Ext) × Cache))
    (play : Move → Board) (alpha : Ext) :
    List Move → Option Move → Ext → Ext → Cache →
      Option ((Option Move × Ext) × Ext × Cache)
  | [], bm, bu, beta, cache => some ((bm, bu), beta, cache)
  | move :: rest, bm, bu, beta, cache =>
    match child alpha beta (play move) cache with
    | none => none
    | some ((_, utility), cache1) =>
      let bm1 : Option Move := if bm = none ∨ utility < bu then some move else bm
      let bu1 : Ext := if bm = none ∨ utility < bu then utility else bu
      let beta1 : Ext := if bu1 < beta then bu1 else beta
      if beta1 ≤ alpha then
        some ((bm1, bu1), beta1, cache1)
      else
        abLoopMin child play alpha rest bm1 bu1 beta1 cache1

/-- The loop of `alphabeta_max_node` (src/agent.py lines 178-187):
`alpha` is raised to the running best and the loop breaks when
`beta <= alpha`.  As in `abLoopMin`, the break test is made every
iteration where Python tests it only after raising `alpha`; the
behaviors coincide whenever the call is entered with `alpha < beta`. -/
def abLoopMax (child : Ext → Ext → Board → Cache → Option ((Option Move × Ext) × Cache))
    (play : Move → Board) (beta : Ext) :
    List Move → Option Move → Ext → Ext → Cache →
      Option ((Option Move × Ext) × Ext × Cache)
  | [], bm, bu, alpha, cache => some ((bm, bu), alpha, cache)
  | move :: rest, bm, bu, alpha, cache =>
    match child alpha beta (play move) cache with
    | none => none
    | some ((_, utility), cache1) =>
      let bm1 : Option Move := if bm = none ∨ bu < utility then some move else bm
      let bu1 : Ext := if bm = none ∨ bu < utility then utility else bu
      let alpha1 : Ext := if alpha < bu1 then bu1 else alpha
      if beta ≤ alpha1 then
        some ((bm1, bu1), alpha1, cache1)
      else
        abLoopMax child play beta rest bm1 bu1 alpha1 cache1

mutual

/-- `alphabeta_min_node` from src/agent.py (lines 136-163).  Note that
the store at line 161 uses the *current* values of the `alpha`/`beta`
variables, i.e. the possibly-narrowed `beta` after the loop. -/
def alphabeta_min_node (R : Rules) (fuel : Nat) (board : Board) (color : ℤ)
    (alpha beta : Ext) (limit caching ordering : ℤ) (cache : Cache) :
    Option ((Option Move × Ext) × Cache) :=
  match fuel with
  | 0 => none
  | fuel + 1 =>
    match (if caching = 1 then findEntry cache.ab (board, color, alpha, beta) else none) with
    | some r => some (r, cache)
    | none =>
      let possible_moves := R.get_possible_moves board color
      if possible_moves = [] ∨ limit = 0 then
        some ((none, Ext.fin (compute_utility R board color)), cache)
      else
        let moves := if ordering = 1 then
            sortByKey (fun m => compute_utility R (R.play_move board color m.1 m.2) color)
              possible_moves
          else possible_moves
        match abLoopMin
            (fun a b nb cc =>
              alphabeta_max_node R fuel nb (3 - color) a b (limit - 1) caching ordering cc)
            (fun m => R.play_move board color m.1 m.2)
            alpha moves none Ext.pinf beta cache with
        | none => none
        | some ((bm, bu), betaF, cache1) =>
          let cache2 := if caching = 1 then
              { cache1 with ab := ((board, color, alpha, betaF), (bm, bu)) :: cache1.ab }
            else cache1
          some ((bm, bu), cache2)

/-- `alphabeta_max_node` from src/agent.py (lines 165-192).  The store
at line 190 uses the possibly-raised `alpha` after the loop. -/
def alphabeta_max_node (R : Rules) (fuel : Nat) (board : Board) (color : ℤ)
    (alpha beta : Ext) (limit caching ordering : ℤ) (cache : Cache) :
    Option ((Option Move × Ext) × Cache) :=
  match fuel with
  | 0 => none
  | fuel + 1 =>
    match (if caching = 1 then findEntry cache.ab (board, color, alpha, beta) else none) with
    | some r => some (r, cache)
    | none =>
      let possible_moves := R.get_possible_moves board color
      if possible_moves = [] ∨ limit = 0 then
        some ((none, Ext.fin (compute_utility R board color)), cache)
      else
        let moves := if ordering = 1 then
            sortByKey (fun m => -compute_utility R (R.play_move board color m.1 m.2) color)
              possible_moves
          else possible_moves
        match abLoopMax
            (fun a b nb cc =>
              alphabeta_min_node R fuel nb (3 - color) a b (limit - 1) caching ordering cc)
            (fun m => R.play_move board color m.1 m.2)
            beta moves none Ext.ninf alpha cache with
        | none => none
        | some ((bm, bu), alphaF, cache1) =>
          let cache2 := if caching = 1 then
              { cache1 with ab := ((board, color, alphaF, beta), (bm, bu)) :: cache1.ab }
            else cache1
          some ((bm, bu), cache2)

end

/-- `select_move_alphabeta` from src/agent.py (lines 194-210): runs the
max node with the window `(-inf, inf)` and keeps only the move. -/
def select_move_alphabeta (R : Rules) (fuel : Nat) (board : Board)
    (color limit caching ordering : ℤ) (cache : Cache) : Option (Option Move) :=
  (alphabeta_max_node R fuel board color Ext.ninf Ext.pinf limit caching ordering
    cache).map (fun r => r.1.1)

/-- The algorithm dispatch of `run_ai` (src/agent.py lines 263-266):
minimax mode ignores the ordering flag entirely. -/
def choose_move (R : Rules) (fuel : Nat) (minimax : ℤ) (board : Board)
    (color limit caching ordering : ℤ) (cache : Cache) : Option (Option Move) :=
  if minimax = 1 then select_move_minimax R fuel board color limit caching cache
  else select_move_alphabeta R fuel board color limit caching ordering cache

/-! ### Board rules modelled from the specification

`othello_shared` is imported by `src/agent.py` but its source is not part
of the sources here; the definitions below are modelled from the
specification (§4.2 board-rules contract, §6 line-scanning primitive):
legal-move enumeration, move application flipping captured straight
lines, and disk counting. -/

/-- Modelled from the spec: `get_score` counts dark and light disks
(§4.2 `score(board) -> (dark_count, light_count)`). -/
def oth_get_score (board : Board) : ℤ × ℤ :=
  board.foldl
    (fun acc row => row.foldl
      (fun a c => if c = 1 then (a.1 + 1, a.2) else if c = 2 then (a.1, a.2 + 1) else a)
      acc)
    (0, 0)

/-- Cell access with bounds checking. -/
def cellAt (board : Board) (i j : ℤ) : Option ℤ :=
  if i < 0 ∨ j < 0 then none
  else match board.get? i.toNat with
    | none => none
    | some row => row.get? j.toNat

/-- Modelled from the spec: one straight-direction scan of the
line-scanning primitive (`find_lines`): follow opponent disks from
`(i, j)` in direction `(di, dj)`; a capture needs at least one opponent
disk terminated by an own disk. -/
def scanDir (board : Board) (color : ℤ) :
    Nat → ℤ → ℤ → ℤ → ℤ → List Move → Option (List Move)
  | 0, _, _, _, _, _ => none
  | fuel + 1, i, j, di, dj, acc =>
    match cellAt board i j with
    | none => none
    | some c =>
      if c = color then (if acc = [] then none else some acc)
      else if c = 3 - color then scanDir board color fuel (i + di) (j + dj) di dj (acc ++ [(i, j)])
      else none

/-- The eight straight directions. -/
def directions : List (ℤ × ℤ) :=
  [(-1, -1), (-1, 0), (-1, 1), (0, -1), (0, 1), (1, -1), (1, 0), (1, 1)]

/-- Modelled from the spec: `find_lines(board, i, j, color)` — the
captured lines in all eight directions from a disk placed at `(i, j)`. -/
def find_lines (board : Board) (i j : ℤ) (color : ℤ) : List (List Move) :=
  directions.filterMap
    (fun d => scanDir board color (board.length + board.length + 2)
      (i + d.1) (j + d.2) d.1 d.2 [])

/-- Modelled from the spec: `get_possible_moves(board, color)` — the
empty cells from which at least one line is captured, enumerated row by
row (§4.2 `legal_moves`). -/
def oth_get_possible_moves (board : Board) (color : ℤ) : List Move :=
  ((List.range board.length).map (fun i =>
    (List.range (((board.get? i).getD []).length)).filterMap (fun j =>
      if (((board.get? i).getD []).get? j).getD 0 = 0 ∧
          find_lines board (i : ℤ) (j : ℤ) color ≠ [] then
        some ((i : ℤ), (j : ℤ))
      else none))).flatten

/-- Modelled from the spec: `play_move(board, color, i, j)` — a new
board with the disk placed at `(i, j)` and every captured line flipped
to `color` (§4.2 `apply_move`). -/
def oth_play_move (board : Board) (color : ℤ) (i j : ℤ) : Board :=
  let flips := (find_lines board i j color).flatten
  board.enum.map (fun xr =>
    (xr.2.enum.map (fun yc =>
      if ((xr.1 : ℤ), (yc.1 : ℤ)) = (i, j) ∨ ((xr.1 : ℤ), (yc.1 : ℤ)) ∈ flips then color
      else yc.2)))

/-- The board rules modelled from the spec, packaged for the engine. -/
def othelloRules : Rules :=
  ⟨oth_get_possible_moves, oth_play_move, oth_get_score⟩

/-- The standard 8×8 starting position (spec §8). -/
def startBoard : Board :=
  [[0, 0, 0, 0, 0, 0, 0, 0],
   [0, 0, 0, 0, 0, 0, 0, 0],
   [0, 0, 0, 0, 0, 0, 0, 0],
   [0, 0, 0, 2, 1, 0, 0, 0],
   [0, 0, 0, 1, 2, 0, 0, 0],
   [0, 0, 0, 0, 0, 0, 0, 0],
   [0, 0, 0, 0, 0, 0, 0, 0],
   [0, 0, 0, 0, 0, 0, 0, 0]]

/-! ### Cache-frame machinery -/

/-- A cache-threading computation that neither reads nor writes the
cache: its value is independent of the incoming cache and the cache is
returned unchanged. -/
def CachePure (f : Cache → Option ((Option Move × Ext) × Cache)) : Prop :=
  ∀ c1 c2, f c1 = (f c2).map (fun r => (r.1, c1))

theorem CachePure.none_all {f} (h : CachePure f) {c : Cache} (hc : f c = none) :
    ∀ c0, f c0 = none := by
  intro c0
  have h1 := h c c0
  have h2 := h c0 c0
  rw [h2]
  cases hf : f c0 with
  | none => simp
  | some r => rw [hf] at h1; simp at h1; rw [h1] at hc; simp at hc

theorem CachePure.some_all {f} (h : CachePure f) {c : Cache} {r : Option Move × Ext}
    {c' : Cache} (hc : f c = some (r, c')) :
    c' = c ∧ ∀ c0, f c0 = some (r, c0) := by
  have h1 := h c c
  rw [hc] at h1
  simp at h1
  constructor
  · exact h1
  · intro c0
    have h2 := h c0 c
    rw [hc] at h2
    simpa using h2

theorem mmLoopMin_pure (child : Board → Cache → Option ((Option Move × Ext) × Cache))
    (play : Move → Board) (hchild : ∀ b, CachePure (child b)) :
    ∀ (ms : List Move) (bm : Option Move) (bu : Ext),
      CachePure (fun cc => mmLoopMin child play ms bm bu cc) := by
  intro ms
  induction ms with
  | nil => intro bm bu c1 c2; simp [mmLoopMin]
  | cons m rest ih =>
    intro bm bu c1 c2
    simp only [mmLoopMin]
    cases hc : child (play m) c2 with
    | none =>
      rw [(hchild (play m)).none_all hc c1]
      simp
    | some rc =>
      obtain ⟨⟨mv, u⟩, c2'⟩ := rc
      obtain ⟨rfl, hall⟩ := (hchild (play m)).some_all hc
      rw [hall c1]
      dsimp only
      by_cases hcond : bm = none ∨ u < bu
      · simp only [if_pos hcond]
        exact ih (some m) u c1 c2'
      · simp only [if_neg hcond]
        exact ih bm bu c1 c2'

theorem mmLoopMax_pure (child : Board → Cache → Option ((Option Move × Ext) × Cache))
    (play : Move → Board) (hchild : ∀ b, CachePure (child b)) :
    ∀ (ms : List Move) (bm : Option Move) (bu : Ext),
      CachePure (fun cc => mmLoopMax child play ms bm bu cc) := by
  intro ms
  induction ms with
  | nil => intro bm bu c1 c2; simp [mmLoopMax]
  | cons m rest ih =>
    intro bm bu c1 c2
    simp only [mmLoopMax]
    cases hc : child (play m) c2 with
    | none =>
      rw [(hchild (play m)).none_all hc c1]
      simp
    | some rc =>
      obtain ⟨⟨mv, u⟩, c2'⟩ := rc
      obtain ⟨rfl, hall⟩ := (hchild (play m)).some_all hc
      rw [hall c1]
      dsimp only
      by_cases hcond : bm = none ∨ bu < u
      · simp only [if_pos hcond]
        exact ih (some m) u c1 c2'
      · simp only [if_neg hcond]
        exact ih bm bu c1 c2'

/-- With caching off, `minimax_min_node` is the leaf test followed by the
loop: the cache branch and the store vanish. -/
theorem minimax_min_node_nocache (R : Rules) (fuel : Nat) (b : Board) (c l : ℤ)
    (cache : Cache) :
    minimax_min_node R (fuel + 1) b c l 0 cache =
      (if R.get_possible_moves b c = [] ∨ l = 0 then
        some ((none, Ext.fin (compute_utility R b c)), cache)
      else
        mmLoopMin (fun bb cc => minimax_max_node R fuel bb (3 - c) (l - 1) 0 cc)
          (fun m => R.play_move b c m.1 m.2) (R.get_possible_moves b c)
          none Ext.pinf cache) := by
  simp only [minimax_min_node]
  norm_num
  by_cases hleaf : R.get_possible_moves b c = [] ∨ l = 0
  · simp [hleaf]
  · simp only [if_neg hleaf]
    cases hres : mmLoopMin (fun bb cc => minimax_max_node R fuel bb (3 - c) (l - 1) 0 cc)
        (fun m => R.play_move b c m.1 m.2) (R.get_possible_moves b c) none Ext.pinf cache with
    | none => simp
    | some r => obtain ⟨⟨bm, bu⟩, c1⟩ := r; simp

/-- With caching off, `minimax_max_node` is the leaf test followed by the
loop. -/
theorem minimax_max_node_nocache (R : Rules) (fuel : Nat) (b : Board) (c l : ℤ)
    (cache : Cache) :
    minimax_max_node R (fuel + 1) b c l 0 cache =
      (if R.get_possible_moves b c = [] ∨ l = 0 then
        some ((none, Ext.fin (compute_utility R b c)), cache)
      else
        mmLoopMax (fun bb cc => minimax_min_node R fuel bb (3 - c) (l - 1) 0 cc)
          (fun m => R.play_move b c m.1 m.2) (R.get_possible_moves b c)
          none Ext.ninf cache) := by
  simp only [minimax_max_node]
  norm_num
  by_cases hleaf : R.get_possible_moves b c = [] ∨ l = 0
  · simp [hleaf]
  · simp only [if_neg hleaf]
    cases hres : mmLoopMax (fun bb cc => minimax_min_node R fuel bb (3 - c) (l - 1) 0 cc)
        (fun m => R.play_move b c m.1 m.2) (R.get_possible_moves b c) none Ext.ninf cache with
    | none => simp
    | some r => obtain ⟨⟨bm, bu⟩, c1⟩ := r; simp

/-- The move list an alpha-beta min node iterates over. -/
def abMovesMin (R : Rules) (b : Board) (c ordering : ℤ) : List Move :=
  if ordering = 1 then
    sortByKey (fun m => compute_utility R (R.play_move b c m.1 m.2) c)
      (R.get_possible_moves b c)
  else R.get_possible_moves b c

/-- The move list an alpha-beta max node iterates over. -/
def abMovesMax (R : Rules) (b : Board) (c ordering : ℤ) : List Move :=
  if ordering = 1 then
    sortByKey (fun m => -compute_utility R (R.play_move b c m.1 m.2) c)
      (R.get_possible_moves b c)
  else R.get_possible_moves b c

/-- With caching off, `alphabeta_min_node` is the leaf test followed by
the (possibly ordered) loop, dropping the final-`beta` component. -/
theorem alphabeta_min_node_nocache (R : Rules) (fuel : Nat) (b : Board) (c : ℤ)
    (alpha beta : Ext) (l ordering : ℤ) (cache : Cache) :
    alphabeta_min_node R (fuel + 1) b c alpha beta l 0 ordering cache =
      (if R.get_possible_moves b c = [] ∨ l = 0 then
        some ((none, Ext.fin (compute_utility R b c)), cache)
      else
        (abLoopMin
          (fun a bb nb cc =>
            alphabeta_max_node R fuel nb (3 - c) a bb (l - 1) 0 ordering cc)
          (fun m => R.play_move b c m.1 m.2) alpha (abMovesMin R b c ordering)
          none Ext.pinf beta cache).map (fun r => (r.1, r.2.2))) := by
  simp only [alphabeta_min_node, abMovesMin]
  norm_num
  by_cases hleaf : R.get_possible_moves b c = [] ∨ l = 0
  · simp [hleaf]
  · simp only [if_neg hleaf]
    cases hres : abLoopMin
        (fun a bb nb cc => alphabeta_max_node R fuel nb (3 - c) a bb (l - 1) 0 ordering cc)
        (fun m => R.play_move b c m.1 m.2) alpha
        (if ordering = 1 then
          sortByKey (fun m => compute_utility R (R.play_move b c m.1 m.2) c)
            (R.get_possible_moves b c)
          else R.get_possible_moves b c) none Ext.pinf beta cache with
    | none => simp [hres]
    | some r => obtain ⟨⟨bm, bu⟩, bf, c1⟩ := r; simp [hres]

/-- With caching off, `alphabeta_max_node` is the leaf test followed by
the (possibly ordered) loop, dropping the final-`alpha` component. -/
theorem alphabeta_max_node_nocache (R : Rules) (fuel : Nat) (b : Board) (c : ℤ)
    (alpha beta : Ext) (l ordering : ℤ) (cache : Cache) :
    alphabeta_max_node R (fuel + 1) b c alpha beta l 0 ordering cache =
      (if R.get_possible_moves b c = [] ∨ l = 0 then
        some ((none, Ext.fin (compute_utility R b c)), cache)
      else
        (abLoopMax
          (fun a bb nb cc =>
            alphabeta_min_node R fuel nb (3 - c) a bb (l - 1) 0 ordering cc)
          (fun m => R.play_move b c m.1 m.2) beta (abMovesMax R b c ordering)
          none Ext.ninf alpha cache).map (fun r => (r.1, r.2.2))) := by
  simp only [alphabeta_max_node, abMovesMax]
  norm_num
  by_cases hleaf : R.get_possible_moves b c = [] ∨ l = 0
  · simp [hleaf]
  · simp only [if_neg hleaf]
    cases hres : abLoopMax
        (fun a bb nb cc => alphabeta_min_node R fuel nb (3 - c) a bb (l - 1) 0 ordering cc)
        (fun m => R.play_move b c m.1 m.2) beta
        (if ordering = 1 then
          sortByKey (fun m => -compute_utility R (R.play_move b c m.1 m.2) c)
            (R.get_possible_moves b c)
          else R.get_possible_moves b c) none Ext.ninf alpha cache with
    | none => simp [hres]
    | some r => obtain ⟨⟨bm, bu⟩, af, c1⟩ := r; simp [hres]

/-- Cache-purity for the alpha-beta loops (which also return the final
window variable). -/
def CachePureAB (f : Cache → Option ((Option Move × Ext) × Ext × Cache)) : Prop :=
  ∀ c1 c2, f c1 = (f c2).map (fun r => (r.1, r.2.1, c1))

theorem CachePureAB.run_none {f} (h : CachePureAB f) {c : Cache} (hc : f c = none) :
    ∀ c0, f c0 = none := by
  intro c0
  have h1 := h c c0
  rw [h c0 c0]
  cases hf : f c0 with
  | none => simp
  | some r => rw [hf] at h1; simp at h1; rw [h1] at hc; simp at hc

theorem CachePureAB.run_some {f} (h : CachePureAB f) {c : Cache} {r : Option Move × Ext}
    {w : Ext} {c' : Cache} (hc : f c = some (r, w, c')) :
    c' = c ∧ ∀ c0, f c0 = some (r, w, c0) := by
  have h1 := h c c
  rw [hc] at h1
  simp at h1
  constructor
  · exact h1
  · intro c0
    have h2 := h c0 c
    rw [hc] at h2
    simpa using h2

theorem abLoopMin_pure
    (child : Ext → Ext → Board → Cache → Option ((Option Move × Ext) × Cache))
    (play : Move → Board) (alpha : Ext)
    (hchild : ∀ a b nb, CachePure (child a b nb)) :
    ∀ (ms : List Move) (bm : Option Move) (bu beta : Ext),
      CachePureAB (fun cc => abLoopMin child play alpha ms bm bu beta cc) := by
  intro ms
  induction ms with
  | nil => intro bm bu beta c1 c2; simp [abLoopMin]
  | cons m rest ih =>
    intro bm bu beta c1 c2
    simp only [abLoopMin]
    cases hc : child alpha beta (play m) c2 with
    | none =>
      rw [(hchild alpha beta (play m)).none_all hc c1]
      simp
    | some rc =>
      obtain ⟨⟨mv, u⟩, c2'⟩ := rc
      obtain ⟨rfl, hall⟩ := (hchild alpha beta (play m)).some_all hc
      rw [hall c1]
      dsimp only
      by_cases hbreak :
          (if (if bm = none ∨ u < bu then u else bu) < beta then
            (if bm = none ∨ u < bu then u else bu) else beta) ≤ alpha
      · simp only [if_pos hbreak]; simp
      · simp only [if_neg hbreak]
        exact ih _ _ _ c1 c2'

theorem abLoopMax_pure
    (child : Ext → Ext → Board → Cache → Option ((Option Move × Ext) × Cache))
    (play : Move → Board) (beta : Ext)
    (hchild : ∀ a b nb, CachePure (child a b nb)) :
    ∀ (ms : List Move) (bm : Option Move) (bu alpha : Ext),
      CachePureAB (fun cc => abLoopMax child play beta ms bm bu alpha cc) := by
  intro ms
  induction ms with
  | nil => intro bm bu alpha c1 c2; simp [abLoopMax]
  | cons m rest ih =>
    intro bm bu alpha c1 c2
    simp only [abLoopMax]
    cases hc : child alpha beta (play m) c2 with
    | none =>
      rw [(hchild alpha beta (play m)).none_all hc c1]
      simp
    | some rc =>
      obtain ⟨⟨mv, u⟩, c2'⟩ := rc
      obtain ⟨rfl, hall⟩ := (hchild alpha beta (play m)).some_all hc
      rw [hall c1]
      dsimp only
      by_cases hbreak :
          beta ≤ (if alpha < (if bm = none ∨ bu < u then u else bu) then
            (if bm = none ∨ bu < u then u else bu) else alpha)
      · simp only [if_pos hbreak]; simp
      · simp only [if_neg hbreak]
        exact ih _ _ _ c1 c2'

/-- With caching off, neither minimax node reads or writes the cache. -/
theorem minimax_nodes_pure (R : Rules) :
    ∀ (fuel : Nat) (b : Board) (c l : ℤ),
      CachePure (fun cc => minimax_min_node R fuel b c l 0 cc) ∧
      CachePure (fun cc => minimax_max_node R fuel b c l 0 cc) := by
  intro fuel
  induction fuel with
  | zero =>
    intro b c l
    constructor <;> (intro c1 c2; simp [minimax_min_node, minimax_max_node])
  | succ fuel ih =>
    intro b c l
    constructor
    · intro c1 c2
      dsimp only
      rw [minimax_min_node_nocache, minimax_min_node_nocache]
      by_cases hleaf : R.get_possible_moves b c = [] ∨ l = 0
      · simp [hleaf]
      · simp only [if_neg hleaf]
        exact mmLoopMin_pure _ _ (fun bb => (ih bb (3 - c) (l - 1)).2) _ _ _ c1 c2
    · intro c1 c2
      dsimp only
      rw [minimax_max_node_nocache, minimax_max_node_nocache]
      by_cases hleaf : R.get_possible_moves b c = [] ∨ l = 0
      · simp [hleaf]
      · simp only [if_neg hleaf]
        exact mmLoopMax_pure _ _ (fun bb => (ih bb (3 - c) (l - 1)).1) _ _ _ c1 c2

/-- With caching off, neither alpha-beta node reads or writes the cache. -/
theorem alphabeta_nodes_pure (R : Rules) :
    ∀ (fuel : Nat) (b : Board) (c : ℤ) (alpha beta : Ext) (l ordering : ℤ),
      CachePure (fun cc => alphabeta_min_node R fuel b c alpha beta l 0 ordering cc) ∧
      CachePure (fun cc => alphabeta_max_node R fuel b c alpha beta l 0 ordering cc) := by
  intro fuel
  induction fuel with
  | zero =>
    intro b c alpha beta l ordering
    constructor <;> (intro c1 c2; simp [alphabeta_min_node, alphabeta_max_node])
  | succ fuel ih =>
    intro b c alpha beta l ordering
    constructor
    · intro c1 c2
      dsimp only
      rw [alphabeta_min_node_nocache, alphabeta_min_node_nocache]
      by_cases hleaf : R.get_possible_moves b c = [] ∨ l = 0
      · simp [hleaf]
      · simp only [if_neg hleaf]
        have hpure := abLoopMin_pure
          (fun a bb nb cc => alphabeta_max_node R fuel nb (3 - c) a bb (l - 1) 0 ordering cc)
          (fun m => R.play_move b c m.1 m.2) alpha
          (fun a bb nb => (ih nb (3 - c) a bb (l - 1) ordering).2)
          (abMovesMin R b c ordering) none Ext.pinf beta
        have h1 := hpure c1 c2
        dsimp only at h1
        rw [h1]
        cases habl : abLoopMin
            (fun a bb nb cc => alphabeta_max_node R fuel nb (3 - c) a bb (l - 1) 0 ordering cc)
            (fun m => R.play_move b c m.1 m.2) alpha (abMovesMin R b c ordering)
            none Ext.pinf beta c2 with
        | none => simp
        | some r => obtain ⟨rr, w, cc⟩ := r; simp
    · intro c1 c2
      dsimp only
      rw [alphabeta_max_node_nocache, alphabeta_max_node_nocache]
      by_cases hleaf : R.get_possible_moves b c = [] ∨ l = 0
      · simp [hleaf]
      · simp only [if_neg hleaf]
        have hpure := abLoopMax_pure
          (fun a bb nb cc => alphabeta_min_node R fuel nb (3 - c) a bb (l - 1) 0 ordering cc)
          (fun m => R.play_move b c m.1 m.2) beta
          (fun a bb nb => (ih nb (3 - c) a bb (l - 1) ordering).1)
          (abMovesMax R b c ordering) none Ext.ninf alpha
        have h1 := hpure c1 c2
        dsimp only at h1
        rw [h1]
        cases habl : abLoopMax
            (fun a bb nb cc => alphabeta_min_node R fuel nb (3 - c) a bb (l - 1) 0 ordering cc)
            (fun m => R.play_move b c m.1 m.2) beta (abMovesMax R b c ordering)
            none Ext.ninf alpha c2 with
        | none => simp
        | some r => obtain ⟨rr, w, cc⟩ := r; simp

theorem CachePure.map_fst {f} (h : CachePure f) (c1 c2 : Cache) :
    (f c1).map Prod.fst = (f c2).map Prod.fst := by
  rw [h c1 c2]
  cases f c2 <;> simp

/-- C10: with caching = 0, none of the four node functions reads or
writes `cached_states`: the cache is returned unchanged and the
`(move, value)` result does not depend on the cache contents. -/
theorem caching_off_no_cache_effect (R : Rules) (fuel : Nat) (b : Board) (c : ℤ)
    (alpha beta : Ext) (l ordering : ℤ) (cache1 cache2 : Cache) :
    ((minimax_min_node R fuel b c l 0 cache1).map Prod.fst
        = (minimax_min_node R fuel b c l 0 cache2).map Prod.fst ∧
      ∀ r c', minimax_min_node R fuel b c l 0 cache1 = some (r, c') → c' = cache1) ∧
    ((minimax_max_node R fuel b c l 0 cache1).map Prod.fst
        = (minimax_max_node R fuel b c l 0 cache2).map Prod.fst ∧
      ∀ r c', minimax_max_node R fuel b c l 0 cache1 = some (r, c') → c' = cache1) ∧
    ((alphabeta_min_node R fuel b c alpha beta l 0 ordering cache1).map Prod.fst
        = (alphabeta_min_node R fuel b c alpha beta l 0 ordering cache2).map Prod.fst ∧
      ∀ r c', alphabeta_min_node R fuel b c alpha beta l 0 ordering cache1 = some (r, c') →
        c' = cache1) ∧
    ((alphabeta_max_node R fuel b c alpha beta l 0 ordering cache1).map Prod.fst
        = (alphabeta_max_node R fuel b c alpha beta l 0 ordering cache2).map Prod.fst ∧
      ∀ r c', alphabeta_max_node R fuel b c alpha beta l 0 ordering cache1 = some (r, c') →
        c' = cache1) := by
  refine ⟨⟨?_, ?_⟩, ⟨?_, ?_⟩, ⟨?_, ?_⟩, ⟨?_, ?_⟩⟩
  · exact (minimax_nodes_pure R fuel b c l).1.map_fst cache1 cache2
  · intro r c' h
    exact ((minimax_nodes_pure R fuel b c l).1.some_all h).1
  · exact (minimax_nodes_pure R fuel b c l).2.map_fst cache1 cache2
  · intro r c' h
    exact ((minimax_nodes_pure R fuel b c l).2.some_all h).1
  · exact (alphabeta_nodes_pure R fuel b c alpha beta l ordering).1.map_fst cache1 cache2
  · intro r c' h
    exact ((alphabeta_nodes_pure R fuel b c alpha beta l ordering).1.some_all h).1
  · exact (alphabeta_nodes_pure R fuel b c alpha beta l ordering).2.map_fst cache1 cache2
  · intro r c' h
    exact ((alphabeta_nodes_pure R fuel b c alpha beta l ordering).2.some_all h).1

/-! ### Value-level characterisation of the minimax loops -/

/-- Maximum of a list of `Ext` values over a starting value. -/
def listMax (init : Ext) : List Ext → Ext
  | [] => init
  | x :: xs => listMax (max init x) xs

/-- Minimum of a list of `Ext` values over a starting value. -/
def listMin (init : Ext) : List Ext → Ext
  | [] => init
  | x :: xs => listMin (min init x) xs

theorem listMax_mono {a b : Ext} (h : a ≤ b) :
    ∀ l : List Ext, listMax a l ≤ listMax b l := by
  intro l
  induction l generalizing a b with
  | nil => exact h
  | cons x xs ih => exact ih (max_le_max h le_rfl)

theorem le_listMax (init : Ext) (l : List Ext) : init ≤ listMax init l := by
  induction l generalizing init with
  | nil => exact le_rfl
  | cons x xs ih => exact le_trans (le_max_left init x) (ih (max init x))

theorem le_listMax_of_mem {x : Ext} {l : List Ext} (h : x ∈ l) (init : Ext) :
    x ≤ listMax init l := by
  induction l generalizing init with
  | nil => cases h
  | cons y ys ih =>
    rcases List.mem_cons.1 h with rfl | hy
    · exact le_trans (le_max_right init x) (le_listMax _ _)
    · exact ih hy _

theorem listMax_le {init : Ext} {l : List Ext} {b : Ext}
    (h0 : init ≤ b) (h : ∀ x ∈ l, x ≤ b) : listMax init l ≤ b := by
  induction l generalizing init with
  | nil => exact h0
  | cons x xs ih =>
    exact ih (max_le h0 (h x (List.mem_cons_self x xs))) fun y hy => h y (List.mem_cons_of_mem x hy)

theorem listMin_mono {a b : Ext} (h : a ≤ b) :
    ∀ l : List Ext, listMin a l ≤ listMin b l := by
  intro l
  induction l generalizing a b with
  | nil => exact h
  | cons x xs ih => exact ih (min_le_min h le_rfl)

theorem listMin_le (init : Ext) (l : List Ext) : listMin init l ≤ init := by
  induction l generalizing init with
  | nil => exact le_rfl
  | cons x xs ih => exact le_trans (ih (min init x)) (min_le_left init x)

theorem listMin_le_of_mem {x : Ext} {l : List Ext} (h : x ∈ l) (init : Ext) :
    listMin init l ≤ x := by
  induction l generalizing init with
  | nil => cases h
  | cons y ys ih =>
    rcases List.mem_cons.1 h with rfl | hy
    · exact le_trans (listMin_le (min init x) ys) (min_le_right init x)
    · exact ih hy _

theorem le_listMin {init : Ext} {l : List Ext} {b : Ext}
    (h0 : b ≤ init) (h : ∀ x ∈ l, b ≤ x) : b ≤ listMin init l := by
  induction l generalizing init with
  | nil => exact h0
  | cons x xs ih =>
    exact ih (le_min h0 (h x (List.mem_cons_self x xs))) fun y hy => h y (List.mem_cons_of_mem x hy)

theorem listMax_init (init : Ext) (l : List Ext) :
    listMax init l = max init (listMax Ext.ninf l) := by
  induction l generalizing init with
  | nil => simp [listMax, max_eq_left (Ext.ninf_le init)]
  | cons x xs ih =>
    show listMax (max init x) xs = max init (listMax (max Ext.ninf x) xs)
    rw [ih (max init x), ih (max Ext.ninf x), max_eq_right (Ext.ninf_le x),
      max_assoc]

theorem listMin_init (init : Ext) (l : List Ext) :
    listMin init l = min init (listMin Ext.pinf l) := by
  induction l generalizing init with
  | nil => simp [listMin, min_eq_left (Ext.le_pinf init)]
  | cons x xs ih =>
    show listMin (min init x) xs = min init (listMin (min Ext.pinf x) xs)
    rw [ih (min init x), ih (min Ext.pinf x), min_eq_right (Ext.le_pinf x),
      min_assoc]

/-- If the max loop finishes, every child call succeeded (the loop never
skips a move), and by purity its result is cache-independent. -/
theorem mmLoopMax_success (child : Board → Cache → Option ((Option Move × Ext) × Cache))
    (play : Move → Board) (hpure : ∀ b', CachePure (child b')) :
    ∀ (ms : List Move) (bm : Option Move) (bu : Ext) (cache : Cache) r,
      mmLoopMax child play ms bm bu cache = some r →
      ∀ m ∈ ms, ∃ mv u, ∀ cc, child (play m) cc = some ((mv, u), cc) := by
  intro ms
  induction ms with
  | nil => intro bm bu cache r _ m hm; cases hm
  | cons m0 rest ih =>
    intro bm bu cache r hrun m hm
    rw [mmLoopMax] at hrun
    cases hc : child (play m0) cache with
    | none => rw [hc] at hrun; cases hrun
    | some rc =>
      obtain ⟨⟨mv, u⟩, c'⟩ := rc
      rw [hc] at hrun
      dsimp only at hrun
      obtain ⟨rfl, hall⟩ := (hpure (play m0)).some_all hc
      rcases List.mem_cons.1 hm with rfl | hrest
      · exact ⟨mv, u, hall⟩
      · by_cases hcond : bm = none ∨ bu < u
        · rw [if_pos hcond] at hrun; exact ih _ _ _ _ hrun m hrest
        · rw [if_neg hcond] at hrun; exact ih _ _ _ _ hrun m hrest

theorem mmLoopMin_success (child : Board → Cache → Option ((Option Move × Ext) × Cache))
    (play : Move → Board) (hpure : ∀ b', CachePure (child b')) :
    ∀ (ms : List Move) (bm : Option Move) (bu : Ext) (cache : Cache) r,
      mmLoopMin child play ms bm bu cache = some r →
      ∀ m ∈ ms, ∃ mv u, ∀ cc, child (play m) cc = some ((mv, u), cc) := by
  intro ms
  induction ms with
  | nil => intro bm bu cache r _ m hm; cases hm
  | cons m0 rest ih =>
    intro bm bu cache r hrun m hm
    rw [mmLoopMin] at hrun
    cases hc : child (play m0) cache with
    | none => rw [hc] at hrun; cases hrun
    | some rc =>
      obtain ⟨⟨mv, u⟩, c'⟩ := rc
      rw [hc] at hrun
      dsimp only at hrun
      obtain ⟨rfl, hall⟩ := (hpure (play m0)).some_all hc
      rcases List.mem_cons.1 hm with rfl | hrest
      · exact ⟨mv, u, hall⟩
      · by_cases hcond : bm = none ∨ u < bu
        · rw [if_pos hcond] at hrun; exact ih _ _ _ _ hrun m hrest
        · rw [if_neg hcond] at hrun; exact ih _ _ _ _ hrun m hrest

/-- Value of the max loop: the running maximum of the child values. -/
theorem mmLoopMax_val (child : Board → Cache → Option ((Option Move × Ext) × Cache))
    (play : Move → Board) (vm : Move → Ext) :
    ∀ (ms : List Move) (bm : Option Move) (bu : Ext) (cache : Cache),
      (∀ m ∈ ms, ∀ cc, ∃ mv, child (play m) cc = some ((mv, vm m), cc)) →
      (bm = none → bu = Ext.ninf) →
      ∃ bm', mmLoopMax child play ms bm bu cache
        = some ((bm', listMax bu (ms.map vm)), cache) := by
  intro ms
  induction ms with
  | nil => intro bm bu cache _ _; exact ⟨bm, rfl⟩
  | cons m0 rest ih =>
    intro bm bu cache hv hbm
    obtain ⟨mv, hc⟩ := hv m0 (List.mem_cons_self m0 rest) cache
    rw [mmLoopMax, hc]
    dsimp only
    by_cases hcond : bm = none ∨ bu < vm m0
    · rw [if_pos hcond]
      have hmax : max bu (vm m0) = vm m0 := by
        rcases hcond with h | h
        · rw [hbm h]; exact max_eq_right (Ext.ninf_le _)
        · exact max_eq_right (le_of_lt h)
      have := ih (some m0) (vm m0) cache
        (fun m hm cc => hv m (List.mem_cons_of_mem m0 hm) cc) (by simp)
      simpa [listMax, hmax] using this
    · rw [if_neg hcond]
      push_neg at hcond
      have hmax : max bu (vm m0) = bu := max_eq_left hcond.2
      have := ih bm bu cache
        (fun m hm cc => hv m (List.mem_cons_of_mem m0 hm) cc) hbm
      simpa [listMax, hmax] using this

/-- Value of the min loop: the running minimum of the child values. -/
theorem mmLoopMin_val (child : Board → Cache → Option ((Option Move × Ext) × Cache))
    (play : Move → Board) (vm : Move → Ext) :
    ∀ (ms : List Move) (bm : Option Move) (bu : Ext) (cache : Cache),
      (∀ m ∈ ms, ∀ cc, ∃ mv, child (play m) cc = some ((mv, vm m), cc)) →
      (bm = none → bu = Ext.pinf) →
      ∃ bm', mmLoopMin child play ms bm bu cache
        = some ((bm', listMin bu (ms.map vm)), cache) := by
  intro ms
  induction ms with
  | nil => intro bm bu cache _ _; exact ⟨bm, rfl⟩
  | cons m0 rest ih =>
    intro bm bu cache hv hbm
    obtain ⟨mv, hc⟩ := hv m0 (List.mem_cons_self m0 rest) cache
    rw [mmLoopMin, hc]
    dsimp only
    by_cases hcond : bm = none ∨ vm m0 < bu
    · rw [if_pos hcond]
      have hmin : min bu (vm m0) = vm m0 := by
        rcases hcond with h | h
        · rw [hbm h]; exact min_eq_right (Ext.le_pinf _)
        · exact min_eq_right (le_of_lt h)
      have := ih (some m0) (vm m0) cache
        (fun m hm cc => hv m (List.mem_cons_of_mem m0 hm) cc) (by simp)
      simpa [listMin, hmin] using this
    · rw [if_neg hcond]
      push_neg at hcond
      have hmin : min bu (vm m0) = bu := min_eq_left hcond.2
      have := ih bm bu cache
        (fun m hm cc => hv m (List.mem_cons_of_mem m0 hm) cc) hbm
      simpa [listMin, hmin] using this

/-- Tie-break shape of the max loop from a standing best: either no move
improves on `bu` and the best is unchanged, or the result is the first
move whose value is the maximum (earlier moves are strictly below it,
later ones never replace it). -/
theorem mmLoopMax_argmax_some
    (child : Board → Cache → Option ((Option Move × Ext) × Cache))
    (play : Move → Board) (vm : Move → Ext) :
    ∀ (ms : List Move) (mb : Move) (bu : Ext) (cache : Cache),
      (∀ m ∈ ms, ∀ cc, ∃ mv, child (play m) cc = some ((mv, vm m), cc)) →
      ((∀ m ∈ ms, vm m ≤ bu) ∧
        mmLoopMax child play ms (some mb) bu cache = some ((some mb, bu), cache)) ∨
      (∃ pre m' post, ms = pre ++ m' :: post ∧ bu < vm m' ∧
        mmLoopMax child play ms (some mb) bu cache = some ((some m', vm m'), cache) ∧
        (∀ m ∈ pre, vm m < vm m') ∧ (∀ m ∈ post, vm m ≤ vm m')) := by
  intro ms
  induction ms with
  | nil => intro mb bu cache _; exact Or.inl ⟨by simp, rfl⟩
  | cons m0 rest ih =>
    intro mb bu cache hv
    obtain ⟨mv, hc⟩ := hv m0 (List.mem_cons_self m0 rest) cache
    have hvrest : ∀ m ∈ rest, ∀ cc, ∃ mv, child (play m) cc = some ((mv, vm m), cc) :=
      fun m hm cc => hv m (List.mem_cons_of_mem m0 hm) cc
    by_cases hcond : bu < vm m0
    · -- the first move replaces the best
      rcases ih m0 (vm m0) cache hvrest with ⟨hall, hrun⟩ | ⟨pre, m', post, hsplit, hlt, hrun, hpre, hpost⟩
      · refine Or.inr ⟨[], m0, rest, by simp, hcond, ?_, by simp, hall⟩
        rw [mmLoopMax, hc]
        dsimp only
        rw [if_pos (Or.inr hcond)]
        exact hrun
      · refine Or.inr ⟨m0 :: pre, m', post, by rw [hsplit]; simp, lt_trans hcond hlt, ?_,
          ?_, hpost⟩
        · rw [mmLoopMax, hc]
          dsimp only
          rw [if_pos (Or.inr hcond)]
          exact hrun
        · intro m hm
          rcases List.mem_cons.1 hm with rfl | hm'
          · exact hlt
          · exact hpre m hm'
    · -- the first move does not replace the best
      push_neg at hcond
      rcases ih mb bu cache hvrest with ⟨hall, hrun⟩ | ⟨pre, m', post, hsplit, hlt, hrun, hpre, hpost⟩
      · refine Or.inl ⟨?_, ?_⟩
        · intro m hm
          rcases List.mem_cons.1 hm with rfl | hm'
          · exact hcond
          · exact hall m hm'
        · rw [mmLoopMax, hc]
          dsimp only
          rw [if_neg (by simp [hcond, not_lt_of_le hcond])]
          exact hrun
      · refine Or.inr ⟨m0 :: pre, m', post, by rw [hsplit]; simp, hlt, ?_, ?_, hpost⟩
        · rw [mmLoopMax, hc]
          dsimp only
          rw [if_neg (by simp [hcond, not_lt_of_le hcond])]
          exact hrun
        · intro m hm
          rcases List.mem_cons.1 hm with rfl | hm'
          · exact lt_of_le_of_lt hcond hlt
          · exact hpre m hm'

/-- Tie-break shape of the max loop from scratch: the returned move is
the first move attaining the maximum child value. -/
theorem mmLoopMax_argmax
    (child : Board → Cache → Option ((Option Move × Ext) × Cache))
    (play : Move → Board) (vm : Move → Ext) :
    ∀ (ms : List Move) (cache : Cache),
      (∀ m ∈ ms, ∀ cc, ∃ mv, child (play m) cc = some ((mv, vm m), cc)) →
      ms ≠ [] →
      ∃ pre m' post, ms = pre ++ m' :: post ∧
        mmLoopMax child play ms none Ext.ninf cache = some ((some m', vm m'), cache) ∧
        (∀ m ∈ pre, vm m < vm m') ∧ (∀ m ∈ post, vm m ≤ vm m') := by
  intro ms cache hv hne
  cases ms with
  | nil => exact absurd rfl hne
  | cons m0 rest =>
    obtain ⟨mv, hc⟩ := hv m0 (List.mem_cons_self m0 rest) cache
    have hvrest : ∀ m ∈ rest, ∀ cc, ∃ mv, child (play m) cc = some ((mv, vm m), cc) :=
      fun m hm cc => hv m (List.mem_cons_of_mem m0 hm) cc
    rcases mmLoopMax_argmax_some child play vm rest m0 (vm m0) cache hvrest with
      ⟨hall, hrun⟩ | ⟨pre, m', post, hsplit, hlt, hrun, hpre, hpost⟩
    · refine ⟨[], m0, rest, by simp, ?_, by simp, hall⟩
      rw [mmLoopMax, hc]
      dsimp only
      rw [if_pos (Or.inl rfl)]
      exact hrun
    · refine ⟨m0 :: pre, m', post, by rw [hsplit]; simp, ?_, ?_, hpost⟩
      · rw [mmLoopMax, hc]
        dsimp only
        rw [if_pos (Or.inl rfl)]
        exact hrun
      · intro m hm
        rcases List.mem_cons.1 hm with rfl | hm'
        · exact hlt
        · exact hpre m hm'

/-- Tie-break shape of the min loop from a standing best. -/
theorem mmLoopMin_argmin_some
    (child : Board → Cache → Option ((Option Move × Ext) × Cache))
    (play : Move → Board) (vm : Move → Ext) :
    ∀ (ms : List Move) (mb : Move) (bu : Ext) (cache : Cache),
      (∀ m ∈ ms, ∀ cc, ∃ mv, child (play m) cc = some ((mv, vm m), cc)) →
      ((∀ m ∈ ms, bu ≤ vm m) ∧
        mmLoopMin child play ms (some mb) bu cache = some ((some mb, bu), cache)) ∨
      (∃ pre m' post, ms = pre ++ m' :: post ∧ vm m' < bu ∧
        mmLoopMin child play ms (some mb) bu cache = some ((some m', vm m'), cache) ∧
        (∀ m ∈ pre, vm m' < vm m) ∧ (∀ m ∈ post, vm m' ≤ vm m)) := by
  intro ms
  induction ms with
  | nil => intro mb bu cache _; exact Or.inl ⟨by simp, rfl⟩
  | cons m0 rest ih =>
    intro mb bu cache hv
    obtain ⟨mv, hc⟩ := hv m0 (List.mem_cons_self m0 rest) cache
    have hvrest : ∀ m ∈ rest, ∀ cc, ∃ mv, child (play m) cc = some ((mv, vm m), cc) :=
      fun m hm cc => hv m (List.mem_cons_of_mem m0 hm) cc
    by_cases hcond : vm m0 < bu
    · rcases ih m0 (vm m0) cache hvrest with ⟨hall, hrun⟩ | ⟨pre, m', post, hsplit, hlt, hrun, hpre, hpost⟩
      · refine Or.inr ⟨[], m0, rest, by simp, hcond, ?_, by simp, hall⟩
        rw [mmLoopMin, hc]
        dsimp only
        rw [if_pos (Or.inr hcond)]
        exact hrun
      · refine Or.inr ⟨m0 :: pre, m', post, by rw [hsplit]; simp, lt_trans hlt hcond, ?_,
          ?_, hpost⟩
        · rw [mmLoopMin, hc]
          dsimp only
          rw [if_pos (Or.inr hcond)]
          exact hrun
        · intro m hm
          rcases List.mem_cons.1 hm with rfl | hm'
          · exact hlt
          · exact hpre m hm'
    · push_neg at hcond
      rcases ih mb bu cache hvrest with ⟨hall, hrun⟩ | ⟨pre, m', post, hsplit, hlt, hrun, hpre, hpost⟩
      · refine Or.inl ⟨?_, ?_⟩
        · intro m hm
          rcases List.mem_cons.1 hm with rfl | hm'
          · exact hcond
          · exact hall m hm'
        · rw [mmLoopMin, hc]
          dsimp only
          rw [if_neg (by simp [not_lt_of_le hcond])]
          exact hrun
      · refine Or.inr ⟨m0 :: pre, m', post, by rw [hsplit]; simp, hlt, ?_, ?_, hpost⟩
        · rw [mmLoopMin, hc]
          dsimp only
          rw [if_neg (by simp [not_lt_of_le hcond])]
          exact hrun
        · intro m hm
          rcases List.mem_cons.1 hm with rfl | hm'
          · exact lt_of_lt_of_le hlt hcond
          · exact hpre m hm'

/-- Tie-break shape of the min loop from scratch: the returned move is
the first move attaining the minimum child value. -/
theorem mmLoopMin_argmin
    (child : Board → Cache → Option ((Option Move × Ext) × Cache))
    (play : Move → Board) (vm : Move → Ext) :
    ∀ (ms : List Move) (cache : Cache),
      (∀ m ∈ ms, ∀ cc, ∃ mv, child (play m) cc = some ((mv, vm m), cc)) →
      ms ≠ [] →
      ∃ pre m' post, ms = pre ++ m' :: post ∧
        mmLoopMin child play ms none Ext.pinf cache = some ((some m', vm m'), cache) ∧
        (∀ m ∈ pre, vm m' < vm m) ∧ (∀ m ∈ post, vm m' ≤ vm m) := by
  intro ms cache hv hne
  cases ms with
  | nil => exact absurd rfl hne
  | cons m0 rest =>
    obtain ⟨mv, hc⟩ := hv m0 (List.mem_cons_self m0 rest) cache
    have hvrest : ∀ m ∈ rest, ∀ cc, ∃ mv, child (play m) cc = some ((mv, vm m), cc) :=
      fun m hm cc => hv m (List.mem_cons_of_mem m0 hm) cc
    rcases mmLoopMin_argmin_some child play vm rest m0 (vm m0) cache hvrest with
      ⟨hall, hrun⟩ | ⟨pre, m', post, hsplit, hlt, hrun, hpre, hpost⟩
    · refine ⟨[], m0, rest, by simp, ?_, by simp, hall⟩
      rw [mmLoopMin, hc]
      dsimp only
      rw [if_pos (Or.inl rfl)]
      exact hrun
    · refine ⟨m0 :: pre, m', post, by rw [hsplit]; simp, ?_, ?_, hpost⟩
      · rw [mmLoopMin, hc]
        dsimp only
        rw [if_pos (Or.inl rfl)]
        exact hrun
      · intro m hm
        rcases List.mem_cons.1 hm with rfl | hm'
        · exact hlt
        · exact hpre m hm'

/-! ### Node values of the cache-free minimax search -/

/-- The value computed by `minimax_max_node` with caching off (junk
`ninf` when the fuel is insufficient). -/
def maxVal (R : Rules) (fuel : Nat) (b : Board) (c l : ℤ) : Ext :=
  ((minimax_max_node R fuel b c l 0 emptyCache).map (fun r => r.1.2)).getD Ext.ninf

/-- The value computed by `minimax_min_node` with caching off (junk
`pinf` when the fuel is insufficient). -/
def minVal (R : Rules) (fuel : Nat) (b : Board) (c l : ℤ) : Ext :=
  ((minimax_min_node R fuel b c l 0 emptyCache).map (fun r => r.1.2)).getD Ext.pinf

theorem maxVal_spec (R : Rules) (fuel : Nat) (b : Board) (c l : ℤ)
    (h : (minimax_max_node R fuel b c l 0 emptyCache).isSome) :
    ∀ cache, ∃ mv, minimax_max_node R fuel b c l 0 cache
      = some ((mv, maxVal R fuel b c l), cache) := by
  intro cache
  obtain ⟨⟨⟨mv, u⟩, c'⟩, hr⟩ := Option.isSome_iff_exists.1 h
  have hall := ((minimax_nodes_pure R fuel b c l).2.some_all hr).2
  refine ⟨mv, ?_⟩
  rw [hall cache, maxVal, hr]
  rfl

theorem minVal_spec (R : Rules) (fuel : Nat) (b : Board) (c l : ℤ)
    (h : (minimax_min_node R fuel b c l 0 emptyCache).isSome) :
    ∀ cache, ∃ mv, minimax_min_node R fuel b c l 0 cache
      = some ((mv, minVal R fuel b c l), cache) := by
  intro cache
  obtain ⟨⟨⟨mv, u⟩, c'⟩, hr⟩ := Option.isSome_iff_exists.1 h
  have hall := ((minimax_nodes_pure R fuel b c l).1.some_all hr).2
  refine ⟨mv, ?_⟩
  rw [hall cache, minVal, hr]
  rfl

theorem maxVal_leaf (R : Rules) (fuel : Nat) (b : Board) (c l : ℤ)
    (hleaf : R.get_possible_moves b c = [] ∨ l = 0) :
    maxVal R (fuel + 1) b c l = Ext.fin (compute_utility R b c) := by
  rw [maxVal, minimax_max_node_nocache, if_pos hleaf]
  rfl

theorem minVal_leaf (R : Rules) (fuel : Nat) (b : Board) (c l : ℤ)
    (hleaf : R.get_possible_moves b c = [] ∨ l = 0) :
    minVal R (fuel + 1) b c l = Ext.fin (compute_utility R b c) := by
  rw [minVal, minimax_min_node_nocache, if_pos hleaf]
  rfl

/-- Every child of a successful non-leaf max node succeeds, with value
`minVal` of the child position. -/
theorem minimax_max_children (R : Rules) (fuel : Nat) (b : Board) (c l : ℤ)
    (h : (minimax_max_node R (fuel + 1) b c l 0 emptyCache).isSome)
    (hleaf : ¬(R.get_possible_moves b c = [] ∨ l = 0)) :
    ∀ m ∈ R.get_possible_moves b c, ∀ cc, ∃ mv,
      minimax_min_node R fuel (R.play_move b c m.1 m.2) (3 - c) (l - 1) 0 cc
        = some ((mv, minVal R fuel (R.play_move b c m.1 m.2) (3 - c) (l - 1)), cc) := by
  intro m hm cc
  obtain ⟨r, hr⟩ := Option.isSome_iff_exists.1 h
  rw [minimax_max_node_nocache, if_neg hleaf] at hr
  obtain ⟨mv, u, hall⟩ := mmLoopMax_success _ _
    (fun bb => (minimax_nodes_pure R fuel bb (3 - c) (l - 1)).1) _ _ _ _ _ hr m hm
  have hu : u = minVal R fuel (R.play_move b c m.1 m.2) (3 - c) (l - 1) := by
    rw [minVal, hall emptyCache]
    rfl
  exact ⟨mv, by rw [hall cc, hu]⟩

/-- Every child of a successful non-leaf min node succeeds, with value
`maxVal` of the child position. -/
theorem minimax_min_children (R : Rules) (fuel : Nat) (b : Board) (c l : ℤ)
    (h : (minimax_min_node R (fuel + 1) b c l 0 emptyCache).isSome)
    (hleaf : ¬(R.get_possible_moves b c = [] ∨ l = 0)) :
    ∀ m ∈ R.get_possible_moves b c, ∀ cc, ∃ mv,
      minimax_max_node R fuel (R.play_move b c m.1 m.2) (3 - c) (l - 1) 0 cc
        = some ((mv, maxVal R fuel (R.play_move b c m.1 m.2) (3 - c) (l - 1)), cc) := by
  intro m hm cc
  obtain ⟨r, hr⟩ := Option.isSome_iff_exists.1 h
  rw [minimax_min_node_nocache, if_neg hleaf] at hr
  obtain ⟨mv, u, hall⟩ := mmLoopMin_success _ _
    (fun bb => (minimax_nodes_pure R fuel bb (3 - c) (l - 1)).2) _ _ _ _ _ hr m hm
  have hu : u = maxVal R fuel (R.play_move b c m.1 m.2) (3 - c) (l - 1) := by
    rw [maxVal, hall emptyCache]
    rfl
  exact ⟨mv, by rw [hall cc, hu]⟩

/-- The value of a successful non-leaf max node is the maximum of the
child min-values. -/
theorem maxVal_eq_listMax (R : Rules) (fuel : Nat) (b : Board) (c l : ℤ)
    (h : (minimax_max_node R (fuel + 1) b c l 0 emptyCache).isSome)
    (hleaf : ¬(R.get_possible_moves b c = [] ∨ l = 0)) :
    maxVal R (fuel + 1) b c l = listMax Ext.ninf ((R.get_possible_moves b c).map
      (fun m => minVal R fuel (R.play_move b c m.1 m.2) (3 - c) (l - 1))) := by
  obtain ⟨bm', hrun⟩ := mmLoopMax_val
    (fun bb cc => minimax_min_node R fuel bb (3 - c) (l - 1) 0 cc)
    (fun m => R.play_move b c m.1 m.2)
    (fun m => minVal R fuel (R.play_move b c m.1 m.2) (3 - c) (l - 1))
    (R.get_possible_moves b c) none Ext.ninf emptyCache
    (minimax_max_children R fuel b c l h hleaf) (fun _ => rfl)
  rw [maxVal, minimax_max_node_nocache, if_neg hleaf, hrun]
  rfl

/-- The value of a successful non-leaf min node is the minimum of the
child max-values. -/
theorem minVal_eq_listMin (R : Rules) (fuel : Nat) (b : Board) (c l : ℤ)
    (h : (minimax_min_node R (fuel + 1) b c l 0 emptyCache).isSome)
    (hleaf : ¬(R.get_possible_moves b c = [] ∨ l = 0)) :
    minVal R (fuel + 1) b c l = listMin Ext.pinf ((R.get_possible_moves b c).map
      (fun m => maxVal R fuel (R.play_move b c m.1 m.2) (3 - c) (l - 1))) := by
  obtain ⟨bm', hrun⟩ := mmLoopMin_val
    (fun bb cc => minimax_max_node R fuel bb (3 - c) (l - 1) 0 cc)
    (fun m => R.play_move b c m.1 m.2)
    (fun m => maxVal R fuel (R.play_move b c m.1 m.2) (3 - c) (l - 1))
    (R.get_possible_moves b c) none Ext.pinf emptyCache
    (minimax_min_children R fuel b c l h hleaf) (fun _ => rfl)
  rw [minVal, minimax_min_node_nocache, if_neg hleaf, hrun]
  rfl

/-! ### Knuth–Moore bounds for the alpha-beta loops

The loops are fail-soft: with a window `(alpha0, beta)` they return a
value `r` with `r ≤ alpha0 → v ≤ r`, `beta ≤ r → r ≤ v`, and `r = v`
whenever `r` lies strictly inside the window, where `v` is the plain
minimax value of the same subtree. -/

theorem abLoopMax_km
    (child : Ext → Ext → Board → Cache → Option ((Option Move × Ext) × Cache))
    (play : Move → Board) (vm : Move → Ext) (beta alpha0 : Ext) :
    ∀ (ms : List Move) (bm : Option Move) (bu alpha : Ext) (cache : Cache),
      (∀ m ∈ ms, ∀ a b', a < b' → ∀ cc, ∃ mv r,
        child a b' (play m) cc = some ((mv, r), cc) ∧
        (r ≤ a → vm m ≤ r) ∧ (b' ≤ r → r ≤ vm m) ∧ (a < r → r < b' → r = vm m)) →
      alpha = max alpha0 bu →
      alpha < beta →
      (bm = none → bu = Ext.ninf) →
      ∃ bm' bu', abLoopMax child play beta ms bm bu alpha cache
          = some ((bm', bu'), max alpha0 bu', cache) ∧
        bu ≤ bu' ∧
        (bu' ≤ alpha0 → listMax bu (ms.map vm) ≤ bu') ∧
        (beta ≤ bu' → bu' ≤ listMax bu (ms.map vm)) ∧
        (alpha0 < bu' → bu' < beta → bu' = listMax bu (ms.map vm)) := by
  intro ms
  induction ms with
  | nil =>
    intro bm bu alpha cache _ hα hαβ _
    refine ⟨bm, bu, ?_, le_rfl, fun _ => le_rfl, fun _ => le_rfl, fun _ _ => rfl⟩
    rw [abLoopMax, hα]
  | cons m rest ih =>
    intro bm bu alpha cache hchild hα hαβ hbm
    obtain ⟨mv, r, hc, hlow, hhigh, hwin⟩ :=
      hchild m (List.mem_cons_self m rest) alpha beta hαβ cache
    have hchildrest : ∀ m' ∈ rest, ∀ a b', a < b' → ∀ cc, ∃ mv r,
        child a b' (play m') cc = some ((mv, r), cc) ∧
        (r ≤ a → vm m' ≤ r) ∧ (b' ≤ r → r ≤ vm m') ∧ (a < r → r < b' → r = vm m') :=
      fun m' hm' => hchild m' (List.mem_cons_of_mem m hm')
    rw [abLoopMax, hc]
    dsimp only
    set bm1 : Option Move := if bm = none ∨ bu < r then some m else bm with hbm1_def
    set bu1 : Ext := if bm = none ∨ bu < r then r else bu with hbu1_def
    have hbu1 : bu1 = max bu r := by
      rw [hbu1_def]
      by_cases hcond : bm = none ∨ bu < r
      · rw [if_pos hcond]
        rcases hcond with h | h
        · rw [hbm h]; exact (max_eq_right (Ext.ninf_le r)).symm
        · exact (max_eq_right (le_of_lt h)).symm
      · rw [if_neg hcond]
        push_neg at hcond
        exact (max_eq_left hcond.2).symm
    have hbu_le_bu1 : bu ≤ bu1 := hbu1 ▸ le_max_left bu r
    have hr_le_bu1 : r ≤ bu1 := hbu1 ▸ le_max_right bu r
    have hbm1 : bm1 = none → bu1 = Ext.ninf := by
      intro hn
      rw [hbm1_def] at hn
      by_cases hcond : bm = none ∨ bu < r
      · rw [if_pos hcond] at hn; cases hn
      · rw [if_neg hcond] at hn
        push_neg at hcond
        exact absurd hn hcond.1
    set alpha1 : Ext := if alpha < bu1 then bu1 else alpha with halpha1_def
    have halpha1 : alpha1 = max alpha0 bu1 := by
      rw [halpha1_def]
      have : (if alpha < bu1 then bu1 else alpha) = max alpha bu1 := by
        by_cases h : alpha < bu1
        · rw [if_pos h]; exact (max_eq_right (le_of_lt h)).symm
        · rw [if_neg h]; exact (max_eq_left (le_of_not_lt h)).symm
      rw [this, hα, hbu1, max_assoc alpha0 bu (max bu r), ← max_assoc bu bu r,
        max_self]
    have hbu1_le_alpha1 : bu1 ≤ alpha1 := halpha1 ▸ le_max_right alpha0 bu1
    have halpha0_le_alpha : alpha0 ≤ alpha := hα ▸ le_max_left alpha0 bu
    have hbu_le_alpha : bu ≤ alpha := hα ▸ le_max_right alpha0 bu
    have hW : listMax bu ((m :: rest).map vm)
        = listMax (max bu (vm m)) (rest.map vm) := rfl
    by_cases hbreak : beta ≤ alpha1
    · -- cutoff: stop with the current best
      rw [if_pos hbreak]
      have hβbu1 : beta ≤ bu1 := by
        rw [halpha1] at hbreak
        rcases max_cases alpha0 bu1 with ⟨heq, _⟩ | ⟨heq, _⟩
        · rw [heq] at hbreak
          exact absurd (lt_of_lt_of_le hαβ hbreak) (not_lt_of_le halpha0_le_alpha)
        · rwa [heq] at hbreak
      refine ⟨bm1, bu1, by rw [halpha1], hbu_le_bu1, ?_, ?_, ?_⟩
      · intro hle
        exact absurd (lt_of_le_of_lt halpha0_le_alpha hαβ)
          (not_lt_of_le (le_trans hβbu1 hle))
      · intro _
        have hbu_lt : bu < bu1 := lt_of_le_of_lt hbu_le_alpha (lt_of_lt_of_le hαβ hβbu1)
        have hbu1r : bu1 = r := by
          rcases max_cases bu r with ⟨heq, _⟩ | ⟨heq, _⟩
          · rw [hbu1] at hbu_lt ⊢; rw [heq] at hbu_lt ⊢; exact absurd hbu_lt (lt_irrefl bu)
          · rw [hbu1, heq]
        have : r ≤ vm m := hhigh (hbu1r ▸ hβbu1)
        rw [hW, hbu1r]
        exact le_trans this (le_trans (le_max_right bu (vm m)) (le_listMax _ _))
      · intro _ hlt
        exact absurd (lt_of_lt_of_le hlt hβbu1) (lt_irrefl bu1)
    · -- no cutoff: continue with the rest of the moves
      rw [if_neg hbreak]
      have halpha1β : alpha1 < beta := lt_of_not_le hbreak
      have hbu1β : bu1 < beta := lt_of_le_of_lt hbu1_le_alpha1 halpha1β
      rcases le_or_lt r alpha with hralpha | halphar
      · -- the child failed low: its report bounds the true value from above
        have hvmr : vm m ≤ r := hlow hralpha
        obtain ⟨bm', bu'', hrun, hle, hclow, hchigh, hcwin⟩ :=
          ih bm1 bu1 alpha1 cache hchildrest halpha1 halpha1β hbm1
        rcases le_or_lt r bu with hrbu | hbur
        · -- report at most the standing best: nothing changes
          have hbu1bu : bu1 = bu := hbu1 ▸ max_eq_left hrbu
          have hWW : listMax (max bu (vm m)) (rest.map vm) = listMax bu1 (rest.map vm) := by
            rw [hbu1bu, max_eq_left (le_trans hvmr hrbu)]
          refine ⟨bm', bu'', hrun, le_trans hbu_le_bu1 hle, ?_, ?_, ?_⟩
          · intro h0; rw [hW, hWW]; exact hclow h0
          · intro h0; rw [hW, hWW]; exact hchigh h0
          · intro h0 h1; rw [hW, hWW]; exact hcwin h0 h1
        · -- the best rises to the (possibly inflated) low report
          have hbu1r : bu1 = r := hbu1 ▸ max_eq_right (le_of_lt hbur)
          have hralpha0 : r ≤ alpha0 := by
            rw [hα] at hralpha
            rcases max_cases alpha0 bu with ⟨heq, _⟩ | ⟨heq, hle'⟩
            · rwa [heq] at hralpha
            · rw [heq] at hralpha; exact absurd (lt_of_lt_of_le hbur hralpha) (lt_irrefl bu)
          set S := listMax Ext.ninf (rest.map vm) with hS
          have hW' : listMax bu1 (rest.map vm) = max r S := by rw [hbu1r, listMax_init]
          have hWm : listMax bu ((m :: rest).map vm) = max (max bu (vm m)) S := by
            rw [hW, listMax_init]
          have hWle : listMax bu ((m :: rest).map vm) ≤ listMax bu1 (rest.map vm) := by
            rw [hWm, hW']
            exact max_le_max (le_trans (max_le (le_of_lt hbur) hvmr) le_rfl) le_rfl
          refine ⟨bm', bu'', hrun, le_trans hbu_le_bu1 hle, ?_, ?_, ?_⟩
          · intro h0
            exact le_trans hWle (hclow h0)
          · intro h0
            have hbu'' := hchigh h0
            rw [hW'] at hbu''
            have hrlt : r < bu'' :=
              lt_of_le_of_lt hralpha0 (lt_of_le_of_lt halpha0_le_alpha (lt_of_lt_of_le hαβ h0))
            have hbu''S : bu'' ≤ S := by
              rcases max_cases r S with ⟨heq, _⟩ | ⟨heq, _⟩
              · rw [heq] at hbu''; exact absurd (lt_of_lt_of_le hrlt hbu'') (lt_irrefl r)
              · rwa [heq] at hbu''
            rw [hWm]
            exact le_trans hbu''S (le_max_right _ _)
          · intro h0 h1
            have hbu'' := hcwin h0 h1
            rw [hW'] at hbu''
            have hrlt : r < bu'' := lt_of_le_of_lt hralpha0 h0
            have hbu''S : bu'' = S := by
              rcases max_cases r S with ⟨heq, _⟩ | ⟨heq, _⟩
              · rw [heq] at hbu''; exact absurd (hbu'' ▸ hrlt) (lt_irrefl r)
              · rwa [heq] at hbu''
            rw [hWm, hbu''S]
            have hrS : r ≤ S := hbu''S ▸ le_of_lt hrlt
            exact (max_eq_right (le_trans (max_le (le_of_lt hbur) hvmr) hrS)).symm
      · rcases lt_or_le r beta with hrβ | hβr
        · -- the report is inside the window: it is the exact child value
          have hrvm : r = vm m := hwin halphar hrβ
          have hWW : listMax bu ((m :: rest).map vm) = listMax bu1 (rest.map vm) := by
            rw [hW, hbu1, hrvm]
          obtain ⟨bm', bu'', hrun, hle, hclow, hchigh, hcwin⟩ :=
            ih bm1 bu1 alpha1 cache hchildrest halpha1 halpha1β hbm1
          refine ⟨bm', bu'', hrun, le_trans hbu_le_bu1 hle, ?_, ?_, ?_⟩
          · intro h0; rw [hWW]; exact hclow h0
          · intro h0; rw [hWW]; exact hchigh h0
          · intro h0 h1; rw [hWW]; exact hcwin h0 h1
        · -- a high report would have broken the loop
          exact absurd (le_trans hβr (le_trans hr_le_bu1 hbu1_le_alpha1)) hbreak

theorem abLoopMin_km
    (child : Ext → Ext → Board → Cache → Option ((Option Move × Ext) × Cache))
    (play : Move → Board) (vm : Move → Ext) (alpha beta0 : Ext) :
    ∀ (ms : List Move) (bm : Option Move) (bu beta : Ext) (cache : Cache),
      (∀ m ∈ ms, ∀ a b', a < b' → ∀ cc, ∃ mv r,
        child a b' (play m) cc = some ((mv, r), cc) ∧
        (r ≤ a → vm m ≤ r) ∧ (b' ≤ r → r ≤ vm m) ∧ (a < r → r < b' → r = vm m)) →
      beta = min beta0 bu →
      alpha < beta →
      (bm = none → bu = Ext.pinf) →
      ∃ bm' bu', abLoopMin child play alpha ms bm bu beta cache
          = some ((bm', bu'), min beta0 bu', cache) ∧
        bu' ≤ bu ∧
        (bu' ≤ alpha → listMin bu (ms.map vm) ≤ bu') ∧
        (beta0 ≤ bu' → bu' ≤ listMin bu (ms.map vm)) ∧
        (alpha < bu' → bu' < beta0 → bu' = listMin bu (ms.map vm)) := by
  intro ms
  induction ms with
  | nil =>
    intro bm bu beta cache _ hβ hαβ _
    refine ⟨bm, bu, ?_, le_rfl, fun _ => le_rfl, fun _ => le_rfl, fun _ _ => rfl⟩
    rw [abLoopMin, hβ]
  | cons m rest ih =>
    intro bm bu beta cache hchild hβ hαβ hbm
    obtain ⟨mv, r, hc, hlow, hhigh, hwin⟩ :=
      hchild m (List.mem_cons_self m rest) alpha beta hαβ cache
    have hchildrest : ∀ m' ∈ rest, ∀ a b', a < b' → ∀ cc, ∃ mv r,
        child a b' (play m') cc = some ((mv, r), cc) ∧
        (r ≤ a → vm m' ≤ r) ∧ (b' ≤ r → r ≤ vm m') ∧ (a < r → r < b' → r = vm m') :=
      fun m' hm' => hchild m' (List.mem_cons_of_mem m hm')
    rw [abLoopMin, hc]
    dsimp only
    set bm1 : Option Move := if bm = none ∨ r < bu then some m else bm with hbm1_def
    set bu1 : Ext := if bm = none ∨ r < bu then r else bu with hbu1_def
    have hbu1 : bu1 = min bu r := by
      rw [hbu1_def]
      by_cases hcond : bm = none ∨ r < bu
      · rw [if_pos hcond]
        rcases hcond with h | h
        · rw [hbm h]; exact (min_eq_right (Ext.le_pinf r)).symm
        · exact (min_eq_right (le_of_lt h)).symm
      · rw [if_neg hcond]
        push_neg at hcond
        exact (min_eq_left hcond.2).symm
    have hbu1_le_bu : bu1 ≤ bu := hbu1 ▸ min_le_left bu r
    have hbu1_le_r : bu1 ≤ r := hbu1 ▸ min_le_right bu r
    have hbm1 : bm1 = none → bu1 = Ext.pinf := by
      intro hn
      rw [hbm1_def] at hn
      by_cases hcond : bm = none ∨ r < bu
      · rw [if_pos hcond] at hn; cases hn
      · rw [if_neg hcond] at hn
        push_neg at hcond
        exact absurd hn hcond.1
    set beta1 : Ext := if bu1 < beta then bu1 else beta with hbeta1_def
    have hbeta1 : beta1 = min beta0 bu1 := by
      rw [hbeta1_def]
      have : (if bu1 < beta then bu1 else beta) = min beta bu1 := by
        by_cases h : bu1 < beta
        · rw [if_pos h]; exact (min_eq_right (le_of_lt h)).symm
        · rw [if_neg h]; exact (min_eq_left (le_of_not_lt h)).symm
      rw [this, hβ, hbu1, min_assoc beta0 bu (min bu r), ← min_assoc bu bu r,
        min_self]
    have hbeta1_le_bu1 : beta1 ≤ bu1 := hbeta1 ▸ min_le_right beta0 bu1
    have hbeta_le_beta0 : beta ≤ beta0 := hβ ▸ min_le_left beta0 bu
    have hbeta_le_bu : beta ≤ bu := hβ ▸ min_le_right beta0 bu
    have hW : listMin bu ((m :: rest).map vm)
        = listMin (min bu (vm m)) (rest.map vm) := rfl
    by_cases hbreak : beta1 ≤ alpha
    · -- cutoff: stop with the current best
      rw [if_pos hbreak]
      have hbu1α : bu1 ≤ alpha := by
        rw [hbeta1] at hbreak
        rcases min_cases beta0 bu1 with ⟨heq, _⟩ | ⟨heq, _⟩
        · rw [heq] at hbreak
          exact absurd (lt_of_lt_of_le hαβ hbeta_le_beta0) (not_lt_of_le hbreak)
        · rwa [heq] at hbreak
      refine ⟨bm1, bu1, by rw [hbeta1], hbu1_le_bu, ?_, ?_, ?_⟩
      · intro _
        have hbu_gt : bu1 < bu := lt_of_le_of_lt hbu1α (lt_of_lt_of_le hαβ hbeta_le_bu)
        have hbu1r : bu1 = r := by
          rcases min_cases bu r with ⟨heq, _⟩ | ⟨heq, _⟩
          · rw [hbu1] at hbu_gt ⊢; rw [heq] at hbu_gt ⊢; exact absurd hbu_gt (lt_irrefl bu)
          · rw [hbu1, heq]
        have : vm m ≤ r := hlow (hbu1r ▸ hbu1α)
        rw [hW, hbu1r]
        exact le_trans (listMin_le _ _) (le_trans (min_le_right bu (vm m)) this)
      · intro hge
        exact absurd (lt_of_le_of_lt hge (lt_of_le_of_lt hbu1α hαβ))
          (not_lt_of_le hbeta_le_beta0)
      · intro h0 _
        exact absurd (lt_of_le_of_lt hbu1α h0) (lt_irrefl bu1)
    · -- no cutoff: continue with the rest of the moves
      rw [if_neg hbreak]
      have hαbeta1 : alpha < beta1 := lt_of_not_le hbreak
      have hαbu1 : alpha < bu1 := lt_of_lt_of_le hαbeta1 hbeta1_le_bu1
      rcases le_or_lt beta r with hβr | hrβ
      · -- the child failed high: its report bounds the true value from below
        have hrvm : r ≤ vm m := hhigh hβr
        obtain ⟨bm', bu'', hrun, hle, hclow, hchigh, hcwin⟩ :=
          ih bm1 bu1 beta1 cache hchildrest hbeta1 hαbeta1 hbm1
        rcases le_or_lt bu r with hbur | hrbu
        · -- report at least the standing best: nothing changes
          have hbu1bu : bu1 = bu := hbu1 ▸ min_eq_left hbur
          have hWW : listMin (min bu (vm m)) (rest.map vm) = listMin bu1 (rest.map vm) := by
            rw [hbu1bu, min_eq_left (le_trans hbur hrvm)]
          refine ⟨bm', bu'', hrun, le_trans hle (hbu1bu ▸ le_rfl), ?_, ?_, ?_⟩
          · intro h0; rw [hW, hWW]; exact hclow h0
          · intro h0; rw [hW, hWW]; exact hchigh h0
          · intro h0 h1; rw [hW, hWW]; exact hcwin h0 h1
        · -- the best falls to the (possibly deflated) high report
          have hbu1r : bu1 = r := hbu1 ▸ min_eq_right (le_of_lt hrbu)
          have hβ0r : beta0 ≤ r := by
            rw [hβ] at hβr
            rcases min_cases beta0 bu with ⟨heq, _⟩ | ⟨heq, hle'⟩
            · rwa [heq] at hβr
            · rw [heq] at hβr; exact absurd (lt_of_le_of_lt hβr hrbu) (lt_irrefl bu)
          set S := listMin Ext.pinf (rest.map vm) with hS
          have hW' : listMin bu1 (rest.map vm) = min r S := by rw [hbu1r, listMin_init]
          have hWm : listMin bu ((m :: rest).map vm) = min (min bu (vm m)) S := by
            rw [hW, listMin_init]
          have hWge : listMin bu1 (rest.map vm) ≤ listMin bu ((m :: rest).map vm) := by
            rw [hWm, hW']
            exact min_le_min (le_min (le_of_lt hrbu) hrvm) le_rfl
          refine ⟨bm', bu'', hrun, le_trans hle (le_trans hbu1_le_r (le_of_lt hrbu)), ?_, ?_, ?_⟩
          · intro h0
            have hbu'' := hclow h0
            rw [hW'] at hbu''
            have hrgt : bu'' < r :=
              lt_of_le_of_lt h0 (lt_of_lt_of_le hαβ (le_trans hbeta_le_beta0 hβ0r))
            have hSbu'' : S ≤ bu'' := by
              rcases min_cases r S with ⟨heq, _⟩ | ⟨heq, _⟩
              · rw [heq] at hbu''; exact absurd (lt_of_le_of_lt hbu'' hrgt) (lt_irrefl r)
              · rwa [heq] at hbu''
            rw [hWm]
            exact le_trans (min_le_right _ _) hSbu''
          · intro h0
            have hbu'' := hchigh h0
            rw [hW'] at hbu''
            rw [hWm]
            have h1 : bu'' ≤ r := le_trans hbu'' (min_le_left r S)
            have h2 : bu'' ≤ S := le_trans hbu'' (min_le_right r S)
            exact le_min (le_min (le_trans h1 (le_of_lt hrbu)) (le_trans h1 hrvm)) h2
          · intro h0 h1
            have hbu'' := hcwin h0 h1
            rw [hW'] at hbu''
            have hrgt : bu'' < r := lt_of_lt_of_le h1 hβ0r
            have hbu''S : bu'' = S := by
              rcases min_cases r S with ⟨heq, _⟩ | ⟨heq, _⟩
              · rw [heq] at hbu''; exact absurd (hbu'' ▸ hrgt) (lt_irrefl r)
              · rwa [heq] at hbu''
            rw [hWm, hbu''S]
            have hSr : S ≤ r := hbu''S ▸ le_of_lt hrgt
            exact (min_eq_right (le_trans hSr (le_min (le_of_lt hrbu) hrvm))).symm
      · rcases lt_or_le alpha r with hαr | hrα
        · -- the report is inside the window: it is the exact child value
          have hrvm : r = vm m := hwin hαr hrβ
          have hWW : listMin bu ((m :: rest).map vm) = listMin bu1 (rest.map vm) := by
            rw [hW, hbu1, hrvm]
          obtain ⟨bm', bu'', hrun, hle, hclow, hchigh, hcwin⟩ :=
            ih bm1 bu1 beta1 cache hchildrest hbeta1 hαbeta1 hbm1
          refine ⟨bm', bu'', hrun, le_trans hle hbu1_le_bu, ?_, ?_, ?_⟩
          · intro h0; rw [hWW]; exact hclow h0
          · intro h0; rw [hWW]; exact hchigh h0
          · intro h0 h1; rw [hWW]; exact hcwin h0 h1
        · -- a low report would have broken the loop
          exact absurd (lt_of_le_of_lt (le_trans hbu1_le_r hrα) hαbeta1)
            (not_lt_of_le hbeta1_le_bu1)

/-! ### Move ordering only permutes the move list -/

theorem sortedInsert_perm (key : Move → ℤ) (x : Move) :
    ∀ l : List Move, (sortedInsert key x l).Perm (x :: l) := by
  intro l
  induction l with
  | nil => exact List.Perm.refl _
  | cons y ys ih =>
    rw [sortedInsert]
    by_cases h : key y ≤ key x
    · rw [if_pos h]
      exact List.Perm.trans (List.Perm.cons y ih) (List.Perm.swap x y ys)
    · rw [if_neg h]

theorem sortByKey_perm (key : Move → ℤ) :
    ∀ l : List Move, (sortByKey key l).Perm l := by
  intro l
  induction l with
  | nil => exact List.Perm.refl _
  | cons x xs ih =>
    rw [sortByKey]
    exact List.Perm.trans (sortedInsert_perm key x (sortByKey key xs))
      (List.Perm.cons x ih)

theorem abMovesMin_perm (R : Rules) (b : Board) (c ordering : ℤ) :
    (abMovesMin R b c ordering).Perm (R.get_possible_moves b c) := by
  rw [abMovesMin]
  by_cases h : ordering = 1
  · rw [if_pos h]; exact sortByKey_perm _ _
  · rw [if_neg h]

theorem abMovesMax_perm (R : Rules) (b : Board) (c ordering : ℤ) :
    (abMovesMax R b c ordering).Perm (R.get_possible_moves b c) := by
  rw [abMovesMax]
  by_cases h : ordering = 1
  · rw [if_pos h]; exact sortByKey_perm _ _
  · rw [if_neg h]

theorem listMax_perm {l1 l2 : List Ext} (h : l1.Perm l2) :
    ∀ init, listMax init l1 = listMax init l2 := by
  induction h with
  | nil => intro init; rfl
  | cons x _ ih => intro init; exact ih (max init x)
  | swap x y l =>
    intro init
    show listMax (max (max init y) x) l = listMax (max (max init x) y) l
    rw [sup_right_comm]
  | trans _ _ ih1 ih2 => intro init; exact (ih1 init).trans (ih2 init)

theorem listMin_perm {l1 l2 : List Ext} (h : l1.Perm l2) :
    ∀ init, listMin init l1 = listMin init l2 := by
  induction h with
  | nil => intro init; rfl
  | cons x _ ih => intro init; exact ih (min init x)
  | swap x y l =>
    intro init
    show listMin (min (min init y) x) l = listMin (min (min init x) y) l
    rw [inf_right_comm]
  | trans _ _ ih1 ih2 => intro init; exact (ih1 init).trans (ih2 init)

/-! ### Knuth–Moore theorem for the alpha-beta nodes -/

/-- Whenever the plain minimax search terminates, the alpha-beta search
with the same fuel terminates too (leaving the cache untouched with
caching off), and its value satisfies the fail-soft window bounds with
respect to the minimax value — for either ordering flag. -/
theorem km_nodes (R : Rules) :
    ∀ (fuel : Nat) (b : Board) (c l ordering : ℤ) (alpha beta : Ext) (cache : Cache),
      alpha < beta →
      ((minimax_min_node R fuel b c l 0 emptyCache).isSome →
        ∃ mv r, alphabeta_min_node R fuel b c alpha beta l 0 ordering cache
            = some ((mv, r), cache) ∧
          (r ≤ alpha → minVal R fuel b c l ≤ r) ∧
          (beta ≤ r → r ≤ minVal R fuel b c l) ∧
          (alpha < r → r < beta → r = minVal R fuel b c l)) ∧
      ((minimax_max_node R fuel b c l 0 emptyCache).isSome →
        ∃ mv r, alphabeta_max_node R fuel b c alpha beta l 0 ordering cache
            = some ((mv, r), cache) ∧
          (r ≤ alpha → maxVal R fuel b c l ≤ r) ∧
          (beta ≤ r → r ≤ maxVal R fuel b c l) ∧
          (alpha < r → r < beta → r = maxVal R fuel b c l)) := by
  intro fuel
  induction fuel with
  | zero =>
    intro b c l ordering alpha beta cache hαβ
    constructor
    · intro hsome; simp [minimax_min_node] at hsome
    · intro hsome; simp [minimax_max_node] at hsome
  | succ fuel ih =>
    intro b c l ordering alpha beta cache hαβ
    constructor
    · -- min node
      intro hsome
      by_cases hleaf : R.get_possible_moves b c = [] ∨ l = 0
      · refine ⟨none, Ext.fin (compute_utility R b c), ?_, ?_, ?_, ?_⟩
        · rw [alphabeta_min_node_nocache, if_pos hleaf]
        · rw [minVal_leaf R fuel b c l hleaf]; exact fun _ => le_rfl
        · rw [minVal_leaf R fuel b c l hleaf]; exact fun _ => le_rfl
        · rw [minVal_leaf R fuel b c l hleaf]; exact fun _ _ => rfl
      · have hv := minimax_min_children R fuel b c l hsome hleaf
        have hchild : ∀ m ∈ abMovesMin R b c ordering, ∀ a b', a < b' → ∀ cc, ∃ mv r,
            alphabeta_max_node R fuel (R.play_move b c m.1 m.2) (3 - c) a b' (l - 1) 0
              ordering cc = some ((mv, r), cc) ∧
            (r ≤ a → maxVal R fuel (R.play_move b c m.1 m.2) (3 - c) (l - 1) ≤ r) ∧
            (b' ≤ r → r ≤ maxVal R fuel (R.play_move b c m.1 m.2) (3 - c) (l - 1)) ∧
            (a < r → r < b' →
              r = maxVal R fuel (R.play_move b c m.1 m.2) (3 - c) (l - 1)) := by
          intro m hm a b' hab cc
          have hmem := (abMovesMin_perm R b c ordering).mem_iff.1 hm
          obtain ⟨mv0, hchildmm⟩ := hv m hmem emptyCache
          have hcs : (minimax_max_node R fuel (R.play_move b c m.1 m.2) (3 - c)
              (l - 1) 0 emptyCache).isSome := by rw [hchildmm]; rfl
          exact (ih (R.play_move b c m.1 m.2) (3 - c) (l - 1) ordering a b' cc hab).2 hcs
        obtain ⟨bm', bu', hrun, _, hclow, hchigh, hcwin⟩ :=
          abLoopMin_km
            (fun a bb nb cc =>
              alphabeta_max_node R fuel nb (3 - c) a bb (l - 1) 0 ordering cc)
            (fun m => R.play_move b c m.1 m.2)
            (fun m => maxVal R fuel (R.play_move b c m.1 m.2) (3 - c) (l - 1))
            alpha beta (abMovesMin R b c ordering) none Ext.pinf beta cache
            hchild (min_eq_left (Ext.le_pinf beta)).symm hαβ (fun _ => rfl)
        have hWv : listMin Ext.pinf ((abMovesMin R b c ordering).map
              (fun m => maxVal R fuel (R.play_move b c m.1 m.2) (3 - c) (l - 1)))
            = minVal R (fuel + 1) b c l := by
          rw [minVal_eq_listMin R fuel b c l hsome hleaf]
          exact listMin_perm ((abMovesMin_perm R b c ordering).map _) Ext.pinf
        refine ⟨bm', bu', ?_, ?_, ?_, ?_⟩
        · rw [alphabeta_min_node_nocache, if_neg hleaf, hrun]; rfl
        · intro h0; rw [← hWv]; exact hclow h0
        · intro h0; rw [← hWv]; exact hchigh h0
        · intro h0 h1; rw [← hWv]; exact hcwin h0 h1
    · -- max node
      intro hsome
      by_cases hleaf : R.get_possible_moves b c = [] ∨ l = 0
      · refine ⟨none, Ext.fin (compute_utility R b c), ?_, ?_, ?_, ?_⟩
        · rw [alphabeta_max_node_nocache, if_pos hleaf]
        · rw [maxVal_leaf R fuel b c l hleaf]; exact fun _ => le_rfl
        · rw [maxVal_leaf R fuel b c l hleaf]; exact fun _ => le_rfl
        · rw [maxVal_leaf R fuel b c l hleaf]; exact fun _ _ => rfl
      · have hv := minimax_max_children R fuel b c l hsome hleaf
        have hchild : ∀ m ∈ abMovesMax R b c ordering, ∀ a b', a < b' → ∀ cc, ∃ mv r,
            alphabeta_min_node R fuel (R.play_move b c m.1 m.2) (3 - c) a b' (l - 1) 0
              ordering cc = some ((mv, r), cc) ∧
            (r ≤ a → minVal R fuel (R.play_move b c m.1 m.2) (3 - c) (l - 1) ≤ r) ∧
            (b' ≤ r → r ≤ minVal R fuel (R.play_move b c m.1 m.2) (3 - c) (l - 1)) ∧
            (a < r → r < b' →
              r = minVal R fuel (R.play_move b c m.1 m.2) (3 - c) (l - 1)) := by
          intro m hm a b' hab cc
          have hmem := (abMovesMax_perm R b c ordering).mem_iff.1 hm
          obtain ⟨mv0, hchildmm⟩ := hv m hmem emptyCache
          have hcs : (minimax_min_node R fuel (R.play_move b c m.1 m.2) (3 - c)
              (l - 1) 0 emptyCache).isSome := by rw [hchildmm]; rfl
          exact (ih (R.play_move b c m.1 m.2) (3 - c) (l - 1) ordering a b' cc hab).1 hcs
        obtain ⟨bm', bu', hrun, _, hclow, hchigh, hcwin⟩ :=
          abLoopMax_km
            (fun a bb nb cc =>
              alphabeta_min_node R fuel nb (3 - c) a bb (l - 1) 0 ordering cc)
            (fun m => R.play_move b c m.1 m.2)
            (fun m => minVal R fuel (R.play_move b c m.1 m.2) (3 - c) (l - 1))
            beta alpha (abMovesMax R b c ordering) none Ext.ninf alpha cache
            hchild (max_eq_left (Ext.ninf_le alpha)).symm hαβ (fun _ => rfl)
        have hWv : listMax Ext.ninf ((abMovesMax R b c ordering).map
              (fun m => minVal R fuel (R.play_move b c m.1 m.2) (3 - c) (l - 1)))
            = maxVal R (fuel + 1) b c l := by
          rw [maxVal_eq_listMax R fuel b c l hsome hleaf]
          exact listMax_perm ((abMovesMax_perm R b c ordering).map _) Ext.ninf
        refine ⟨bm', bu', ?_, ?_, ?_, ?_⟩
        · rw [alphabeta_max_node_nocache, if_neg hleaf, hrun]; rfl
        · intro h0; rw [← hWv]; exact hclow h0
        · intro h0; rw [← hWv]; exact hchigh h0
        · intro h0 h1; rw [← hWv]; exact hcwin h0 h1

/-! ### Returned values are finite -/

theorem abLoopMax_fin
    (child : Ext → Ext → Board → Cache → Option ((Option Move × Ext) × Cache))
    (play : Move → Board) (beta : Ext) :
    ∀ (ms : List Move) (bm : Option Move) (bu alpha : Ext) (cache : Cache)
      (bm' : Option Move) (bu' w : Ext) (c' : Cache),
      (∀ m ∈ ms, ∀ a b cc mv r cc',
        child a b (play m) cc = some ((mv, r), cc') → ∃ z, r = Ext.fin z) →
      (bm ≠ none → ∃ z, bu = Ext.fin z) →
      abLoopMax child play beta ms bm bu alpha cache = some ((bm', bu'), w, c') →
      (∃ z, bu' = Ext.fin z) ∨ (ms = [] ∧ bm' = bm ∧ bu' = bu) := by
  intro ms
  induction ms with
  | nil =>
    intro bm bu alpha cache bm' bu' w c' _ _ hrun
    rw [abLoopMax] at hrun
    injection hrun with h
    injection h with h1 h2
    injection h1 with h3 h4
    exact Or.inr ⟨rfl, h3.symm, h4.symm⟩
  | cons m rest ih =>
    intro bm bu alpha cache bm' bu' w c' hchild hfin hrun
    rw [abLoopMax] at hrun
    cases hc : child alpha beta (play m) cache with
    | none => rw [hc] at hrun; cases hrun
    | some rc =>
      obtain ⟨⟨mv, u⟩, cc'⟩ := rc
      rw [hc] at hrun
      dsimp only at hrun
      obtain ⟨z, rfl⟩ := hchild m (List.mem_cons_self m rest) alpha beta cache mv u cc' hc
      have hbu1fin : ∃ z', (if bm = none ∨ bu < Ext.fin z then Ext.fin z else bu)
          = Ext.fin z' := by
        by_cases hcond : bm = none ∨ bu < Ext.fin z
        · rw [if_pos hcond]; exact ⟨z, rfl⟩
        · rw [if_neg hcond]
          push_neg at hcond
          exact hfin hcond.1
      by_cases hbreak : beta ≤ (if alpha < (if bm = none ∨ bu < Ext.fin z then Ext.fin z
          else bu) then (if bm = none ∨ bu < Ext.fin z then Ext.fin z else bu) else alpha)
      · rw [if_pos hbreak] at hrun
        injection hrun with h
        injection h with h1 h2
        injection h1 with h3 h4
        exact Or.inl (h4 ▸ hbu1fin)
      · rw [if_neg hbreak] at hrun
        rcases ih _ _ _ _ _ _ _ _
            (fun m' hm' => hchild m' (List.mem_cons_of_mem m hm'))
            (fun _ => hbu1fin) hrun with h | ⟨_, _, hbu'⟩
        · exact Or.inl h
        · exact Or.inl (hbu' ▸ hbu1fin)

theorem abLoopMin_fin
    (child : Ext → Ext → Board → Cache → Option ((Option Move × Ext) × Cache))
    (play : Move → Board) (alpha : Ext) :
    ∀ (ms : List Move) (bm : Option Move) (bu beta : Ext) (cache : Cache)
      (bm' : Option Move) (bu' w : Ext) (c' : Cache),
      (∀ m ∈ ms, ∀ a b cc mv r cc',
        child a b (play m) cc = some ((mv, r), cc') → ∃ z, r = Ext.fin z) →
      (bm ≠ none → ∃ z, bu = Ext.fin z) →
      abLoopMin child play alpha ms bm bu beta cache = some ((bm', bu'), w, c') →
      (∃ z, bu' = Ext.fin z) ∨ (ms = [] ∧ bm' = bm ∧ bu' = bu) := by
  intro ms
  induction ms with
  | nil =>
    intro bm bu beta cache bm' bu' w c' _ _ hrun
    rw [abLoopMin] at hrun
    injection hrun with h
    injection h with h1 h2
    injection h1 with h3 h4
    exact Or.inr ⟨rfl, h3.symm, h4.symm⟩
  | cons m rest ih =>
    intro bm bu beta cache bm' bu' w c' hchild hfin hrun
    rw [abLoopMin] at hrun
    cases hc : child alpha beta (play m) cache with
    | none => rw [hc] at hrun; cases hrun
    | some rc =>
      obtain ⟨⟨mv, u⟩, cc'⟩ := rc
      rw [hc] at hrun
      dsimp only at hrun
      obtain ⟨z, rfl⟩ := hchild m (List.mem_cons_self m rest) alpha beta cache mv u cc' hc
      have hbu1fin : ∃ z', (if bm = none ∨ Ext.fin z < bu then Ext.fin z else bu)
          = Ext.fin z' := by
        by_cases hcond : bm = none ∨ Ext.fin z < bu
        · rw [if_pos hcond]; exact ⟨z, rfl⟩
        · rw [if_neg hcond]
          push_neg at hcond
          exact hfin hcond.1
      by_cases hbreak : (if (if bm = none ∨ Ext.fin z < bu then Ext.fin z else bu) < beta
          then (if bm = none ∨ Ext.fin z < bu then Ext.fin z else bu) else beta) ≤ alpha
      · rw [if_pos hbreak] at hrun
        injection hrun with h
        injection h with h1 h2
        injection h1 with h3 h4
        exact Or.inl (h4 ▸ hbu1fin)
      · rw [if_neg hbreak] at hrun
        rcases ih _ _ _ _ _ _ _ _
            (fun m' hm' => hchild m' (List.mem_cons_of_mem m hm'))
            (fun _ => hbu1fin) hrun with h | ⟨_, _, hbu'⟩
        · exact Or.inl h
        · exact Or.inl (hbu' ▸ hbu1fin)

/-- With caching off, every value an alpha-beta node returns is a finite
integer (never an infinity). -/
theorem alphabeta_fin (R : Rules) :
    ∀ (fuel : Nat) (b : Board) (c : ℤ) (alpha beta : Ext) (l ordering : ℤ)
      (cache : Cache) (mv : Option Move) (r : Ext) (c' : Cache),
      (alphabeta_min_node R fuel b c alpha beta l 0 ordering cache = some ((mv, r), c') →
        ∃ z, r = Ext.fin z) ∧
      (alphabeta_max_node R fuel b c alpha beta l 0 ordering cache = some ((mv, r), c') →
        ∃ z, r = Ext.fin z) := by
  intro fuel
  induction fuel with
  | zero =>
    intro b c alpha beta l ordering cache mv r c'
    constructor
    · intro h; simp [alphabeta_min_node] at h
    · intro h; simp [alphabeta_max_node] at h
  | succ fuel ih =>
    intro b c alpha beta l ordering cache mv r c'
    constructor
    · intro h
      rw [alphabeta_min_node_nocache] at h
      by_cases hleaf : R.get_possible_moves b c = [] ∨ l = 0
      · rw [if_pos hleaf] at h
        injection h with h1
        injection h1 with h2 h3
        injection h2 with h4 h5
        exact ⟨compute_utility R b c, h5.symm⟩
      · rw [if_neg hleaf] at h
        cases habl : abLoopMin
            (fun a bb nb cc => alphabeta_max_node R fuel nb (3 - c) a bb (l - 1) 0 ordering cc)
            (fun m => R.play_move b c m.1 m.2) alpha (abMovesMin R b c ordering)
            none Ext.pinf beta cache with
        | none => rw [habl] at h; cases h
        | some res =>
          obtain ⟨⟨bm1, bu1⟩, w1, c1⟩ := res
          rw [habl] at h
          injection h with h1
          injection h1 with h2 h3
          injection h2 with h4 h5
          rcases abLoopMin_fin _ _ _ _ _ _ _ _ _ _ _ _
              (fun m _ a bb cc mv0 r0 cc' hc0 => (ih _ _ a bb _ ordering cc mv0 r0 cc').2 hc0)
              (fun hn => absurd rfl hn) habl with hfin | ⟨hnil, _, _⟩
          · exact h5 ▸ hfin
          · exact absurd hnil (by
              intro hmoves
              exact hleaf (Or.inl (List.Perm.eq_nil
                (hmoves ▸ abMovesMin_perm R b c ordering).symm)))
    · intro h
      rw [alphabeta_max_node_nocache] at h
      by_cases hleaf : R.get_possible_moves b c = [] ∨ l = 0
      · rw [if_pos hleaf] at h
        injection h with h1
        injection h1 with h2 h3
        injection h2 with h4 h5
        exact ⟨compute_utility R b c, h5.symm⟩
      · rw [if_neg hleaf] at h
        cases habl : abLoopMax
            (fun a bb nb cc => alphabeta_min_node R fuel nb (3 - c) a bb (l - 1) 0 ordering cc)
            (fun m => R.play_move b c m.1 m.2) beta (abMovesMax R b c ordering)
            none Ext.ninf alpha cache with
        | none => rw [habl] at h; cases h
        | some res =>
          obtain ⟨⟨bm1, bu1⟩, w1, c1⟩ := res
          rw [habl] at h
          injection h with h1
          injection h1 with h2 h3
          injection h2 with h4 h5
          rcases abLoopMax_fin _ _ _ _ _ _ _ _ _ _ _ _
              (fun m _ a bb cc mv0 r0 cc' hc0 => (ih _ _ a bb _ ordering cc mv0 r0 cc').1 hc0)
              (fun hn => absurd rfl hn) habl with hfin | ⟨hnil, _, _⟩
          · exact h5 ▸ hfin
          · exact absurd hnil (by
              intro hmoves
              exact hleaf (Or.inl (List.Perm.eq_nil
                (hmoves ▸ abMovesMax_perm R b c ordering).symm)))

/-! ### Root equality: with the full window the alpha-beta loops walk in
lock-step with the minimax loops -/

theorem abLoopMax_top
    (mmchild : Board → Cache → Option ((Option Move × Ext) × Cache))
    (abchild : Ext → Ext → Board → Cache → Option ((Option Move × Ext) × Cache))
    (play : Move → Board) (vm : Move → Ext) :
    ∀ (ms : List Move) (bm : Option Move) (bu : Ext) (cache : Cache),
      (∀ m ∈ ms, ∀ cc, ∃ mv, mmchild (play m) cc = some ((mv, vm m), cc)) →
      (∀ m ∈ ms, ∀ a, a < Ext.pinf → ∀ cc, ∃ mv r,
        abchild a Ext.pinf (play m) cc = some ((mv, r), cc) ∧ (∃ z, r = Ext.fin z) ∧
        (r ≤ a → vm m ≤ r) ∧ (a < r → r < Ext.pinf → r = vm m)) →
      (bm = none → bu = Ext.ninf) →
      bu ≠ Ext.pinf →
      ∃ res, mmLoopMax mmchild play ms bm bu cache = some (res, cache) ∧
        ∃ w, abLoopMax abchild play Ext.pinf ms bm bu bu cache = some (res, w, cache) := by
  intro ms
  induction ms with
  | nil =>
    intro bm bu cache _ _ _ _
    exact ⟨(bm, bu), rfl, bu, rfl⟩
  | cons m rest ih =>
    intro bm bu cache hmm hab hbm hbu
    obtain ⟨mv0, hmmc⟩ := hmm m (List.mem_cons_self m rest) cache
    obtain ⟨mv1, r, habc, ⟨z, hz⟩, hlow, hwin⟩ :=
      hab m (List.mem_cons_self m rest) bu (Ext.lt_pinf_of_ne hbu) cache
    have hmmrest : ∀ m' ∈ rest, ∀ cc, ∃ mv, mmchild (play m') cc
        = some ((mv, vm m'), cc) := fun m' hm' => hmm m' (List.mem_cons_of_mem m hm')
    have habrest : ∀ m' ∈ rest, ∀ a, a < Ext.pinf → ∀ cc, ∃ mv r',
        abchild a Ext.pinf (play m') cc = some ((mv, r'), cc) ∧ (∃ z', r' = Ext.fin z') ∧
        (r' ≤ a → vm m' ≤ r') ∧ (a < r' → r' < Ext.pinf → r' = vm m') :=
      fun m' hm' => hab m' (List.mem_cons_of_mem m hm')
    rw [mmLoopMax, hmmc, abLoopMax, habc]
    dsimp only
    rcases le_or_lt r bu with hrbu | hbur
    · -- report at most the standing best: neither loop changes state
      have hbmne : bm ≠ none := by
        intro hn
        rw [hbm hn, hz] at hrbu
        exact (by simp : ¬ Ext.fin z ≤ Ext.ninf) hrbu
      have hvmbu : vm m ≤ bu := le_trans (hlow hrbu) hrbu
      have hg1 : ¬(bm = none ∨ bu < vm m) := by
        rintro (h | h)
        · exact hbmne h
        · exact absurd h (not_lt_of_le hvmbu)
      have hg2 : ¬(bm = none ∨ bu < r) := by
        rintro (h | h)
        · exact hbmne h
        · exact absurd h (not_lt_of_le hrbu)
      have hgbreak : ¬ Ext.pinf ≤ bu := fun hcon => hbu (Ext.eq_pinf_of_le hcon)
      simp only [if_neg hg1, if_neg hg2, if_neg (lt_irrefl bu), if_neg hgbreak]
      exact ih bm bu cache hmmrest habrest hbm hbu
    · -- the report improves the best and is exact
      have hrvm : r = vm m := hwin hbur (hz ▸ Ext.fin_lt_pinf z)
      have hg1 : bm = none ∨ bu < vm m := Or.inr (hrvm ▸ hbur)
      have hg2 : bm = none ∨ bu < r := Or.inr hbur
      have hgbreak : ¬ Ext.pinf ≤ r := by rw [hz]; simp
      simp only [if_pos hg1, if_pos hg2, if_pos hbur, if_neg hgbreak]
      have hvmz : vm m = Ext.fin z := by rw [← hrvm]; exact hz
      rw [hrvm]
      exact ih (some m) (vm m) cache hmmrest habrest (by simp) (by rw [hvmz]; simp)

theorem abLoopMin_bot
    (mmchild : Board → Cache → Option ((Option Move × Ext) × Cache))
    (abchild : Ext → Ext → Board → Cache → Option ((Option Move × Ext) × Cache))
    (play : Move → Board) (vm : Move → Ext) :
    ∀ (ms : List Move) (bm : Option Move) (bu : Ext) (cache : Cache),
      (∀ m ∈ ms, ∀ cc, ∃ mv, mmchild (play m) cc = some ((mv, vm m), cc)) →
      (∀ m ∈ ms, ∀ b', Ext.ninf < b' → ∀ cc, ∃ mv r,
        abchild Ext.ninf b' (play m) cc = some ((mv, r), cc) ∧ (∃ z, r = Ext.fin z) ∧
        (b' ≤ r → r ≤ vm m) ∧ (Ext.ninf < r → r < b' → r = vm m)) →
      (bm = none → bu = Ext.pinf) →
      bu ≠ Ext.ninf →
      ∃ res, mmLoopMin mmchild play ms bm bu cache = some (res, cache) ∧
        ∃ w, abLoopMin abchild play Ext.ninf ms bm bu bu cache = some (res, w, cache) := by
  intro ms
  induction ms with
  | nil =>
    intro bm bu cache _ _ _ _
    exact ⟨(bm, bu), rfl, bu, rfl⟩
  | cons m rest ih =>
    intro bm bu cache hmm hab hbm hbu
    obtain ⟨mv0, hmmc⟩ := hmm m (List.mem_cons_self m rest) cache
    obtain ⟨mv1, r, habc, ⟨z, hz⟩, hhigh, hwin⟩ :=
      hab m (List.mem_cons_self m rest) bu (Ext.ninf_lt_of_ne hbu) cache
    have hmmrest : ∀ m' ∈ rest, ∀ cc, ∃ mv, mmchild (play m') cc
        = some ((mv, vm m'), cc) := fun m' hm' => hmm m' (List.mem_cons_of_mem m hm')
    have habrest : ∀ m' ∈ rest, ∀ b', Ext.ninf < b' → ∀ cc, ∃ mv r',
        abchild Ext.ninf b' (play m') cc = some ((mv, r'), cc) ∧ (∃ z', r' = Ext.fin z') ∧
        (b' ≤ r' → r' ≤ vm m') ∧ (Ext.ninf < r' → r' < b' → r' = vm m') :=
      fun m' hm' => hab m' (List.mem_cons_of_mem m hm')
    rw [mmLoopMin, hmmc, abLoopMin, habc]
    dsimp only
    rcases le_or_lt bu r with hbur | hrbu
    · -- report at least the standing best: neither loop changes state
      have hbmne : bm ≠ none := by
        intro hn
        rw [hbm hn, hz] at hbur
        exact (by simp : ¬ Ext.pinf ≤ Ext.fin z) hbur
      have hvmbu : bu ≤ vm m := le_trans hbur (hhigh hbur)
      have hg1 : ¬(bm = none ∨ vm m < bu) := by
        rintro (h | h)
        · exact hbmne h
        · exact absurd h (not_lt_of_le hvmbu)
      have hg2 : ¬(bm = none ∨ r < bu) := by
        rintro (h | h)
        · exact hbmne h
        · exact absurd h (not_lt_of_le hbur)
      have hgbreak : ¬ bu ≤ Ext.ninf := fun hcon => hbu (Ext.eq_ninf_of_le hcon)
      simp only [if_neg hg1, if_neg hg2, if_neg (lt_irrefl bu), if_neg hgbreak]
      exact ih bm bu cache hmmrest habrest hbm hbu
    · -- the report improves the best and is exact
      have hrvm : r = vm m := hwin (hz ▸ Ext.ninf_lt_fin z) hrbu
      have hg1 : bm = none ∨ vm m < bu := Or.inr (hrvm ▸ hrbu)
      have hg2 : bm = none ∨ r < bu := Or.inr hrbu
      have hgbreak : ¬ r ≤ Ext.ninf := by rw [hz]; simp
      simp only [if_pos hg1, if_pos hg2, if_pos hrbu, if_neg hgbreak]
      have hvmz : vm m = Ext.fin z := by rw [← hrvm]; exact hz
      rw [hrvm]
      exact ih (some m) (vm m) cache hmmrest habrest (by simp) (by rw [hvmz]; simp)

/-- With the full window `(-inf, inf)` and ordering off, the alpha-beta
nodes return exactly the minimax result — the same move and the same
value. -/
theorem root_eq (R : Rules) (fuel : Nat) (b : Board) (c l : ℤ) (cache : Cache)
    (res : Option Move × Ext) :
    (minimax_min_node R fuel b c l 0 cache = some (res, cache) →
      alphabeta_min_node R fuel b c Ext.ninf Ext.pinf l 0 0 cache = some (res, cache)) ∧
    (minimax_max_node R fuel b c l 0 cache = some (res, cache) →
      alphabeta_max_node R fuel b c Ext.ninf Ext.pinf l 0 0 cache = some (res, cache)) := by
  cases fuel with
  | zero =>
    constructor
    · intro h; simp [minimax_min_node] at h
    · intro h; simp [minimax_max_node] at h
  | succ fuel =>
    have habmin : abMovesMin R b c 0 = R.get_possible_moves b c := by
      rw [abMovesMin, if_neg (by norm_num)]
    have habmax : abMovesMax R b c 0 = R.get_possible_moves b c := by
      rw [abMovesMax, if_neg (by norm_num)]
    constructor
    · intro hrun
      have hsome : (minimax_min_node R (fuel + 1) b c l 0 emptyCache).isSome := by
        have hs := ((minimax_nodes_pure R (fuel + 1) b c l).1.some_all hrun).2 emptyCache
        rw [hs]
        rfl
      by_cases hleaf : R.get_possible_moves b c = [] ∨ l = 0
      · rw [minimax_min_node_nocache, if_pos hleaf] at hrun
        rw [alphabeta_min_node_nocache, if_pos hleaf]
        injection hrun with h1
        injection h1 with h2 h3
        rw [h2]
      · rw [minimax_min_node_nocache, if_neg hleaf] at hrun
        rw [alphabeta_min_node_nocache, if_neg hleaf, habmin]
        have hv := minimax_min_children R fuel b c l hsome hleaf
        have hab : ∀ m ∈ R.get_possible_moves b c, ∀ b', Ext.ninf < b' → ∀ cc, ∃ mv r,
            alphabeta_max_node R fuel (R.play_move b c m.1 m.2) (3 - c) Ext.ninf b'
              (l - 1) 0 0 cc = some ((mv, r), cc) ∧ (∃ z, r = Ext.fin z) ∧
            (b' ≤ r → r ≤ maxVal R fuel (R.play_move b c m.1 m.2) (3 - c) (l - 1)) ∧
            (Ext.ninf < r → r < b' →
              r = maxVal R fuel (R.play_move b c m.1 m.2) (3 - c) (l - 1)) := by
          intro m hm b' hb' cc
          obtain ⟨mv0, hchildmm⟩ := hv m hm emptyCache
          have hcs : (minimax_max_node R fuel (R.play_move b c m.1 m.2) (3 - c)
              (l - 1) 0 emptyCache).isSome := by rw [hchildmm]; rfl
          obtain ⟨mv, r, hrun', hlow', hhigh', hwin'⟩ :=
            (km_nodes R fuel (R.play_move b c m.1 m.2) (3 - c) (l - 1) 0 Ext.ninf b'
              cc hb').2 hcs
          exact ⟨mv, r, hrun',
            (alphabeta_fin R fuel (R.play_move b c m.1 m.2) (3 - c) Ext.ninf b' (l - 1)
              0 cc mv r cc).2 hrun', hhigh', hwin'⟩
        obtain ⟨res', hmmrun, w, habrun⟩ :=
          abLoopMin_bot
            (fun bb cc => minimax_max_node R fuel bb (3 - c) (l - 1) 0 cc)
            (fun a bb nb cc => alphabeta_max_node R fuel nb (3 - c) a bb (l - 1) 0 0 cc)
            (fun m => R.play_move b c m.1 m.2)
            (fun m => maxVal R fuel (R.play_move b c m.1 m.2) (3 - c) (l - 1))
            (R.get_possible_moves b c) none Ext.pinf cache
            (minimax_min_children R fuel b c l hsome hleaf) hab (fun _ => rfl) (by simp)
        rw [hmmrun] at hrun
        injection hrun with h1
        injection h1 with h2 h3
        rw [habrun, h2]
        rfl
    · intro hrun
      have hsome : (minimax_max_node R (fuel + 1) b c l 0 emptyCache).isSome := by
        have hs := ((minimax_nodes_pure R (fuel + 1) b c l).2.some_all hrun).2 emptyCache
        rw [hs]
        rfl
      by_cases hleaf : R.get_possible_moves b c = [] ∨ l = 0
      · rw [minimax_max_node_nocache, if_pos hleaf] at hrun
        rw [alphabeta_max_node_nocache, if_pos hleaf]
        injection hrun with h1
        injection h1 with h2 h3
        rw [h2]
      · rw [minimax_max_node_nocache, if_neg hleaf] at hrun
        rw [alphabeta_max_node_nocache, if_neg hleaf, habmax]
        have hv := minimax_max_children R fuel b c l hsome hleaf
        have hab : ∀ m ∈ R.get_possible_moves b c, ∀ a, a < Ext.pinf → ∀ cc, ∃ mv r,
            alphabeta_min_node R fuel (R.play_move b c m.1 m.2) (3 - c) a Ext.pinf
              (l - 1) 0 0 cc = some ((mv, r), cc) ∧ (∃ z, r = Ext.fin z) ∧
            (r ≤ a → minVal R fuel (R.play_move b c m.1 m.2) (3 - c) (l - 1) ≤ r) ∧
            (a < r → r < Ext.pinf →
              r = minVal R fuel (R.play_move b c m.1 m.2) (3 - c) (l - 1)) := by
          intro m hm a ha cc
          obtain ⟨mv0, hchildmm⟩ := hv m hm emptyCache
          have hcs : (minimax_min_node R fuel (R.play_move b c m.1 m.2) (3 - c)
              (l - 1) 0 emptyCache).isSome := by rw [hchildmm]; rfl
          obtain ⟨mv, r, hrun', hlow', hhigh', hwin'⟩ :=
            (km_nodes R fuel (R.play_move b c m.1 m.2) (3 - c) (l - 1) 0 a Ext.pinf
              cc ha).1 hcs
          exact ⟨mv, r, hrun',
            (alphabeta_fin R fuel (R.play_move b c m.1 m.2) (3 - c) a Ext.pinf (l - 1)
              0 cc mv r cc).1 hrun', hlow', hwin'⟩
        obtain ⟨res', hmmrun, w, habrun⟩ :=
          abLoopMax_top
            (fun bb cc => minimax_min_node R fuel bb (3 - c) (l - 1) 0 cc)
            (fun a bb nb cc => alphabeta_min_node R fuel nb (3 - c) a bb (l - 1) 0 0 cc)
            (fun m => R.play_move b c m.1 m.2)
            (fun m => minVal R fuel (R.play_move b c m.1 m.2) (3 - c) (l - 1))
            (R.get_possible_moves b c) none Ext.ninf cache
            (minimax_max_children R fuel b c l hsome hleaf) hab (fun _ => rfl) (by simp)
        rw [hmmrun] at hrun
        injection hrun with h1
        injection h1 with h2 h3
        rw [habrun, h2]
        rfl

/-! ### The returned move is `none` only when the loop had nothing to do -/

theorem mmLoopMax_move_none
    (child : Board → Cache → Option ((Option Move × Ext) × Cache))
    (play : Move → Board) :
    ∀ (ms : List Move) (bm : Option Move) (bu : Ext) (cache : Cache) res c',
      mmLoopMax child play ms bm bu cache = some (res, c') → res.1 = none →
      bm = none ∧ ms = [] := by
  intro ms
  induction ms with
  | nil =>
    intro bm bu cache res c' hrun hnone
    rw [mmLoopMax] at hrun
    injection hrun with h
    injection h with h1 _
    rw [← h1] at hnone
    exact ⟨hnone, rfl⟩
  | cons m rest ih =>
    intro bm bu cache res c' hrun hnone
    rw [mmLoopMax] at hrun
    cases hc : child (play m) cache with
    | none => rw [hc] at hrun; cases hrun
    | some rc =>
      obtain ⟨⟨mv, u⟩, cc'⟩ := rc
      rw [hc] at hrun
      dsimp only at hrun
      by_cases hcond : bm = none ∨ bu < u
      · rw [if_pos hcond] at hrun
        obtain ⟨hsome, _⟩ := ih _ _ _ _ _ hrun hnone
        cases hsome
      · rw [if_neg hcond] at hrun
        obtain ⟨hbmn, _⟩ := ih _ _ _ _ _ hrun hnone
        push_neg at hcond
        exact absurd hbmn hcond.1

theorem mmLoopMin_move_none
    (child : Board → Cache → Option ((Option Move × Ext) × Cache))
    (play : Move → Board) :
    ∀ (ms : List Move) (bm : Option Move) (bu : Ext) (cache : Cache) res c',
      mmLoopMin child play ms bm bu cache = some (res, c') → res.1 = none →
      bm = none ∧ ms = [] := by
  intro ms
  induction ms with
  | nil =>
    intro bm bu cache res c' hrun hnone
    rw [mmLoopMin] at hrun
    injection hrun with h
    injection h with h1 _
    rw [← h1] at hnone
    exact ⟨hnone, rfl⟩
  | cons m rest ih =>
    intro bm bu cache res c' hrun hnone
    rw [mmLoopMin] at hrun
    cases hc : child (play m) cache with
    | none => rw [hc] at hrun; cases hrun
    | some rc =>
      obtain ⟨⟨mv, u⟩, cc'⟩ := rc
      rw [hc] at hrun
      dsimp only at hrun
      by_cases hcond : bm = none ∨ u < bu
      · rw [if_pos hcond] at hrun
        obtain ⟨hsome, _⟩ := ih _ _ _ _ _ hrun hnone
        cases hsome
      · rw [if_neg hcond] at hrun
        obtain ⟨hbmn, _⟩ := ih _ _ _ _ _ hrun hnone
        push_neg at hcond
        exact absurd hbmn hcond.1

theorem abLoopMax_move_none
    (child : Ext → Ext → Board → Cache → Option ((Option Move × Ext) × Cache))
    (play : Move → Board) (beta : Ext) :
    ∀ (ms : List Move) (bm : Option Move) (bu alpha : Ext) (cache : Cache) res w c',
      abLoopMax child play beta ms bm bu alpha cache = some (res, w, c') → res.1 = none →
      bm = none ∧ ms = [] := by
  intro ms
  induction ms with
  | nil =>
    intro bm bu alpha cache res w c' hrun hnone
    rw [abLoopMax] at hrun
    injection hrun with h
    injection h with h1 _
    rw [← h1] at hnone
    exact ⟨hnone, rfl⟩
  | cons m rest ih =>
    intro bm bu alpha cache res w c' hrun hnone
    rw [abLoopMax] at hrun
    cases hc : child alpha beta (play m) cache with
    | none => rw [hc] at hrun; cases hrun
    | some rc =>
      obtain ⟨⟨mv, u⟩, cc'⟩ := rc
      rw [hc] at hrun
      dsimp only at hrun
      by_cases hcond : bm = none ∨ bu < u
      · simp only [if_pos hcond] at hrun
        by_cases hbreak : beta ≤ (if alpha < u then u else alpha)
        · rw [if_pos hbreak] at hrun
          injection hrun with h
          injection h with h1 _
          rw [← h1] at hnone
          cases hnone
        · rw [if_neg hbreak] at hrun
          obtain ⟨hsome, _⟩ := ih _ _ _ _ _ _ _ hrun hnone
          cases hsome
      · simp only [if_neg hcond] at hrun
        push_neg at hcond
        by_cases hbreak : beta ≤ (if alpha < bu then bu else alpha)
        · rw [if_pos hbreak] at hrun
          injection hrun with h
          injection h with h1 _
          rw [← h1] at hnone
          exact absurd hnone hcond.1
        · rw [if_neg hbreak] at hrun
          obtain ⟨hbmn, _⟩ := ih _ _ _ _ _ _ _ hrun hnone
          exact absurd hbmn hcond.1

theorem abLoopMin_move_none
    (child : Ext → Ext → Board → Cache → Option ((Option Move × Ext) × Cache))
    (play : Move → Board) (alpha : Ext) :
    ∀ (ms : List Move) (bm : Option Move) (bu beta : Ext) (cache : Cache) res w c',
      abLoopMin child play alpha ms bm bu beta cache = some (res, w, c') → res.1 = none →
      bm = none ∧ ms = [] := by
  intro ms
  induction ms with
  | nil =>
    intro bm bu beta cache res w c' hrun hnone
    rw [abLoopMin] at hrun
    injection hrun with h
    injection h with h1 _
    rw [← h1] at hnone
    exact ⟨hnone, rfl⟩
  | cons m rest ih =>
    intro bm bu beta cache res w c' hrun hnone
    rw [abLoopMin] at hrun
    cases hc : child alpha beta (play m) cache with
    | none => rw [hc] at hrun; cases hrun
    | some rc =>
      obtain ⟨⟨mv, u⟩, cc'⟩ := rc
      rw [hc] at hrun
      dsimp only at hrun
      by_cases hcond : bm = none ∨ u < bu
      · simp only [if_pos hcond] at hrun
        by_cases hbreak : (if u < beta then u else beta) ≤ alpha
        · rw [if_pos hbreak] at hrun
          injection hrun with h
          injection h with h1 _
          rw [← h1] at hnone
          cases hnone
        · rw [if_neg hbreak] at hrun
          obtain ⟨hsome, _⟩ := ih _ _ _ _ _ _ _ hrun hnone
          cases hsome
      · simp only [if_neg hcond] at hrun
        push_neg at hcond
        by_cases hbreak : (if bu < beta then bu else beta) ≤ alpha
        · rw [if_pos hbreak] at hrun
          injection hrun with h
          injection h with h1 _
          rw [← h1] at hnone
          exact absurd hnone hcond.1
        · rw [if_neg hbreak] at hrun
          obtain ⟨hbmn, _⟩ := ih _ _ _ _ _ _ _ hrun hnone
          exact absurd hbmn hcond.1

/-! ### The alpha-beta store key uses the post-loop window variables -/

theorem abLoopMin_beta_final
    (child : Ext → Ext → Board → Cache → Option ((Option Move × Ext) × Cache))
    (play : Move → Board) (alpha : Ext) :
    ∀ (ms : List Move) (bm : Option Move) (bu beta beta0 : Ext) (cache : Cache) res w c',
      abLoopMin child play alpha ms bm bu beta cache = some (res, w, c') →
      beta = min beta0 bu →
      (bm = none → bu = Ext.pinf) →
      w = min beta0 res.2 := by
  intro ms
  induction ms with
  | nil =>
    intro bm bu beta beta0 cache res w c' hrun hβ hbm
    rw [abLoopMin] at hrun
    injection hrun with h
    injection h with h1 h2
    injection h2 with h3 _
    rw [← h3, ← h1, hβ]
  | cons m rest ih =>
    intro bm bu beta beta0 cache res w c' hrun hβ hbm
    rw [abLoopMin] at hrun
    cases hc : child alpha beta (play m) cache with
    | none => rw [hc] at hrun; cases hrun
    | some rc =>
      obtain ⟨⟨mv, u⟩, cc'⟩ := rc
      rw [hc] at hrun
      dsimp only at hrun
      set bu1 : Ext := if bm = none ∨ u < bu then u else bu with hbu1_def
      have hbu1 : bu1 = min bu u := by
        rw [hbu1_def]
        by_cases hcond : bm = none ∨ u < bu
        · rw [if_pos hcond]
          rcases hcond with h | h
          · rw [hbm h]; exact (min_eq_right (Ext.le_pinf u)).symm
          · exact (min_eq_right (le_of_lt h)).symm
        · rw [if_neg hcond]
          push_neg at hcond
          exact (min_eq_left hcond.2).symm
      have hbeta1 : (if bu1 < beta then bu1 else beta) = min beta0 bu1 := by
        have : (if bu1 < beta then bu1 else beta) = min beta bu1 := by
          by_cases h : bu1 < beta
          · rw [if_pos h]; exact (min_eq_right (le_of_lt h)).symm
          · rw [if_neg h]; exact (min_eq_left (le_of_not_lt h)).symm
        rw [this, hβ, hbu1, min_assoc beta0 bu (min bu u), ← min_assoc bu bu u, min_self]
      have hbm1 : (if bm = none ∨ u < bu then some m else bm) = none → bu1 = Ext.pinf := by
        intro hn
        by_cases hcond : bm = none ∨ u < bu
        · rw [if_pos hcond] at hn; cases hn
        · rw [if_neg hcond] at hn
          push_neg at hcond
          exact absurd hn hcond.1
      by_cases hbreak : (if bu1 < beta then bu1 else beta) ≤ alpha
      · rw [if_pos hbreak] at hrun
        injection hrun with h
        injection h with h1 h2
        injection h2 with h3 _
        rw [← h3, ← h1, hbeta1]
      · rw [if_neg hbreak] at hrun
        exact ih _ _ _ beta0 _ _ _ _ hrun hbeta1 hbm1

theorem abLoopMax_alpha_final
    (child : Ext → Ext → Board → Cache → Option ((Option Move × Ext) × Cache))
    (play : Move → Board) (beta : Ext) :
    ∀ (ms : List Move) (bm : Option Move) (bu alpha alpha0 : Ext) (cache : Cache) res w c',
      abLoopMax child play beta ms bm bu alpha cache = some (res, w, c') →
      alpha = max alpha0 bu →
      (bm = none → bu = Ext.ninf) →
      w = max alpha0 res.2 := by
  intro ms
  induction ms with
  | nil =>
    intro bm bu alpha alpha0 cache res w c' hrun hα hbm
    rw [abLoopMax] at hrun
    injection hrun with h
    injection h with h1 h2
    injection h2 with h3 _
    rw [← h3, ← h1, hα]
  | cons m rest ih =>
    intro bm bu alpha alpha0 cache res w c' hrun hα hbm
    rw [abLoopMax] at hrun
    cases hc : child alpha beta (play m) cache with
    | none => rw [hc] at hrun; cases hrun
    | some rc =>
      obtain ⟨⟨mv, u⟩, cc'⟩ := rc
      rw [hc] at hrun
      dsimp only at hrun
      set bu1 : Ext := if bm = none ∨ bu < u then u else bu with hbu1_def
      have hbu1 : bu1 = max bu u := by
        rw [hbu1_def]
        by_cases hcond : bm = none ∨ bu < u
        · rw [if_pos hcond]
          rcases hcond with h | h
          · rw [hbm h]; exact (max_eq_right (Ext.ninf_le u)).symm
          · exact (max_eq_right (le_of_lt h)).symm
        · rw [if_neg hcond]
          push_neg at hcond
          exact (max_eq_left hcond.2).symm
      have halpha1 : (if alpha < bu1 then bu1 else alpha) = max alpha0 bu1 := by
        have : (if alpha < bu1 then bu1 else alpha) = max alpha bu1 := by
          by_cases h : alpha < bu1
          · rw [if_pos h]; exact (max_eq_right (le_of_lt h)).symm
          · rw [if_neg h]; exact (max_eq_left (le_of_not_lt h)).symm
        rw [this, hα, hbu1, max_assoc alpha0 bu (max bu u), ← max_assoc bu bu u, max_self]
      have hbm1 : (if bm = none ∨ bu < u then some m else bm) = none → bu1 = Ext.ninf := by
        intro hn
        by_cases hcond : bm = none ∨ bu < u
        · rw [if_pos hcond] at hn; cases hn
        · rw [if_neg hcond] at hn
          push_neg at hcond
          exact absurd hn hcond.1
      by_cases hbreak : beta ≤ (if alpha < bu1 then bu1 else alpha)
      · rw [if_pos hbreak] at hrun
        injection hrun with h
        injection h with h1 h2
        injection h2 with h3 _
        rw [← h3, ← h1, halpha1]
      · rw [if_neg hbreak] at hrun
        exact ih _ _ _ alpha0 _ _ _ _ hrun halpha1 hbm1

/-- With caching on and a cache miss, `alphabeta_min_node` runs the loop
and stores the result under the *final* values of the window variables:
the received `alpha` and the post-loop (possibly narrowed) `beta`. -/
theorem alphabeta_min_node_cache1_miss (R : Rules) (fuel : Nat) (b : Board) (c : ℤ)
    (alpha beta : Ext) (l ordering : ℤ) (cache : Cache)
    (hmiss : findEntry cache.ab (b, c, alpha, beta) = none) :
    alphabeta_min_node R (fuel + 1) b c alpha beta l 1 ordering cache =
      (if R.get_possible_moves b c = [] ∨ l = 0 then
        some ((none, Ext.fin (compute_utility R b c)), cache)
      else
        match abLoopMin
          (fun a bb nb cc =>
            alphabeta_max_node R fuel nb (3 - c) a bb (l - 1) 1 ordering cc)
          (fun m => R.play_move b c m.1 m.2) alpha (abMovesMin R b c ordering)
          none Ext.pinf beta cache with
        | none => none
        | some (res, w, c1) =>
          some (res, { c1 with ab := ((b, c, alpha, w), res) :: c1.ab })) := by
  simp only [alphabeta_min_node, abMovesMin]
  simp only [if_true, hmiss]
  by_cases hleaf : R.get_possible_moves b c = [] ∨ l = 0
  · simp [hleaf]
  · simp only [if_neg hleaf]
    cases hres : abLoopMin
        (fun a bb nb cc => alphabeta_max_node R fuel nb (3 - c) a bb (l - 1) 1 ordering cc)
        (fun m => R.play_move b c m.1 m.2) alpha
        (if ordering = 1 then
          sortByKey (fun m => compute_utility R (R.play_move b c m.1 m.2) c)
            (R.get_possible_moves b c)
          else R.get_possible_moves b c) none Ext.pinf beta cache with
    | none => simp [hres]
    | some r => obtain ⟨⟨bm, bu⟩, bf, c1⟩ := r; simp [hres]

/-- With caching on and a cache miss, `alphabeta_max_node` stores the
result under the post-loop (possibly raised) `alpha` and the received
`beta`. -/
theorem alphabeta_max_node_cache1_miss (R : Rules) (fuel : Nat) (b : Board) (c : ℤ)
    (alpha beta : Ext) (l ordering : ℤ) (cache : Cache)
    (hmiss : findEntry cache.ab (b, c, alpha, beta) = none) :
    alphabeta_max_node R (fuel + 1) b c alpha beta l 1 ordering cache =
      (if R.get_possible_moves b c = [] ∨ l = 0 then
        some ((none, Ext.fin (compute_utility R b c)), cache)
      else
        match abLoopMax
          (fun a bb nb cc =>
            alphabeta_min_node R fuel nb (3 - c) a bb (l - 1) 1 ordering cc)
          (fun m => R.play_move b c m.1 m.2) beta (abMovesMax R b c ordering)
          none Ext.ninf alpha cache with
        | none => none
        | some (res, w, c1) =>
          some (res, { c1 with ab := ((b, c, w, beta), res) :: c1.ab })) := by
  simp only [alphabeta_max_node, abMovesMax]
  simp only [if_true, hmiss]
  by_cases hleaf : R.get_possible_moves b c = [] ∨ l = 0
  · simp [hleaf]
  · simp only [if_neg hleaf]
    cases hres : abLoopMax
        (fun a bb nb cc => alphabeta_min_node R fuel nb (3 - c) a bb (l - 1) 1 ordering cc)
        (fun m => R.play_move b c m.1 m.2) beta
        (if ordering = 1 then
          sortByKey (fun m => -compute_utility R (R.play_move b c m.1 m.2) c)
            (R.get_possible_moves b c)
          else R.get_possible_moves b c) none Ext.ninf alpha cache with
    | none => simp [hres]
    | some r => obtain ⟨⟨bm, bu⟩, af, c1⟩ := r; simp [hres]

/-! ### Fuel monotonicity: a search that terminates with some fuel
returns the same result with more fuel -/

theorem mmLoopMax_mono_child
    (child1 child2 : Board → Cache → Option ((Option Move × Ext) × Cache))
    (play : Move → Board)
    (h : ∀ bb cc r, child1 bb cc = some r → child2 bb cc = some r) :
    ∀ (ms : List Move) (bm : Option Move) (bu : Ext) (cache : Cache) r,
      mmLoopMax child1 play ms bm bu cache = some r →
      mmLoopMax child2 play ms bm bu cache = some r := by
  intro ms
  induction ms with
  | nil => intro bm bu cache r hrun; exact hrun
  | cons m rest ih =>
    intro bm bu cache r hrun
    rw [mmLoopMax] at hrun ⊢
    cases hc : child1 (play m) cache with
    | none => rw [hc] at hrun; cases hrun
    | some rc =>
      obtain ⟨⟨mv, u⟩, cc'⟩ := rc
      rw [hc] at hrun
      rw [h _ _ _ hc]
      dsimp only at hrun ⊢
      by_cases hcond : bm = none ∨ bu < u
      · rw [if_pos hcond] at hrun ⊢; exact ih _ _ _ _ hrun
      · rw [if_neg hcond] at hrun ⊢; exact ih _ _ _ _ hrun

theorem mmLoopMin_mono_child
    (child1 child2 : Board → Cache → Option ((Option Move × Ext) × Cache))
    (play : Move → Board)
    (h : ∀ bb cc r, child1 bb cc = some r → child2 bb cc = some r) :
    ∀ (ms : List Move) (bm : Option Move) (bu : Ext) (cache : Cache) r,
      mmLoopMin child1 play ms bm bu cache = some r →
      mmLoopMin child2 play ms bm bu cache = some r := by
  intro ms
  induction ms with
  | nil => intro bm bu cache r hrun; exact hrun
  | cons m rest ih =>
    intro bm bu cache r hrun
    rw [mmLoopMin] at hrun ⊢
    cases hc : child1 (play m) cache with
    | none => rw [hc] at hrun; cases hrun
    | some rc =>
      obtain ⟨⟨mv, u⟩, cc'⟩ := rc
      rw [hc] at hrun
      rw [h _ _ _ hc]
      dsimp only at hrun ⊢
      by_cases hcond : bm = none ∨ u < bu
      · rw [if_pos hcond] at hrun ⊢; exact ih _ _ _ _ hrun
      · rw [if_neg hcond] at hrun ⊢; exact ih _ _ _ _ hrun

theorem abLoopMax_mono_child
    (child1 child2 : Ext → Ext → Board → Cache → Option ((Option Move × Ext) × Cache))
    (play : Move → Board) (beta : Ext)
    (h : ∀ a b' bb cc r, child1 a b' bb cc = some r → child2 a b' bb cc = some r) :
    ∀ (ms : List Move) (bm : Option Move) (bu alpha : Ext) (cache : Cache) r,
      abLoopMax child1 play beta ms bm bu alpha cache = some r →
      abLoopMax child2 play beta ms bm bu alpha cache = some r := by
  intro ms
  induction ms with
  | nil => intro bm bu alpha cache r hrun; exact hrun
  | cons m rest ih =>
    intro bm bu alpha cache r hrun
    rw [abLoopMax] at hrun ⊢
    cases hc : child1 alpha beta (play m) cache with
    | none => rw [hc] at hrun; cases hrun
    | some rc =>
      obtain ⟨⟨mv, u⟩, cc'⟩ := rc
      rw [hc] at hrun
      rw [h _ _ _ _ _ hc]
      dsimp only at hrun ⊢
      by_cases hcond : bm = none ∨ bu < u
      · simp only [if_pos hcond] at hrun ⊢
        by_cases hbreak : beta ≤ (if alpha < u then u else alpha)
        · rw [if_pos hbreak] at hrun ⊢; exact hrun
        · rw [if_neg hbreak] at hrun ⊢; exact ih _ _ _ _ _ hrun
      · simp only [if_neg hcond] at hrun ⊢
        by_cases hbreak : beta ≤ (if alpha < bu then bu else alpha)
        · rw [if_pos hbreak] at hrun ⊢; exact hrun
        · rw [if_neg hbreak] at hrun ⊢; exact ih _ _ _ _ _ hrun

theorem abLoopMin_mono_child
    (child1 child2 : Ext → Ext → Board → Cache → Option ((Option Move × Ext) × Cache))
    (play : Move → Board) (alpha : Ext)
    (h : ∀ a b' bb cc r, child1 a b' bb cc = some r → child2 a b' bb cc = some r) :
    ∀ (ms : List Move) (bm : Option Move) (bu beta : Ext) (cache : Cache) r,
      abLoopMin child1 play alpha ms bm bu beta cache = some r →
      abLoopMin child2 play alpha ms bm bu beta cache = some r := by
  intro ms
  induction ms with
  | nil => intro bm bu beta cache r hrun; exact hrun
  | cons m rest ih =>
    intro bm bu beta cache r hrun
    rw [abLoopMin] at hrun ⊢
    cases hc : child1 alpha beta (play m) cache with
    | none => rw [hc] at hrun; cases hrun
    | some rc =>
      obtain ⟨⟨mv, u⟩, cc'⟩ := rc
      rw [hc] at hrun
      rw [h _ _ _ _ _ hc]
      dsimp only at hrun ⊢
      by_cases hcond : bm = none ∨ u < bu
      · simp only [if_pos hcond] at hrun ⊢
        by_cases hbreak : (if u < beta then u else beta) ≤ alpha
        · rw [if_pos hbreak] at hrun ⊢; exact hrun
        · rw [if_neg hbreak] at hrun ⊢; exact ih _ _ _ _ _ hrun
      · simp only [if_neg hcond] at hrun ⊢
        by_cases hbreak : (if bu < beta then bu else beta) ≤ alpha
        · rw [if_pos hbreak] at hrun ⊢; exact hrun
        · rw [if_neg hbreak] at hrun ⊢; exact ih _ _ _ _ _ hrun

theorem minimax_fuel_mono (R : Rules) :
    ∀ (fuel : Nat) (b : Board) (c l : ℤ) (cache : Cache) r,
      (minimax_min_node R fuel b c l 0 cache = some r →
        minimax_min_node R (fuel + 1) b c l 0 cache = some r) ∧
      (minimax_max_node R fuel b c l 0 cache = some r →
        minimax_max_node R (fuel + 1) b c l 0 cache = some r) := by
  intro fuel
  induction fuel with
  | zero =>
    intro b c l cache r
    constructor
    · intro h; simp [minimax_min_node] at h
    · intro h; simp [minimax_max_node] at h
  | succ fuel ih =>
    intro b c l cache r
    constructor
    · intro h
      rw [minimax_min_node_nocache] at h
      rw [minimax_min_node_nocache]
      by_cases hleaf : R.get_possible_moves b c = [] ∨ l = 0
      · rw [if_pos hleaf] at h ⊢; exact h
      · rw [if_neg hleaf] at h ⊢
        cases hloop : mmLoopMin
            (fun bb cc => minimax_max_node R fuel bb (3 - c) (l - 1) 0 cc)
            (fun m => R.play_move b c m.1 m.2) (R.get_possible_moves b c)
            none Ext.pinf cache with
        | none => rw [hloop] at h; cases h
        | some r0 =>
          rw [hloop] at h
          rw [mmLoopMin_mono_child _
            (fun bb cc => minimax_max_node R (fuel + 1) bb (3 - c) (l - 1) 0 cc) _
            (fun bb cc r' => (ih bb (3 - c) (l - 1) cc r').2) _ _ _ _ _ hloop]
          exact h
    · intro h
      rw [minimax_max_node_nocache] at h
      rw [minimax_max_node_nocache]
      by_cases hleaf : R.get_possible_moves b c = [] ∨ l = 0
      · rw [if_pos hleaf] at h ⊢; exact h
      · rw [if_neg hleaf] at h ⊢
        cases hloop : mmLoopMax
            (fun bb cc => minimax_min_node R fuel bb (3 - c) (l - 1) 0 cc)
            (fun m => R.play_move b c m.1 m.2) (R.get_possible_moves b c)
            none Ext.ninf cache with
        | none => rw [hloop] at h; cases h
        | some r0 =>
          rw [hloop] at h
          rw [mmLoopMax_mono_child _
            (fun bb cc => minimax_min_node R (fuel + 1) bb (3 - c) (l - 1) 0 cc) _
            (fun bb cc r' => (ih bb (3 - c) (l - 1) cc r').1) _ _ _ _ _ hloop]
          exact h

theorem alphabeta_fuel_mono (R : Rules) (ordering : ℤ) :
    ∀ (fuel : Nat) (b : Board) (c : ℤ) (alpha beta : Ext) (l : ℤ) (cache : Cache) r,
      (alphabeta_min_node R fuel b c alpha beta l 0 ordering cache = some r →
        alphabeta_min_node R (fuel + 1) b c alpha beta l 0 ordering cache = some r) ∧
      (alphabeta_max_node R fuel b c alpha beta l 0 ordering cache = some r →
        alphabeta_max_node R (fuel + 1) b c alpha beta l 0 ordering cache = some r) := by
  intro fuel
  induction fuel with
  | zero =>
    intro b c alpha beta l cache r
    constructor
    · intro h; simp [alphabeta_min_node] at h
    · intro h; simp [alphabeta_max_node] at h
  | succ fuel ih =>
    intro b c alpha beta l cache r
    constructor
    · intro h
      rw [alphabeta_min_node_nocache] at h
      rw [alphabeta_min_node_nocache]
      by_cases hleaf : R.get_possible_moves b c = [] ∨ l = 0
      · rw [if_pos hleaf] at h ⊢; exact h
      · rw [if_neg hleaf] at h ⊢
        cases hloop : abLoopMin
            (fun a bb nb cc =>
              alphabeta_max_node R fuel nb (3 - c) a bb (l - 1) 0 ordering cc)
            (fun m => R.play_move b c m.1 m.2) alpha (abMovesMin R b c ordering)
            none Ext.pinf beta cache with
        | none => rw [hloop] at h; simp at h
        | some r0 =>
          rw [hloop] at h
          rw [abLoopMin_mono_child _
            (fun a bb nb cc =>
              alphabeta_max_node R (fuel + 1) nb (3 - c) a bb (l - 1) 0 ordering cc) _ _
            (fun a bb nb cc r' => (ih nb (3 - c) a bb (l - 1) cc r').2) _ _ _ _ _ _ hloop]
          exact h
    · intro h
      rw [alphabeta_max_node_nocache] at h
      rw [alphabeta_max_node_nocache]
      by_cases hleaf : R.get_possible_moves b c = [] ∨ l = 0
      · rw [if_pos hleaf] at h ⊢; exact h
      · rw [if_neg hleaf] at h ⊢
        cases hloop : abLoopMax
            (fun a bb nb cc =>
              alphabeta_min_node R fuel nb (3 - c) a bb (l - 1) 0 ordering cc)
            (fun m => R.play_move b c m.1 m.2) beta (abMovesMax R b c ordering)
            none Ext.ninf alpha cache with
        | none => rw [hloop] at h; simp at h
        | some r0 =>
          rw [hloop] at h
          rw [abLoopMax_mono_child _
            (fun a bb nb cc =>
              alphabeta_min_node R (fuel + 1) nb (3 - c) a bb (l - 1) 0 ordering cc) _ _
            (fun a bb nb cc r' => (ih nb (3 - c) a bb (l - 1) cc r').1) _ _ _ _ _ _ hloop]
          exact h

theorem minimax_fuel_le (R : Rules) {fuel fuel' : Nat} (hle : fuel ≤ fuel')
    (b : Board) (c l : ℤ) (cache : Cache) (r : (Option Move × Ext) × Cache) :
    (minimax_min_node R fuel b c l 0 cache = some r →
      minimax_min_node R fuel' b c l 0 cache = some r) ∧
    (minimax_max_node R fuel b c l 0 cache = some r →
      minimax_max_node R fuel' b c l 0 cache = some r) := by
  induction fuel' with
  | zero =>
    obtain rfl := Nat.le_zero.1 hle
    exact ⟨id, id⟩
  | succ n ih =>
    rcases Nat.le_succ_iff.1 hle with h | rfl
    · exact ⟨fun hr => (minimax_fuel_mono R n b c l cache r).1 ((ih h).1 hr),
        fun hr => (minimax_fuel_mono R n b c l cache r).2 ((ih h).2 hr)⟩
    · exact ⟨id, id⟩

theorem alphabeta_fuel_le (R : Rules) (ordering : ℤ) {fuel fuel' : Nat}
    (hle : fuel ≤ fuel') (b : Board) (c : ℤ) (alpha beta : Ext) (l : ℤ)
    (cache : Cache) (r : (Option Move × Ext) × Cache) :
    (alphabeta_min_node R fuel b c alpha beta l 0 ordering cache = some r →
      alphabeta_min_node R fuel' b c alpha beta l 0 ordering cache = some r) ∧
    (alphabeta_max_node R fuel b c alpha beta l 0 ordering cache = some r →
      alphabeta_max_node R fuel' b c alpha beta l 0 ordering cache = some r) := by
  induction fuel' with
  | zero =>
    obtain rfl := Nat.le_zero.1 hle
    exact ⟨id, id⟩
  | succ n ih =>
    rcases Nat.le_succ_iff.1 hle with h | rfl
    · exact ⟨fun hr => (alphabeta_fuel_mono R ordering n b c alpha beta l cache r).1
          ((ih h).1 hr),
        fun hr => (alphabeta_fuel_mono R ordering n b c alpha beta l cache r).2
          ((ih h).2 hr)⟩
    · exact ⟨id, id⟩

/-- Two terminating runs of the same minimax node (any fuels) agree. -/
theorem minimax_agree (R : Rules) {fuel fuel' : Nat} (b : Board) (c l : ℤ)
    (cache : Cache) (r r' : (Option Move × Ext) × Cache) :
    (minimax_min_node R fuel b c l 0 cache = some r →
      minimax_min_node R fuel' b c l 0 cache = some r' → r = r') ∧
    (minimax_max_node R fuel b c l 0 cache = some r →
      minimax_max_node R fuel' b c l 0 cache = some r' → r = r') := by
  constructor
  · intro h1 h2
    rcases Nat.le_total fuel fuel' with hle | hle
    · have := (minimax_fuel_le R hle b c l cache r).1 h1
      rw [this] at h2
      injection h2
    · have := (minimax_fuel_le R hle b c l cache r').1 h2
      rw [this] at h1
      injection h1 with h
      exact h.symm
  · intro h1 h2
    rcases Nat.le_total fuel fuel' with hle | hle
    · have := (minimax_fuel_le R hle b c l cache r).2 h1
      rw [this] at h2
      injection h2
    · have := (minimax_fuel_le R hle b c l cache r').2 h2
      rw [this] at h1
      injection h1 with h
      exact h.symm

/-- Two terminating runs of the same alpha-beta node (any fuels) agree. -/
theorem alphabeta_agree (R : Rules) (ordering : ℤ) {fuel fuel' : Nat} (b : Board)
    (c : ℤ) (alpha beta : Ext) (l : ℤ) (cache : Cache)
    (r r' : (Option Move × Ext) × Cache) :
    (alphabeta_min_node R fuel b c alpha beta l 0 ordering cache = some r →
      alphabeta_min_node R fuel' b c alpha beta l 0 ordering cache = some r' → r = r') ∧
    (alphabeta_max_node R fuel b c alpha beta l 0 ordering cache = some r →
      alphabeta_max_node R fuel' b c alpha beta l 0 ordering cache = some r' → r = r') := by
  constructor
  · intro h1 h2
    rcases Nat.le_total fuel fuel' with hle | hle
    · have := (alphabeta_fuel_le R ordering hle b c alpha beta l cache r).1 h1
      rw [this] at h2
      injection h2
    · have := (alphabeta_fuel_le R ordering hle b c alpha beta l cache r').1 h2
      rw [this] at h1
      injection h1 with h
      exact h.symm
  · intro h1 h2
    rcases Nat.le_total fuel fuel' with hle | hle
    · have := (alphabeta_fuel_le R ordering hle b c alpha beta l cache r).2 h1
      rw [this] at h2
      injection h2
    · have := (alphabeta_fuel_le R ordering hle b c alpha beta l cache r').2 h2
      rw [this] at h1
      injection h1 with h
      exact h.symm

/-! ### Caching transparency for minimax -/

/-- With caching on and a cache hit, `minimax_min_node` returns the
stored entry and leaves the cache unchanged (src/agent.py lines 79-80). -/
theorem minimax_min_node_cache1_hit (R : Rules) (fuel : Nat) (b : Board) (c l : ℤ)
    (cache : Cache) (r : Option Move × Ext)
    (hhit : findEntry cache.mm (b, c) = some r) :
    minimax_min_node R (fuel + 1) b c l 1 cache = some (r, cache) := by
  simp only [minimax_min_node]
  simp [hhit]

/-- With caching on and a cache hit, `minimax_max_node` returns the
stored entry and leaves the cache unchanged (src/agent.py lines 100-101). -/
theorem minimax_max_node_cache1_hit (R : Rules) (fuel : Nat) (b : Board) (c l : ℤ)
    (cache : Cache) (r : Option Move × Ext)
    (hhit : findEntry cache.mm (b, c) = some r) :
    minimax_max_node R (fuel + 1) b c l 1 cache = some (r, cache) := by
  simp only [minimax_max_node]
  simp [hhit]

/-- With caching on and a cache hit, `alphabeta_min_node` returns the
stored entry and leaves the cache unchanged (src/agent.py lines 138-139). -/
theorem alphabeta_min_node_cache1_hit (R : Rules) (fuel : Nat) (b : Board) (c : ℤ)
    (alpha beta : Ext) (l ordering : ℤ) (cache : Cache) (r : Option Move × Ext)
    (hhit : findEntry cache.ab (b, c, alpha, beta) = some r) :
    alphabeta_min_node R (fuel + 1) b c alpha beta l 1 ordering cache
      = some (r, cache) := by
  simp only [alphabeta_min_node]
  simp [hhit]

/-- With caching on and a cache hit, `alphabeta_max_node` returns the
stored entry and leaves the cache unchanged (src/agent.py lines 167-168). -/
theorem alphabeta_max_node_cache1_hit (R : Rules) (fuel : Nat) (b : Board) (c : ℤ)
    (alpha beta : Ext) (l ordering : ℤ) (cache : Cache) (r : Option Move × Ext)
    (hhit : findEntry cache.ab (b, c, alpha, beta) = some r) :
    alphabeta_max_node R (fuel + 1) b c alpha beta l 1 ordering cache
      = some (r, cache) := by
  simp only [alphabeta_max_node]
  simp [hhit]

/-- With caching on and a cache miss, `minimax_min_node` is the leaf
test, the loop with caching children, and the store under
`(board, color)`. -/
theorem minimax_min_node_cache1_miss (R : Rules) (fuel : Nat) (b : Board) (c l : ℤ)
    (cache : Cache) (hmiss : findEntry cache.mm (b, c) = none) :
    minimax_min_node R (fuel + 1) b c l 1 cache =
      (if R.get_possible_moves b c = [] ∨ l = 0 then
        some ((none, Ext.fin (compute_utility R b c)), cache)
      else
        match mmLoopMin (fun bb cc => minimax_max_node R fuel bb (3 - c) (l - 1) 1 cc)
          (fun m => R.play_move b c m.1 m.2) (R.get_possible_moves b c)
          none Ext.pinf cache with
        | none => none
        | some (res, c1) =>
          some (res, { c1 with mm := ((b, c), res) :: c1.mm })) := by
  simp only [minimax_min_node]
  simp only [if_true, hmiss]
  by_cases hleaf : R.get_possible_moves b c = [] ∨ l = 0
  · simp [hleaf]
  · simp only [if_neg hleaf]
    cases hres : mmLoopMin (fun bb cc => minimax_max_node R fuel bb (3 - c) (l - 1) 1 cc)
        (fun m => R.play_move b c m.1 m.2) (R.get_possible_moves b c)
        none Ext.pinf cache with
    | none => simp [hres]
    | some r => obtain ⟨⟨bm, bu⟩, c1⟩ := r; simp [hres]

/-- With caching on and a cache miss, `minimax_max_node` is the leaf
test, the loop with caching children, and the store under
`(board, color)`. -/
theorem minimax_max_node_cache1_miss (R : Rules) (fuel : Nat) (b : Board) (c l : ℤ)
    (cache : Cache) (hmiss : findEntry cache.mm (b, c) = none) :
    minimax_max_node R (fuel + 1) b c l 1 cache =
      (if R.get_possible_moves b c = [] ∨ l = 0 then
        some ((none, Ext.fin (compute_utility R b c)), cache)
      else
        match mmLoopMax (fun bb cc => minimax_min_node R fuel bb (3 - c) (l - 1) 1 cc)
          (fun m => R.play_move b c m.1 m.2) (R.get_possible_moves b c)
          none Ext.ninf cache with
        | none => none
        | some (res, c1) =>
          some (res, { c1 with mm := ((b, c), res) :: c1.mm })) := by
  simp only [minimax_max_node]
  simp only [if_true, hmiss]
  by_cases hleaf : R.get_possible_moves b c = [] ∨ l = 0
  · simp [hleaf]
  · simp only [if_neg hleaf]
    cases hres : mmLoopMax (fun bb cc => minimax_min_node R fuel bb (3 - c) (l - 1) 1 cc)
        (fun m => R.play_move b c m.1 m.2) (R.get_possible_moves b c)
        none Ext.ninf cache with
    | none => simp [hres]
    | some r => obtain ⟨⟨bm, bu⟩, c1⟩ := r; simp [hres]

/-- Coherence invariant for the minimax cache during a search rooted at
`b0` with limit `L` and root color `c0`: every stored entry is the
cache-free result of the corresponding node at its canonical depth
budget `L - (sz b - sz b0)` (the limit the search passes to a node whose
board has `sz b - sz b0` more disks than the root). -/
def mmCacheInv (R : Rules) (sz : Board → Nat) (c0 : ℤ) (b0 : Board) (L : ℤ)
    (cache : Cache) : Prop :=
  ∀ b c res, findEntry cache.mm (b, c) = some res →
    (c = c0 ∧ ∃ F, minimax_max_node R F b c (L - ((sz b : ℤ) - (sz b0 : ℤ))) 0 emptyCache
        = some (res, emptyCache)) ∨
    (c = 3 - c0 ∧ ∃ F, minimax_min_node R F b c (L - ((sz b : ℤ) - (sz b0 : ℤ))) 0 emptyCache
        = some (res, emptyCache))

/-- Parallel run of the max loop: if every free child call is matched by
a caching child call with the same result that preserves an invariant,
the caching loop returns the free loop's result and preserves the
invariant. -/
theorem mmLoopMax_cached
    (childF childC : Board → Cache → Option ((Option Move × Ext) × Cache))
    (play : Move → Board) (Inv : Cache → Prop) :
    ∀ (ms : List Move),
      (∀ m ∈ ms, ∀ resF, childF (play m) emptyCache = some (resF, emptyCache) →
        ∀ cC, Inv cC → ∃ cC', childC (play m) cC = some (resF, cC') ∧ Inv cC') →
      (∀ bb, CachePure (childF bb)) →
      ∀ (bm : Option Move) (bu : Ext) (res : Option Move × Ext) (cF cC : Cache),
        mmLoopMax childF play ms bm bu emptyCache = some (res, cF) →
        Inv cC →
        ∃ cC', mmLoopMax childC play ms bm bu cC = some (res, cC') ∧ Inv cC' := by
  intro ms
  induction ms with
  | nil =>
    intro _ _ bm bu res cF cC hrun hInv
    rw [mmLoopMax] at hrun
    injection hrun with h
    injection h with h1 _
    exact ⟨cC, by rw [mmLoopMax, h1], hInv⟩
  | cons m rest ih =>
    intro hrel hFpure bm bu res cF cC hrun hInv
    rw [mmLoopMax] at hrun ⊢
    cases hc : childF (play m) emptyCache with
    | none => rw [hc] at hrun; cases hrun
    | some rc =>
      obtain ⟨⟨mv, u⟩, ce⟩ := rc
      obtain ⟨he, _⟩ := (hFpure (play m)).some_all hc
      subst he
      obtain ⟨cC', hcC, hInv'⟩ := hrel m (List.mem_cons_self m rest) (mv, u) hc cC hInv
      rw [hc] at hrun
      rw [hcC]
      dsimp only at hrun ⊢
      by_cases hcond : bm = none ∨ bu < u
      · rw [if_pos hcond] at hrun ⊢
        exact ih (fun m' hm' => hrel m' (List.mem_cons_of_mem _ hm')) hFpure
          _ _ _ _ _ hrun hInv'
      · rw [if_neg hcond] at hrun ⊢
        exact ih (fun m' hm' => hrel m' (List.mem_cons_of_mem _ hm')) hFpure
          _ _ _ _ _ hrun hInv'

/-- Parallel run of the min loop, dual to `mmLoopMax_cached`. -/
theorem mmLoopMin_cached
    (childF childC : Board → Cache → Option ((Option Move × Ext) × Cache))
    (play : Move → Board) (Inv : Cache → Prop) :
    ∀ (ms : List Move),
      (∀ m ∈ ms, ∀ resF, childF (play m) emptyCache = some (resF, emptyCache) →
        ∀ cC, Inv cC → ∃ cC', childC (play m) cC = some (resF, cC') ∧ Inv cC') →
      (∀ bb, CachePure (childF bb)) →
      ∀ (bm : Option Move) (bu : Ext) (res : Option Move × Ext) (cF cC : Cache),
        mmLoopMin childF play ms bm bu emptyCache = some (res, cF) →
        Inv cC →
        ∃ cC', mmLoopMin childC play ms bm bu cC = some (res, cC') ∧ Inv cC' := by
  intro ms
  induction ms with
  | nil =>
    intro _ _ bm bu res cF cC hrun hInv
    rw [mmLoopMin] at hrun
    injection hrun with h
    injection h with h1 _
    exact ⟨cC, by rw [mmLoopMin, h1], hInv⟩
  | cons m rest ih =>
    intro hrel hFpure bm bu res cF cC hrun hInv
    rw [mmLoopMin] at hrun ⊢
    cases hc : childF (play m) emptyCache with
    | none => rw [hc] at hrun; cases hrun
    | some rc =>
      obtain ⟨⟨mv, u⟩, ce⟩ := rc
      obtain ⟨he, _⟩ := (hFpure (play m)).some_all hc
      subst he
      obtain ⟨cC', hcC, hInv'⟩ := hrel m (List.mem_cons_self m rest) (mv, u) hc cC hInv
      rw [hc] at hrun
      rw [hcC]
      dsimp only at hrun ⊢
      by_cases hcond : bm = none ∨ u < bu
      · rw [if_pos hcond] at hrun ⊢
        exact ih (fun m' hm' => hrel m' (List.mem_cons_of_mem _ hm')) hFpure
          _ _ _ _ _ hrun hInv'
      · rw [if_neg hcond] at hrun ⊢
        exact ih (fun m' hm' => hrel m' (List.mem_cons_of_mem _ hm')) hFpure
          _ _ _ _ _ hrun hInv'

/-- Main caching-correctness induction for minimax: under the cache
coherence invariant, a caching run returns exactly the cache-free result
and re-establishes the invariant.  Requires every legal move to add one
disk (`hsz`, true of Othello) so that a board determines the depth
budget it is searched with, and a root color in {1, 2} so max nodes and
min nodes are keyed by distinct colors. -/
theorem minimax_cached_run (R : Rules) (sz : Board → Nat)
    (hsz : ∀ b c m, m ∈ R.get_possible_moves b c →
      sz (R.play_move b c m.1 m.2) = sz b + 1)
    (c0 : ℤ) (hc0 : c0 = 1 ∨ c0 = 2) (b0 : Board) (L : ℤ) :
    ∀ (fuel : Nat) (b : Board) (l : ℤ) (cache : Cache) (res : Option Move × Ext),
      l = L - ((sz b : ℤ) - (sz b0 : ℤ)) →
      mmCacheInv R sz c0 b0 L cache →
      (minimax_max_node R fuel b c0 l 0 emptyCache = some (res, emptyCache) →
        ∃ cache', minimax_max_node R fuel b c0 l 1 cache = some (res, cache') ∧
          mmCacheInv R sz c0 b0 L cache') ∧
      (minimax_min_node R fuel b (3 - c0) l 0 emptyCache = some (res, emptyCache) →
        ∃ cache', minimax_min_node R fuel b (3 - c0) l 1 cache = some (res, cache') ∧
          mmCacheInv R sz c0 b0 L cache') := by
  intro fuel
  induction fuel with
  | zero =>
    intro b l cache res hl hInv
    constructor
    · intro h; simp [minimax_max_node] at h
    · intro h; simp [minimax_min_node] at h
  | succ fuel ih =>
    intro b l cache res hl hInv
    constructor
    · intro hfree
      have hfree0 := hfree
      cases hhit : findEntry cache.mm (b, c0) with
      | some r0 =>
        rcases hInv b c0 r0 hhit with ⟨_, F, hF⟩ | ⟨habs, _⟩
        · rw [← hl] at hF
          have heq := (minimax_agree R b c0 l emptyCache (r0, emptyCache)
            (res, emptyCache)).2 hF hfree
          injection heq with h1 _
          refine ⟨cache, ?_, hInv⟩
          rw [minimax_max_node_cache1_hit R fuel b c0 l cache r0 hhit, h1]
        · exfalso; rcases hc0 with h | h <;> omega
      | none =>
        rw [minimax_max_node_nocache] at hfree
        rw [minimax_max_node_cache1_miss R fuel b c0 l cache hhit]
        by_cases hleaf : R.get_possible_moves b c0 = [] ∨ l = 0
        · rw [if_pos hleaf] at hfree ⊢
          injection hfree with h
          injection h with h1 _
          exact ⟨cache, by rw [h1], hInv⟩
        · rw [if_neg hleaf] at hfree ⊢
          cases hloop : mmLoopMax
              (fun bb cc => minimax_min_node R fuel bb (3 - c0) (l - 1) 0 cc)
              (fun m => R.play_move b c0 m.1 m.2) (R.get_possible_moves b c0)
              none Ext.ninf emptyCache with
          | none => rw [hloop] at hfree; cases hfree
          | some r1 =>
            obtain ⟨res1, cF⟩ := r1
            rw [hloop] at hfree
            injection hfree with h
            injection h with h1 _
            rw [h1] at hloop
            have hrel : ∀ m ∈ R.get_possible_moves b c0, ∀ resF,
                minimax_min_node R fuel (R.play_move b c0 m.1 m.2) (3 - c0) (l - 1) 0
                    emptyCache = some (resF, emptyCache) →
                ∀ cC, mmCacheInv R sz c0 b0 L cC → ∃ cC',
                  minimax_min_node R fuel (R.play_move b c0 m.1 m.2) (3 - c0) (l - 1) 1 cC
                      = some (resF, cC') ∧ mmCacheInv R sz c0 b0 L cC' := by
              intro m hm resF hF cC hI
              have hszm := hsz b c0 m hm
              have hl' : l - 1
                  = L - ((sz (R.play_move b c0 m.1 m.2) : ℤ) - (sz b0 : ℤ)) := by
                have hcast : (sz (R.play_move b c0 m.1 m.2) : ℤ) = (sz b : ℤ) + 1 := by
                  rw [hszm]; push_cast; ring
                rw [hcast]; omega
              exact (ih (R.play_move b c0 m.1 m.2) (l - 1) cC resF hl' hI).2 hF
            obtain ⟨cC', hloopC, hInvC⟩ := mmLoopMax_cached
              (fun bb cc => minimax_min_node R fuel bb (3 - c0) (l - 1) 0 cc)
              (fun bb cc => minimax_min_node R fuel bb (3 - c0) (l - 1) 1 cc)
              (fun m => R.play_move b c0 m.1 m.2) (mmCacheInv R sz c0 b0 L)
              (R.get_possible_moves b c0) hrel
              (fun bb => (minimax_nodes_pure R fuel bb (3 - c0) (l - 1)).1)
              none Ext.ninf res cF cache hloop hInv
            rw [hloopC]
            refine ⟨{ cC' with mm := ((b, c0), res) :: cC'.mm }, rfl, ?_⟩
            intro b' c' res' hfind
            rw [findEntry] at hfind
            by_cases hkey : ((b, c0) : Board × ℤ) = (b', c')
            · rw [if_pos hkey] at hfind
              injection hfind with hres'
              have hb' : b = b' := congrArg Prod.fst hkey
              have hc' : c0 = c' := congrArg Prod.snd hkey
              subst hb'
              subst hc'
              subst hres'
              left
              exact ⟨rfl, fuel + 1, by rw [← hl]; exact hfree0⟩
            · rw [if_neg hkey] at hfind
              exact hInvC b' c' res' hfind
    · intro hfree
      have hfree0 := hfree
      have h33 : 3 - (3 - c0) = c0 := by ring
      cases hhit : findEntry cache.mm (b, 3 - c0) with
      | some r0 =>
        rcases hInv b (3 - c0) r0 hhit with ⟨habs, _⟩ | ⟨_, F, hF⟩
        · exfalso; rcases hc0 with h | h <;> omega
        · rw [← hl] at hF
          have heq := (minimax_agree R b (3 - c0) l emptyCache (r0, emptyCache)
            (res, emptyCache)).1 hF hfree
          injection heq with h1 _
          refine ⟨cache, ?_, hInv⟩
          rw [minimax_min_node_cache1_hit R fuel b (3 - c0) l cache r0 hhit, h1]
      | none =>
        rw [minimax_min_node_nocache] at hfree
        rw [minimax_min_node_cache1_miss R fuel b (3 - c0) l cache hhit]
        rw [h33] at hfree ⊢
        by_cases hleaf : R.get_possible_moves b (3 - c0) = [] ∨ l = 0
        · rw [if_pos hleaf] at hfree ⊢
          injection hfree with h
          injection h with h1 _
          exact ⟨cache, by rw [h1], hInv⟩
        · rw [if_neg hleaf] at hfree ⊢
          cases hloop : mmLoopMin
              (fun bb cc => minimax_max_node R fuel bb c0 (l - 1) 0 cc)
              (fun m => R.play_move b (3 - c0) m.1 m.2) (R.get_possible_moves b (3 - c0))
              none Ext.pinf emptyCache with
          | none => rw [hloop] at hfree; cases hfree
          | some r1 =>
            obtain ⟨res1, cF⟩ := r1
            rw [hloop] at hfree
            injection hfree with h
            injection h with h1 _
            rw [h1] at hloop
            have hrel : ∀ m ∈ R.get_possible_moves b (3 - c0), ∀ resF,
                minimax_max_node R fuel (R.play_move b (3 - c0) m.1 m.2) c0 (l - 1) 0
                    emptyCache = some (resF, emptyCache) →
                ∀ cC, mmCacheInv R sz c0 b0 L cC → ∃ cC',
                  minimax_max_node R fuel (R.play_move b (3 - c0) m.1 m.2) c0 (l - 1) 1 cC
                      = some (resF, cC') ∧ mmCacheInv R sz c0 b0 L cC' := by
              intro m hm resF hF cC hI
              have hszm := hsz b (3 - c0) m hm
              have hl' : l - 1
                  = L - ((sz (R.play_move b (3 - c0) m.1 m.2) : ℤ) - (sz b0 : ℤ)) := by
                have hcast : (sz (R.play_move b (3 - c0) m.1 m.2) : ℤ)
                    = (sz b : ℤ) + 1 := by
                  rw [hszm]; push_cast; ring
                rw [hcast]; omega
              exact (ih (R.play_move b (3 - c0) m.1 m.2) (l - 1) cC resF hl' hI).1 hF
            obtain ⟨cC', hloopC, hInvC⟩ := mmLoopMin_cached
              (fun bb cc => minimax_max_node R fuel bb c0 (l - 1) 0 cc)
              (fun bb cc => minimax_max_node R fuel bb c0 (l - 1) 1 cc)
              (fun m => R.play_move b (3 - c0) m.1 m.2) (mmCacheInv R sz c0 b0 L)
              (R.get_possible_moves b (3 - c0)) hrel
              (fun bb => (minimax_nodes_pure R fuel bb c0 (l - 1)).2)
              none Ext.pinf res cF cache hloop hInv
            rw [hloopC]
            refine ⟨{ cC' with mm := ((b, 3 - c0), res) :: cC'.mm }, rfl, ?_⟩
            intro b' c' res' hfind
            rw [findEntry] at hfind
            by_cases hkey : ((b, 3 - c0) : Board × ℤ) = (b', c')
            · rw [if_pos hkey] at hfind
              injection hfind with hres'
              have hb' : b = b' := congrArg Prod.fst hkey
              have hc' : 3 - c0 = c' := congrArg Prod.snd hkey
              subst hb'
              subst hc'
              subst hres'
              right
              exact ⟨rfl, fuel + 1, by rw [← hl]; exact hfree0⟩
            · rw [if_neg hkey] at hfind
              exact hInvC b' c' res' hfind

/-- Coherence invariant for the alpha-beta cache: every stored entry
whose key window is non-degenerate (`alpha < beta`, the only windows a
live search can look up) has the value of the cache-free alpha-beta run
of that node at the key's window and its canonical depth budget. -/
def abCacheInv (R : Rules) (sz : Board → Nat) (c0 : ℤ) (b0 : Board) (L ordering : ℤ)
    (cache : Cache) : Prop :=
  ∀ b c alpha beta res, findEntry cache.ab (b, c, alpha, beta) = some res →
    alpha < beta →
    (c = c0 ∧ ∃ F mv, alphabeta_max_node R F b c alpha beta
        (L - ((sz b : ℤ) - (sz b0 : ℤ))) 0 ordering emptyCache
        = some ((mv, res.2), emptyCache)) ∨
    (c = 3 - c0 ∧ ∃ F mv, alphabeta_min_node R F b c alpha beta
        (L - ((sz b : ℤ) - (sz b0 : ℤ))) 0 ordering emptyCache
        = some ((mv, res.2), emptyCache))

/-- Parallel run of the alpha-beta max loop: if every free child call is
matched by a caching child call returning the same value (the move may
differ) and preserving an invariant, the caching loop returns the free
loop's result and final window bound, and preserves the invariant.  The
loop's best move comes from the move list, not from the child results,
so it is identical in both runs. -/
theorem abLoopMax_cached
    (childF childC : Ext → Ext → Board → Cache → Option ((Option Move × Ext) × Cache))
    (play : Move → Board) (beta : Ext) (Inv : Cache → Prop) :
    ∀ (ms : List Move),
      (∀ m ∈ ms, ∀ a, a < beta → ∀ resF,
        childF a beta (play m) emptyCache = some (resF, emptyCache) →
        ∀ cC, Inv cC → ∃ mvC cC', childC a beta (play m) cC
            = some ((mvC, resF.2), cC') ∧ Inv cC') →
      (∀ a b' bb, CachePure (childF a b' bb)) →
      ∀ (bm : Option Move) (bu alpha : Ext), alpha < beta →
        ∀ (res : Option Move × Ext) (w : Ext) (cF cC : Cache),
          abLoopMax childF play beta ms bm bu alpha emptyCache = some (res, w, cF) →
          Inv cC →
          ∃ cC', abLoopMax childC play beta ms bm bu alpha cC = some (res, w, cC')
            ∧ Inv cC' := by
  intro ms
  induction ms with
  | nil =>
    intro _ _ bm bu alpha _ res w cF cC hrun hInv
    rw [abLoopMax] at hrun
    injection hrun with h
    injection h with h1 h2
    injection h2 with h3 _
    exact ⟨cC, by rw [abLoopMax, h1, h3], hInv⟩
  | cons m rest ih =>
    intro hrel hFpure bm bu alpha hαβ res w cF cC hrun hInv
    rw [abLoopMax] at hrun ⊢
    cases hc : childF alpha beta (play m) emptyCache with
    | none => rw [hc] at hrun; cases hrun
    | some rc =>
      obtain ⟨⟨mv, u⟩, ce⟩ := rc
      obtain ⟨he, _⟩ := (hFpure alpha beta (play m)).some_all hc
      subst he
      obtain ⟨mvC, cC', hcC, hInv'⟩ :=
        hrel m (List.mem_cons_self m rest) alpha hαβ (mv, u) hc cC hInv
      rw [hc] at hrun
      rw [hcC]
      dsimp only at hrun ⊢
      by_cases hcond : bm = none ∨ bu < u
      · simp only [if_pos hcond] at hrun ⊢
        by_cases hbreak : beta ≤ (if alpha < u then u else alpha)
        · rw [if_pos hbreak] at hrun ⊢
          injection hrun with h
          injection h with h1 h2
          injection h2 with h3 _
          exact ⟨cC', by rw [h1, h3], hInv'⟩
        · rw [if_neg hbreak] at hrun ⊢
          exact ih (fun m' hm' => hrel m' (List.mem_cons_of_mem _ hm')) hFpure
            _ _ _ (lt_of_not_le hbreak) _ _ _ _ hrun hInv'
      · simp only [if_neg hcond] at hrun ⊢
        by_cases hbreak : beta ≤ (if alpha < bu then bu else alpha)
        · rw [if_pos hbreak] at hrun ⊢
          injection hrun with h
          injection h with h1 h2
          injection h2 with h3 _
          exact ⟨cC', by rw [h1, h3], hInv'⟩
        · rw [if_neg hbreak] at hrun ⊢
          exact ih (fun m' hm' => hrel m' (List.mem_cons_of_mem _ hm')) hFpure
            _ _ _ (lt_of_not_le hbreak) _ _ _ _ hrun hInv'

/-- Parallel run of the alpha-beta min loop, dual to
`abLoopMax_cached`. -/
theorem abLoopMin_cached
    (childF childC : Ext → Ext → Board → Cache → Option ((Option Move × Ext) × Cache))
    (play : Move → Board) (alpha : Ext) (Inv : Cache → Prop) :
    ∀ (ms : List Move),
      (∀ m ∈ ms, ∀ b', alpha < b' → ∀ resF,
        childF alpha b' (play m) emptyCache = some (resF, emptyCache) →
        ∀ cC, Inv cC → ∃ mvC cC', childC alpha b' (play m) cC
            = some ((mvC, resF.2), cC') ∧ Inv cC') →
      (∀ a b' bb, CachePure (childF a b' bb)) →
      ∀ (bm : Option Move) (bu beta : Ext), alpha < beta →
        ∀ (res : Option Move × Ext) (w : Ext) (cF cC : Cache),
          abLoopMin childF play alpha ms bm bu beta emptyCache = some (res, w, cF) →
          Inv cC →
          ∃ cC', abLoopMin childC play alpha ms bm bu beta cC = some (res, w, cC')
            ∧ Inv cC' := by
  intro ms
  induction ms with
  | nil =>
    intro _ _ bm bu beta _ res w cF cC hrun hInv
    rw [abLoopMin] at hrun
    injection hrun with h
    injection h with h1 h2
    injection h2 with h3 _
    exact ⟨cC, by rw [abLoopMin, h1, h3], hInv⟩
  | cons m rest ih =>
    intro hrel hFpure bm bu beta hαβ res w cF cC hrun hInv
    rw [abLoopMin] at hrun ⊢
    cases hc : childF alpha beta (play m) emptyCache with
    | none => rw [hc] at hrun; cases hrun
    | some rc =>
      obtain ⟨⟨mv, u⟩, ce⟩ := rc
      obtain ⟨he, _⟩ := (hFpure alpha beta (play m)).some_all hc
      subst he
      obtain ⟨mvC, cC', hcC, hInv'⟩ :=
        hrel m (List.mem_cons_self m rest) beta hαβ (mv, u) hc cC hInv
      rw [hc] at hrun
      rw [hcC]
      dsimp only at hrun ⊢
      by_cases hcond : bm = none ∨ u < bu
      · simp only [if_pos hcond] at hrun ⊢
        by_cases hbreak : (if u < beta then u else beta) ≤ alpha
        · rw [if_pos hbreak] at hrun ⊢
          injection hrun with h
          injection h with h1 h2
          injection h2 with h3 _
          exact ⟨cC', by rw [h1, h3], hInv'⟩
        · rw [if_neg hbreak] at hrun ⊢
          exact ih (fun m' hm' => hrel m' (List.mem_cons_of_mem _ hm')) hFpure
            _ _ _ (lt_of_not_le hbreak) _ _ _ _ hrun hInv'
      · simp only [if_neg hcond] at hrun ⊢
        by_cases hbreak : (if bu < beta then bu else beta) ≤ alpha
        · rw [if_pos hbreak] at hrun ⊢
          injection hrun with h
          injection h with h1 h2
          injection h2 with h3 _
          exact ⟨cC', by rw [h1, h3], hInv'⟩
        · rw [if_neg hbreak] at hrun ⊢
          exact ih (fun m' hm' => hrel m' (List.mem_cons_of_mem _ hm')) hFpure
            _ _ _ (lt_of_not_le hbreak) _ _ _ _ hrun hInv'

/-- Main caching-correctness induction for alpha-beta: under the cache
coherence invariant, a caching run started in a live window returns the
cache-free run's value (a cache hit may return a different tied move,
recorded by the final clause: at a cache miss even the move agrees) and
re-establishes the invariant.  The minimax-success hypothesis supplies
termination of the unpruned search, which the Knuth-Moore bound lemma
needs when a narrowed re-search window justifies a stored entry. -/
theorem alphabeta_cached_run (R : Rules) (sz : Board → Nat)
    (hsz : ∀ b c m, m ∈ R.get_possible_moves b c →
      sz (R.play_move b c m.1 m.2) = sz b + 1)
    (c0 : ℤ) (hc0 : c0 = 1 ∨ c0 = 2) (b0 : Board) (L ordering : ℤ) :
    ∀ (fuel : Nat) (b : Board) (l : ℤ) (alpha beta : Ext) (cache : Cache)
      (res : Option Move × Ext),
      l = L - ((sz b : ℤ) - (sz b0 : ℤ)) →
      alpha < beta →
      abCacheInv R sz c0 b0 L ordering cache →
      ((minimax_max_node R fuel b c0 l 0 emptyCache).isSome →
        alphabeta_max_node R fuel b c0 alpha beta l 0 ordering emptyCache
            = some (res, emptyCache) →
        ∃ mv' cache', alphabeta_max_node R fuel b c0 alpha beta l 1 ordering cache
            = some ((mv', res.2), cache') ∧ abCacheInv R sz c0 b0 L ordering cache' ∧
          (findEntry cache.ab (b, c0, alpha, beta) = none → mv' = res.1)) ∧
      ((minimax_min_node R fuel b (3 - c0) l 0 emptyCache).isSome →
        alphabeta_min_node R fuel b (3 - c0) alpha beta l 0 ordering emptyCache
            = some (res, emptyCache) →
        ∃ mv' cache', alphabeta_min_node R fuel b (3 - c0) alpha beta l 1 ordering cache
            = some ((mv', res.2), cache') ∧ abCacheInv R sz c0 b0 L ordering cache' ∧
          (findEntry cache.ab (b, 3 - c0, alpha, beta) = none → mv' = res.1)) := by
  intro fuel
  induction fuel with
  | zero =>
    intro b l alpha beta cache res hl hαβ hInv
    constructor
    · intro hmm _; simp [minimax_max_node] at hmm
    · intro hmm _; simp [minimax_min_node] at hmm
  | succ fuel ih =>
    intro b l alpha beta cache res hl hαβ hInv
    constructor
    · intro hmm hfree
      have hfree0 := hfree
      cases hhit : findEntry cache.ab (b, c0, alpha, beta) with
      | some r0 =>
        rcases hInv b c0 alpha beta r0 hhit hαβ with ⟨_, F, mv, hF⟩ | ⟨habs, _⟩
        · rw [← hl] at hF
          have heq := (alphabeta_agree R ordering b c0 alpha beta l emptyCache
            ((mv, r0.2), emptyCache) (res, emptyCache)).2 hF hfree
          injection heq with h1 _
          have hval : r0.2 = res.2 := by rw [← h1]
          refine ⟨r0.1, cache, ?_, hInv, ?_⟩
          · rw [alphabeta_max_node_cache1_hit R fuel b c0 alpha beta l ordering
              cache r0 hhit, ← hval]
          · intro hm; exact Option.noConfusion hm
        · exfalso; rcases hc0 with h | h <;> omega
      | none =>
        rw [alphabeta_max_node_nocache] at hfree
        rw [alphabeta_max_node_cache1_miss R fuel b c0 alpha beta l ordering cache hhit]
        by_cases hleaf : R.get_possible_moves b c0 = [] ∨ l = 0
        · rw [if_pos hleaf] at hfree ⊢
          injection hfree with h
          injection h with h1 _
          refine ⟨none, cache, ?_, hInv, fun _ => ?_⟩
          · rw [← h1]
          · rw [← h1]
        · rw [if_neg hleaf] at hfree ⊢
          cases hloop : abLoopMax
              (fun a bb nb cc =>
                alphabeta_min_node R fuel nb (3 - c0) a bb (l - 1) 0 ordering cc)
              (fun m => R.play_move b c0 m.1 m.2) beta (abMovesMax R b c0 ordering)
              none Ext.ninf alpha emptyCache with
          | none => rw [hloop] at hfree; simp at hfree
          | some r1 =>
            obtain ⟨res1, w, cF⟩ := r1
            rw [hloop] at hfree
            simp only [Option.map_some'] at hfree
            injection hfree with h
            injection h with h1 h2
            subst h2
            rw [h1] at hloop
            have hrel : ∀ m ∈ abMovesMax R b c0 ordering, ∀ a, a < beta → ∀ resF,
                alphabeta_min_node R fuel (R.play_move b c0 m.1 m.2) (3 - c0) a beta
                    (l - 1) 0 ordering emptyCache = some (resF, emptyCache) →
                ∀ cC, abCacheInv R sz c0 b0 L ordering cC →
                ∃ mvC cC', alphabeta_min_node R fuel (R.play_move b c0 m.1 m.2) (3 - c0)
                    a beta (l - 1) 1 ordering cC = some ((mvC, resF.2), cC') ∧
                  abCacheInv R sz c0 b0 L ordering cC' := by
              intro m hm a ha resF hF cC hI
              have hm' : m ∈ R.get_possible_moves b c0 :=
                (abMovesMax_perm R b c0 ordering).mem_iff.1 hm
              obtain ⟨mvm, hchm⟩ :=
                minimax_max_children R fuel b c0 l hmm hleaf m hm' emptyCache
              have hmmc : (minimax_min_node R fuel (R.play_move b c0 m.1 m.2) (3 - c0)
                  (l - 1) 0 emptyCache).isSome := by rw [hchm]; rfl
              have hszm := hsz b c0 m hm'
              have hl' : l - 1
                  = L - ((sz (R.play_move b c0 m.1 m.2) : ℤ) - (sz b0 : ℤ)) := by
                have hcast : (sz (R.play_move b c0 m.1 m.2) : ℤ) = (sz b : ℤ) + 1 := by
                  rw [hszm]; push_cast; ring
                rw [hcast]; omega
              obtain ⟨mvC, cC', hcC, hInvC, _⟩ :=
                (ih (R.play_move b c0 m.1 m.2) (l - 1) a beta cC resF hl' ha hI).2 hmmc hF
              exact ⟨mvC, cC', hcC, hInvC⟩
            obtain ⟨cC', hloopC, hInvC⟩ := abLoopMax_cached
              (fun a bb nb cc =>
                alphabeta_min_node R fuel nb (3 - c0) a bb (l - 1) 0 ordering cc)
              (fun a bb nb cc =>
                alphabeta_min_node R fuel nb (3 - c0) a bb (l - 1) 1 ordering cc)
              (fun m => R.play_move b c0 m.1 m.2) beta (abCacheInv R sz c0 b0 L ordering)
              (abMovesMax R b c0 ordering) hrel
              (fun a b' bb => (alphabeta_nodes_pure R fuel bb (3 - c0) a b' (l - 1)
                ordering).1)
              none Ext.ninf alpha hαβ res w emptyCache cache hloop hInv
            rw [hloopC]
            refine ⟨res.1, { cC' with ab := ((b, c0, w, beta), res) :: cC'.ab },
              rfl, ?_, fun _ => rfl⟩
            intro b' c' a' b'' res' hfind ha'b''
            rw [findEntry] at hfind
            by_cases hkey : ((b, c0, w, beta) : Board × ℤ × Ext × Ext) = (b', c', a', b'')
            · rw [if_pos hkey] at hfind
              injection hfind with hres'
              injection hkey with hb hrest
              injection hrest with hc hrest2
              injection hrest2 with hw hbt
              subst hb; subst hc; subst hw; subst hbt; subst hres'
              left
              refine ⟨rfl, ?_⟩
              have hwmax : w = max alpha res.2 :=
                abLoopMax_alpha_final _ _ _ _ _ _ _ alpha _ _ _ _ hloop
                  (max_eq_left (Ext.ninf_le alpha)).symm (fun _ => rfl)
              rcases le_or_lt res.2 alpha with hle | hlt
              · have hwa : w = alpha := by rw [hwmax]; exact max_eq_left hle
                refine ⟨fuel + 1, res.1, ?_⟩
                rw [hwa, ← hl]
                exact hfree0
              · have hwv : w = res.2 := by rw [hwmax]; exact max_eq_right hlt.le
                have hvβ : res.2 < beta := by rw [← hwv]; exact ha'b''
                obtain ⟨mv1, r1v, hab1, _, _, hcl1c⟩ :=
                  (km_nodes R (fuel + 1) b c0 l ordering alpha beta emptyCache hαβ).2 hmm
                rw [hfree0] at hab1
                injection hab1 with h1'
                injection h1' with h1p _
                have hval1 : res.2 = r1v := by rw [h1p]
                have hmaxv : res.2 = maxVal R (fuel + 1) b c0 l := by
                  rw [hval1]
                  exact hcl1c (by rw [← hval1]; exact hlt) (by rw [← hval1]; exact hvβ)
                obtain ⟨mv2, r2, hab2, hcl2a, hcl2b, hcl2c⟩ :=
                  (km_nodes R (fuel + 1) b c0 l ordering res.2 beta emptyCache hvβ).2 hmm
                have hr2 : r2 = res.2 := by
                  rcases lt_trichotomy r2 res.2 with h | h | h
                  · exfalso
                    have := hcl2a h.le
                    rw [← hmaxv] at this
                    exact absurd this (not_le.2 h)
                  · exact h
                  · exfalso
                    rcases lt_or_le r2 beta with hb2 | hb2
                    · have := hcl2c h hb2
                      rw [← hmaxv] at this
                      exact absurd this (ne_of_gt h)
                    · have := hcl2b hb2
                      rw [← hmaxv] at this
                      exact absurd this (not_le.2 h)
                refine ⟨fuel + 1, mv2, ?_⟩
                rw [hr2] at hab2
                rw [hwv, ← hl]
                exact hab2
            · rw [if_neg hkey] at hfind
              exact hInvC b' c' a' b'' res' hfind ha'b''
    · intro hmm hfree
      have hfree0 := hfree
      have h33 : 3 - (3 - c0) = c0 := by ring
      cases hhit : findEntry cache.ab (b, 3 - c0, alpha, beta) with
      | some r0 =>
        rcases hInv b (3 - c0) alpha beta r0 hhit hαβ with ⟨habs, _⟩ | ⟨_, F, mv, hF⟩
        · exfalso; rcases hc0 with h | h <;> omega
        · rw [← hl] at hF
          have heq := (alphabeta_agree R ordering b (3 - c0) alpha beta l emptyCache
            ((mv, r0.2), emptyCache) (res, emptyCache)).1 hF hfree
          injection heq with h1 _
          have hval : r0.2 = res.2 := by rw [← h1]
          refine ⟨r0.1, cache, ?_, hInv, ?_⟩
          · rw [alphabeta_min_node_cache1_hit R fuel b (3 - c0) alpha beta l ordering
              cache r0 hhit, ← hval]
          · intro hm; exact Option.noConfusion hm
      | none =>
        rw [alphabeta_min_node_nocache] at hfree
        rw [alphabeta_min_node_cache1_miss R fuel b (3 - c0) alpha beta l ordering
          cache hhit]
        rw [h33] at hfree ⊢
        by_cases hleaf : R.get_possible_moves b (3 - c0) = [] ∨ l = 0
        · rw [if_pos hleaf] at hfree ⊢
          injection hfree with h
          injection h with h1 _
          refine ⟨none, cache, ?_, hInv, fun _ => ?_⟩
          · rw [← h1]
          · rw [← h1]
        · rw [if_neg hleaf] at hfree ⊢
          cases hloop : abLoopMin
              (fun a bb nb cc =>
                alphabeta_max_node R fuel nb c0 a bb (l - 1) 0 ordering cc)
              (fun m => R.play_move b (3 - c0) m.1 m.2) alpha
              (abMovesMin R b (3 - c0) ordering) none Ext.pinf beta emptyCache with
          | none => rw [hloop] at hfree; simp at hfree
          | some r1 =>
            obtain ⟨res1, w, cF⟩ := r1
            rw [hloop] at hfree
            simp only [Option.map_some'] at hfree
            injection hfree with h
            injection h with h1 h2
            subst h2
            rw [h1] at hloop
            have hrel : ∀ m ∈ abMovesMin R b (3 - c0) ordering, ∀ b', alpha < b' →
                ∀ resF,
                alphabeta_max_node R fuel (R.play_move b (3 - c0) m.1 m.2) c0 alpha b'
                    (l - 1) 0 ordering emptyCache = some (resF, emptyCache) →
                ∀ cC, abCacheInv R sz c0 b0 L ordering cC →
                ∃ mvC cC', alphabeta_max_node R fuel (R.play_move b (3 - c0) m.1 m.2) c0
                    alpha b' (l - 1) 1 ordering cC = some ((mvC, resF.2), cC') ∧
                  abCacheInv R sz c0 b0 L ordering cC' := by
              intro m hm b' hb' resF hF cC hI
              have hm' : m ∈ R.get_possible_moves b (3 - c0) :=
                (abMovesMin_perm R b (3 - c0) ordering).mem_iff.1 hm
              obtain ⟨mvm, hchm⟩ :=
                minimax_min_children R fuel b (3 - c0) l hmm hleaf m hm' emptyCache
              rw [h33] at hchm
              have hmmc : (minimax_max_node R fuel (R.play_move b (3 - c0) m.1 m.2) c0
                  (l - 1) 0 emptyCache).isSome := by rw [hchm]; rfl
              have hszm := hsz b (3 - c0) m hm'
              have hl' : l - 1
                  = L - ((sz (R.play_move b (3 - c0) m.1 m.2) : ℤ) - (sz b0 : ℤ)) := by
                have hcast : (sz (R.play_move b (3 - c0) m.1 m.2) : ℤ)
                    = (sz b : ℤ) + 1 := by
                  rw [hszm]; push_cast; ring
                rw [hcast]; omega
              obtain ⟨mvC, cC', hcC, hInvC, _⟩ :=
                (ih (R.play_move b (3 - c0) m.1 m.2) (l - 1) alpha b' cC resF
                  hl' hb' hI).1 hmmc hF
              exact ⟨mvC, cC', hcC, hInvC⟩
            obtain ⟨cC', hloopC, hInvC⟩ := abLoopMin_cached
              (fun a bb nb cc =>
                alphabeta_max_node R fuel nb c0 a bb (l - 1) 0 ordering cc)
              (fun a bb nb cc =>
                alphabeta_max_node R fuel nb c0 a bb (l - 1) 1 ordering cc)
              (fun m => R.play_move b (3 - c0) m.1 m.2) alpha
              (abCacheInv R sz c0 b0 L ordering)
              (abMovesMin R b (3 - c0) ordering) hrel
              (fun a b' bb => (alphabeta_nodes_pure R fuel bb c0 a b' (l - 1)
                ordering).2)
              none Ext.pinf beta hαβ res w emptyCache cache hloop hInv
            rw [hloopC]
            refine ⟨res.1, { cC' with ab := ((b, 3 - c0, alpha, w), res) :: cC'.ab },
              rfl, ?_, fun _ => rfl⟩
            intro b' c' a' b'' res' hfind ha'b''
            rw [findEntry] at hfind
            by_cases hkey : ((b, 3 - c0, alpha, w) : Board × ℤ × Ext × Ext)
                = (b', c', a', b'')
            · rw [if_pos hkey] at hfind
              injection hfind with hres'
              injection hkey with hb hrest
              injection hrest with hc hrest2
              injection hrest2 with ha hbt
              subst hb; subst hc; subst ha; subst hbt; subst hres'
              right
              refine ⟨rfl, ?_⟩
              have hwmin : w = min beta res.2 :=
                abLoopMin_beta_final _ _ _ _ _ _ _ beta _ _ _ _ hloop
                  (min_eq_left (Ext.le_pinf beta)).symm (fun _ => rfl)
              rcases le_or_lt beta res.2 with hle | hlt
              · have hwb : w = beta := by rw [hwmin]; exact min_eq_left hle
                refine ⟨fuel + 1, res.1, ?_⟩
                rw [hwb, ← hl]
                exact hfree0
              · have hwv : w = res.2 := by rw [hwmin]; exact min_eq_right hlt.le
                have hαv : alpha < res.2 := by rw [← hwv]; exact ha'b''
                obtain ⟨mv1, r1v, hab1, _, _, hcl1c⟩ :=
                  (km_nodes R (fuel + 1) b (3 - c0) l ordering alpha beta
                    emptyCache hαβ).1 hmm
                rw [hfree0] at hab1
                injection hab1 with h1'
                injection h1' with h1p _
                have hval1 : res.2 = r1v := by rw [h1p]
                have hminv : res.2 = minVal R (fuel + 1) b (3 - c0) l := by
                  rw [hval1]
                  exact hcl1c (by rw [← hval1]; exact hαv) (by rw [← hval1]; exact hlt)
                obtain ⟨mv2, r2, hab2, hcl2a, hcl2b, hcl2c⟩ :=
                  (km_nodes R (fuel + 1) b (3 - c0) l ordering alpha res.2
                    emptyCache hαv).1 hmm
                have hr2 : r2 = res.2 := by
                  rcases lt_trichotomy r2 res.2 with h | h | h
                  · exfalso
                    rcases le_or_lt r2 alpha with ha2 | ha2
                    · have := hcl2a ha2
                      rw [← hminv] at this
                      exact absurd this (not_le.2 h)
                    · have := hcl2c ha2 h
                      rw [← hminv] at this
                      exact absurd this (ne_of_lt h)
                  · exact h
                  · exfalso
                    have := hcl2b h.le
                    rw [← hminv] at this
                    exact absurd this (not_le.2 h)
                refine ⟨fuel + 1, mv2, ?_⟩
                rw [hr2] at hab2
                rw [hwv, ← hl]
                exact hab2
            · rw [if_neg hkey] at hfind
              exact hInvC b' c' a' b'' res' hfind ha'b''

/-! ### Concrete boards used for witnesses and counterexamples -/

/-- A one-row board where Dark has exactly one capturing move. -/
def lineBoard : Board := [[1, 2, 0]]

/-- A one-row board where Light has exactly one capturing move. -/
def lineBoardL : Board := [[2, 1, 0]]

/-- A 4×4 position where Dark's moves have different one-ply values:
the move list is `[(0,0), (1,3), (2,0), (2,2)]` with child values
`[-2, -4, -2, -2]` from Light's perspective. -/
def windowBoard : Board := [[0, 2, 1, 0], [1, 2, 2, 0], [0, 0, 0, 0], [0, 0, 0, 0]]

/-- A board whose only disk is a single Dark disk in a corner. -/
def cornerBoard : Board := [[1, 0, 0, 0], [0, 0, 0, 0], [0, 0, 0, 0], [0, 0, 0, 0]]

/-! ### Claim theorems -/

/-- C1: with caching off and unlimited depth (`limit = -1`), whenever
`minimax_max_node` terminates with result `(m, v)`, the alpha-beta
search from the full window `(-inf, inf)` with ordering off returns the
very same `(m, v)` — the same value and even the same move — and the two
`select_move` entry points return that same move. -/
theorem minimax_alphabeta_equiv (R : Rules) (fuel : Nat) (b : Board) (c : ℤ)
    (cache1 cache2 : Cache) (m : Option Move) (v : Ext) (c' : Cache)
    (hcolor : c = 1 ∨ c = 2)
    (hrun : minimax_max_node R fuel b c (-1) 0 cache1 = some ((m, v), c')) :
    alphabeta_max_node R fuel b c Ext.ninf Ext.pinf (-1) 0 0 cache2
        = some ((m, v), cache2) ∧
    select_move_minimax R fuel b c (-1) 0 cache1 = some m ∧
    select_move_alphabeta R fuel b c (-1) 0 0 cache2 = some m := by
  have hall := ((minimax_nodes_pure R fuel b c (-1)).2.some_all hrun).2
  have hab := (root_eq R fuel b c (-1) cache2 (m, v)).2 (hall cache2)
  refine ⟨hab, ?_, ?_⟩
  · rw [select_move_minimax, hrun]
    rfl
  · rw [select_move_alphabeta, hab]
    rfl

theorem minimax_alphabeta_equiv_witness :
    alphabeta_max_node othelloRules 6 lineBoard 1 Ext.ninf Ext.pinf (-1) 0 0 emptyCache
        = some ((some (0, 2), Ext.fin (-3)), emptyCache) ∧
    select_move_minimax othelloRules 6 lineBoard 1 (-1) 0 emptyCache
        = some (some (0, 2)) ∧
    select_move_alphabeta othelloRules 6 lineBoard 1 (-1) 0 0 emptyCache
        = some (some (0, 2)) :=
  minimax_alphabeta_equiv othelloRules 6 lineBoard 1 emptyCache emptyCache
    (some (0, 2)) (Ext.fin (-3)) emptyCache (Or.inl rfl) (by decide)

/-- C2 (code bug): with depth limit 1 on `lineBoard` (where Dark has the
single legal move `(0,2)`), the code returns the value `-3`: the child
is evaluated by `compute_utility(child, 3 - color)`, i.e. from the
*opponent's* perspective, whereas the best one-ply evaluation from the
moving player's own perspective is `+3`. -/
theorem depth_one_uses_opponent_perspective :
    (minimax_max_node othelloRules 6 lineBoard 1 1 0 emptyCache).map (fun r => r.1)
      = some (some (0, 2), Ext.fin (-3)) ∧
    listMax Ext.ninf ((othelloRules.get_possible_moves lineBoard 1).map (fun m =>
        Ext.fin (compute_utility othelloRules
          (othelloRules.play_move lineBoard 1 m.1 m.2) 1)))
      = Ext.fin 3 ∧
    Ext.fin (-3) ≠ Ext.fin 3 := by decide

/-- C4 (counterexample): on `windowBoard` with window
`(-inf, -4)` and depth limit 1, enabling ordering changes the value
returned by `alphabeta_max_node` from `-2` to `-4`. -/
theorem ordering_changes_value_under_window :
    (alphabeta_max_node othelloRules 3 windowBoard 1 Ext.ninf (Ext.fin (-4)) 1 0 0
        emptyCache).map (fun r => r.1.2) = some (Ext.fin (-2)) ∧
    (alphabeta_max_node othelloRules 3 windowBoard 1 Ext.ninf (Ext.fin (-4)) 1 0 1
        emptyCache).map (fun r => r.1.2) = some (Ext.fin (-4)) := by decide

/-- C4 (amended): with the *full* window `(-inf, inf)` — the window the
entry point `select_move_alphabeta` uses — the value returned by
`alphabeta_max_node` (resp. `alphabeta_min_node`) is the minimax value
for any ordering flag, so ordering cannot change it; and in minimax mode
the ordering flag has no effect at all. -/
theorem ordering_value_invariant (R : Rules) (fuel : Nat) (b : Board) (c l : ℤ)
    (cache1 cache2 : Cache) :
    (∀ m v c', minimax_max_node R fuel b c l 0 cache1 = some ((m, v), c') →
      ∀ ordering, ∃ m1, alphabeta_max_node R fuel b c Ext.ninf Ext.pinf l 0 ordering
        cache2 = some ((m1, v), cache2)) ∧
    (∀ m v c', minimax_min_node R fuel b c l 0 cache1 = some ((m, v), c') →
      ∀ ordering, ∃ m1, alphabeta_min_node R fuel b c Ext.ninf Ext.pinf l 0 ordering
        cache2 = some ((m1, v), cache2)) ∧
    (∀ ordering, choose_move R fuel 1 b c l 0 ordering cache1
      = choose_move R fuel 1 b c l 0 0 cache1) := by
  refine ⟨?_, ?_, fun _ => rfl⟩
  · intro m v c' hrun ordering
    have hall := ((minimax_nodes_pure R fuel b c l).2.some_all hrun).2
    have hsome : (minimax_max_node R fuel b c l 0 emptyCache).isSome := by
      rw [hall emptyCache]; rfl
    have hv : maxVal R fuel b c l = v := by
      rw [maxVal, hall emptyCache]; rfl
    obtain ⟨mv, r, hr, _, _, hwin⟩ :=
      (km_nodes R fuel b c l ordering Ext.ninf Ext.pinf cache2 (by simp)).2 hsome
    obtain ⟨z, hz⟩ := (alphabeta_fin R fuel b c Ext.ninf Ext.pinf l ordering cache2 mv r
      cache2).2 hr
    have : r = v := by
      rw [← hv]
      exact hwin (by rw [hz]; simp) (by rw [hz]; simp)
    exact ⟨mv, this ▸ hr⟩
  · intro m v c' hrun ordering
    have hall := ((minimax_nodes_pure R fuel b c l).1.some_all hrun).2
    have hsome : (minimax_min_node R fuel b c l 0 emptyCache).isSome := by
      rw [hall emptyCache]; rfl
    have hv : minVal R fuel b c l = v := by
      rw [minVal, hall emptyCache]; rfl
    obtain ⟨mv, r, hr, _, _, hwin⟩ :=
      (km_nodes R fuel b c l ordering Ext.ninf Ext.pinf cache2 (by simp)).1 hsome
    obtain ⟨z, hz⟩ := (alphabeta_fin R fuel b c Ext.ninf Ext.pinf l ordering cache2 mv r
      cache2).1 hr
    have : r = v := by
      rw [← hv]
      exact hwin (by rw [hz]; simp) (by rw [hz]; simp)
    exact ⟨mv, this ▸ hr⟩

theorem ordering_value_invariant_witness :
    (∃ m1, alphabeta_max_node othelloRules 6 lineBoard 1 Ext.ninf Ext.pinf (-1) 0 1
      emptyCache = some ((m1, Ext.fin (-3)), emptyCache)) ∧
    choose_move othelloRules 6 1 lineBoard 1 (-1) 0 1 emptyCache
      = choose_move othelloRules 6 1 lineBoard 1 (-1) 0 0 emptyCache :=
  ⟨(ordering_value_invariant othelloRules 6 lineBoard 1 (-1) emptyCache emptyCache).1
      (some (0, 2)) (Ext.fin (-3)) emptyCache (by decide) 1,
   (ordering_value_invariant othelloRules 6 lineBoard 1 (-1) emptyCache
      emptyCache).2.2 1⟩

/-- C6 (counterexample): on `lineBoard` the side to move has the legal
move `(0,2)`, yet with `limit = 0` both node functions return `None` as
the move. -/
theorem limit_zero_returns_none_with_moves :
    othelloRules.get_possible_moves lineBoard 1 = [(0, 2)] ∧
    (minimax_max_node othelloRules 6 lineBoard 1 0 0 emptyCache).map (fun r => r.1)
      = some (none, Ext.fin 0) ∧
    (alphabeta_max_node othelloRules 6 lineBoard 1 Ext.ninf Ext.pinf 0 0 0
        emptyCache).map (fun r => r.1)
      = some (none, Ext.fin 0) := by decide

/-- C6 (amended): the move component of a node result is `None` exactly
when the position has no legal moves *or* the depth limit is 0, on
every call that computes its result — all four node functions with
caching off, and with caching on whenever the cache lookup misses (in
particular any call made with an empty table).  A cache hit instead
returns the stored entry verbatim, regardless of the current limit and
legal moves, so the iff does not extend to hits: since minimax keys
omit the limit, an entry stored by a deeper search is returned by a
later `limit = 0` caching call as a some-move with legal moves present
(the witness runs that two-call scenario concretely). -/
theorem move_none_iff (R : Rules) (fuel : Nat) (b : Board) (c : ℤ)
    (alpha beta : Ext) (l ordering : ℤ) (cache : Cache) :
    (∀ res c'', minimax_max_node R (fuel + 1) b c l 0 cache = some (res, c'') →
      (res.1 = none ↔ R.get_possible_moves b c = [] ∨ l = 0)) ∧
    (∀ res c'', minimax_min_node R (fuel + 1) b c l 0 cache = some (res, c'') →
      (res.1 = none ↔ R.get_possible_moves b c = [] ∨ l = 0)) ∧
    (∀ res c'', alphabeta_max_node R (fuel + 1) b c alpha beta l 0 ordering cache
        = some (res, c'') →
      (res.1 = none ↔ R.get_possible_moves b c = [] ∨ l = 0)) ∧
    (∀ res c'', alphabeta_min_node R (fuel + 1) b c alpha beta l 0 ordering cache
        = some (res, c'') →
      (res.1 = none ↔ R.get_possible_moves b c = [] ∨ l = 0)) ∧
    (findEntry cache.mm (b, c) = none →
      (∀ res c'', minimax_max_node R (fuel + 1) b c l 1 cache = some (res, c'') →
        (res.1 = none ↔ R.get_possible_moves b c = [] ∨ l = 0)) ∧
      (∀ res c'', minimax_min_node R (fuel + 1) b c l 1 cache = some (res, c'') →
        (res.1 = none ↔ R.get_possible_moves b c = [] ∨ l = 0))) ∧
    (findEntry cache.ab (b, c, alpha, beta) = none →
      (∀ res c'', alphabeta_max_node R (fuel + 1) b c alpha beta l 1 ordering cache
          = some (res, c'') →
        (res.1 = none ↔ R.get_possible_moves b c = [] ∨ l = 0)) ∧
      (∀ res c'', alphabeta_min_node R (fuel + 1) b c alpha beta l 1 ordering cache
          = some (res, c'') →
        (res.1 = none ↔ R.get_possible_moves b c = [] ∨ l = 0))) ∧
    (∀ r, findEntry cache.mm (b, c) = some r →
      minimax_max_node R (fuel + 1) b c l 1 cache = some (r, cache) ∧
      minimax_min_node R (fuel + 1) b c l 1 cache = some (r, cache)) ∧
    (∀ r, findEntry cache.ab (b, c, alpha, beta) = some r →
      alphabeta_max_node R (fuel + 1) b c alpha beta l 1 ordering cache
          = some (r, cache) ∧
      alphabeta_min_node R (fuel + 1) b c alpha beta l 1 ordering cache
          = some (r, cache)) := by
  refine ⟨?_, ?_, ?_, ?_, ?_, ?_, ?_, ?_⟩
  · intro res c'' hrun
    rw [minimax_max_node_nocache] at hrun
    by_cases hleaf : R.get_possible_moves b c = [] ∨ l = 0
    · rw [if_pos hleaf] at hrun
      injection hrun with h1
      injection h1 with h2 _
      rw [← h2]
      simp [hleaf]
    · rw [if_neg hleaf] at hrun
      constructor
      · intro hnone
        obtain ⟨_, hnil⟩ := mmLoopMax_move_none _ _ _ _ _ _ _ _ hrun hnone
        exact absurd (Or.inl hnil) hleaf
      · intro h; exact absurd h hleaf
  · intro res c'' hrun
    rw [minimax_min_node_nocache] at hrun
    by_cases hleaf : R.get_possible_moves b c = [] ∨ l = 0
    · rw [if_pos hleaf] at hrun
      injection hrun with h1
      injection h1 with h2 _
      rw [← h2]
      simp [hleaf]
    · rw [if_neg hleaf] at hrun
      constructor
      · intro hnone
        obtain ⟨_, hnil⟩ := mmLoopMin_move_none _ _ _ _ _ _ _ _ hrun hnone
        exact absurd (Or.inl hnil) hleaf
      · intro h; exact absurd h hleaf
  · intro res c'' hrun
    rw [alphabeta_max_node_nocache] at hrun
    by_cases hleaf : R.get_possible_moves b c = [] ∨ l = 0
    · rw [if_pos hleaf] at hrun
      injection hrun with h1
      injection h1 with h2 _
      rw [← h2]
      simp [hleaf]
    · rw [if_neg hleaf] at hrun
      constructor
      · intro hnone
        cases habl : abLoopMax
            (fun a bb nb cc =>
              alphabeta_min_node R fuel nb (3 - c) a bb (l - 1) 0 ordering cc)
            (fun m => R.play_move b c m.1 m.2) beta (abMovesMax R b c ordering)
            none Ext.ninf alpha cache with
        | none => rw [habl] at hrun; cases hrun
        | some r =>
          obtain ⟨res0, w0, c0⟩ := r
          rw [habl] at hrun
          injection hrun with h1
          injection h1 with h2 _
          obtain ⟨_, hnil⟩ := abLoopMax_move_none _ _ _ _ _ _ _ _ _ _ _ habl
            (by rw [show res0 = res from h2]; exact hnone)
          exact absurd (Or.inl (List.Perm.eq_nil
            (hnil ▸ abMovesMax_perm R b c ordering).symm)) hleaf
      · intro h; exact absurd h hleaf
  · intro res c'' hrun
    rw [alphabeta_min_node_nocache] at hrun
    by_cases hleaf : R.get_possible_moves b c = [] ∨ l = 0
    · rw [if_pos hleaf] at hrun
      injection hrun with h1
      injection h1 with h2 _
      rw [← h2]
      simp [hleaf]
    · rw [if_neg hleaf] at hrun
      constructor
      · intro hnone
        cases habl : abLoopMin
            (fun a bb nb cc =>
              alphabeta_max_node R fuel nb (3 - c) a bb (l - 1) 0 ordering cc)
            (fun m => R.play_move b c m.1 m.2) alpha (abMovesMin R b c ordering)
            none Ext.pinf beta cache with
        | none => rw [habl] at hrun; cases hrun
        | some r =>
          obtain ⟨res0, w0, c0⟩ := r
          rw [habl] at hrun
          injection hrun with h1
          injection h1 with h2 _
          obtain ⟨_, hnil⟩ := abLoopMin_move_none _ _ _ _ _ _ _ _ _ _ _ habl
            (by rw [show res0 = res from h2]; exact hnone)
          exact absurd (Or.inl (List.Perm.eq_nil
            (hnil ▸ abMovesMin_perm R b c ordering).symm)) hleaf
      · intro h; exact absurd h hleaf
  · intro hmiss
    constructor
    · intro res c'' hrun
      rw [minimax_max_node_cache1_miss R fuel b c l cache hmiss] at hrun
      by_cases hleaf : R.get_possible_moves b c = [] ∨ l = 0
      · rw [if_pos hleaf] at hrun
        injection hrun with h1
        injection h1 with h2 _
        rw [← h2]
        simp [hleaf]
      · rw [if_neg hleaf] at hrun
        cases habl : mmLoopMax
            (fun bb cc => minimax_min_node R fuel bb (3 - c) (l - 1) 1 cc)
            (fun m => R.play_move b c m.1 m.2) (R.get_possible_moves b c)
            none Ext.ninf cache with
        | none => rw [habl] at hrun; cases hrun
        | some r =>
          obtain ⟨res0, c0⟩ := r
          rw [habl] at hrun
          injection hrun with h1
          injection h1 with h2 _
          constructor
          · intro hnone
            obtain ⟨_, hnil⟩ := mmLoopMax_move_none _ _ _ _ _ _ _ _ habl
              (by rw [show res0 = res from h2]; exact hnone)
            exact absurd (Or.inl hnil) hleaf
          · intro h; exact absurd h hleaf
    · intro res c'' hrun
      rw [minimax_min_node_cache1_miss R fuel b c l cache hmiss] at hrun
      by_cases hleaf : R.get_possible_moves b c = [] ∨ l = 0
      · rw [if_pos hleaf] at hrun
        injection hrun with h1
        injection h1 with h2 _
        rw [← h2]
        simp [hleaf]
      · rw [if_neg hleaf] at hrun
        cases habl : mmLoopMin
            (fun bb cc => minimax_max_node R fuel bb (3 - c) (l - 1) 1 cc)
            (fun m => R.play_move b c m.1 m.2) (R.get_possible_moves b c)
            none Ext.pinf cache with
        | none => rw [habl] at hrun; cases hrun
        | some r =>
          obtain ⟨res0, c0⟩ := r
          rw [habl] at hrun
          injection hrun with h1
          injection h1 with h2 _
          constructor
          · intro hnone
            obtain ⟨_, hnil⟩ := mmLoopMin_move_none _ _ _ _ _ _ _ _ habl
              (by rw [show res0 = res from h2]; exact hnone)
            exact absurd (Or.inl hnil) hleaf
          · intro h; exact absurd h hleaf
  · intro hmiss
    constructor
    · intro res c'' hrun
      rw [alphabeta_max_node_cache1_miss R fuel b c alpha beta l ordering cache
        hmiss] at hrun
      by_cases hleaf : R.get_possible_moves b c = [] ∨ l = 0
      · rw [if_pos hleaf] at hrun
        injection hrun with h1
        injection h1 with h2 _
        rw [← h2]
        simp [hleaf]
      · rw [if_neg hleaf] at hrun
        cases habl : abLoopMax
            (fun a bb nb cc =>
              alphabeta_min_node R fuel nb (3 - c) a bb (l - 1) 1 ordering cc)
            (fun m => R.play_move b c m.1 m.2) beta (abMovesMax R b c ordering)
            none Ext.ninf alpha cache with
        | none => rw [habl] at hrun; cases hrun
        | some r =>
          obtain ⟨res0, w0, c0⟩ := r
          rw [habl] at hrun
          injection hrun with h1
          injection h1 with h2 _
          constructor
          · intro hnone
            obtain ⟨_, hnil⟩ := abLoopMax_move_none _ _ _ _ _ _ _ _ _ _ _ habl
              (by rw [show res0 = res from h2]; exact hnone)
            exact absurd (Or.inl (List.Perm.eq_nil
              (hnil ▸ abMovesMax_perm R b c ordering).symm)) hleaf
          · intro h; exact absurd h hleaf
    · intro res c'' hrun
      rw [alphabeta_min_node_cache1_miss R fuel b c alpha beta l ordering cache
        hmiss] at hrun
      by_cases hleaf : R.get_possible_moves b c = [] ∨ l = 0
      · rw [if_pos hleaf] at hrun
        injection hrun with h1
        injection h1 with h2 _
        rw [← h2]
        simp [hleaf]
      · rw [if_neg hleaf] at hrun
        cases habl : abLoopMin
            (fun a bb nb cc =>
              alphabeta_max_node R fuel nb (3 - c) a bb (l - 1) 1 ordering cc)
            (fun m => R.play_move b c m.1 m.2) alpha (abMovesMin R b c ordering)
            none Ext.pinf beta cache with
        | none => rw [habl] at hrun; cases hrun
        | some r =>
          obtain ⟨res0, w0, c0⟩ := r
          rw [habl] at hrun
          injection hrun with h1
          injection h1 with h2 _
          constructor
          · intro hnone
            obtain ⟨_, hnil⟩ := abLoopMin_move_none _ _ _ _ _ _ _ _ _ _ _ habl
              (by rw [show res0 = res from h2]; exact hnone)
            exact absurd (Or.inl (List.Perm.eq_nil
              (hnil ▸ abMovesMin_perm R b c ordering).symm)) hleaf
          · intro h; exact absurd h hleaf
  · intro r hhit
    exact ⟨minimax_max_node_cache1_hit R fuel b c l cache r hhit,
      minimax_min_node_cache1_hit R fuel b c l cache r hhit⟩
  · intro r hhit
    exact ⟨alphabeta_max_node_cache1_hit R fuel b c alpha beta l ordering cache r hhit,
      alphabeta_min_node_cache1_hit R fuel b c alpha beta l ordering cache r hhit⟩

theorem move_none_iff_witness :
    ((some (0, 2) : Option Move) = none ↔
      othelloRules.get_possible_moves lineBoard 1 = [] ∨ (-1 : ℤ) = 0) ∧
    minimax_max_node othelloRules 6 lineBoard 1 3 1 emptyCache
      = some ((some ((0 : ℤ), (2 : ℤ)), Ext.fin (-3)),
          Cache.mk [((lineBoard, 1), (some (0, 2), Ext.fin (-3)))] []) ∧
    othelloRules.get_possible_moves lineBoard 1 = [(0, 2)] ∧
    minimax_max_node othelloRules 6 lineBoard 1 0 1
        (Cache.mk [((lineBoard, 1), (some (0, 2), Ext.fin (-3)))] [])
      = some ((some (0, 2), Ext.fin (-3)),
          Cache.mk [((lineBoard, 1), (some (0, 2), Ext.fin (-3)))] []) :=
  ⟨(move_none_iff othelloRules 5 lineBoard 1 Ext.ninf Ext.pinf (-1) 0 emptyCache).1
      (some (0, 2), Ext.fin (-3)) emptyCache (by decide),
   by decide,
   by decide,
   ((move_none_iff othelloRules 5 lineBoard 1 Ext.ninf Ext.pinf 0 0
        (Cache.mk [((lineBoard, 1), (some (0, 2), Ext.fin (-3)))] [])).2.2.2.2.2.2.1
      (some (0, 2), Ext.fin (-3)) (by decide)).1⟩

/-- C7 (counterexample): an `alphabeta_min_node` call with caching on,
window `(-inf, inf)`, on `lineBoardL` stores its result under
`(board, color, -inf, -3)` — the *narrowed* `beta` — not under the
received window `(-inf, inf)`; a repeated identical call therefore
misses the cache. -/
theorem ab_cache_key_not_received_window :
    (alphabeta_min_node othelloRules 3 lineBoardL 2 Ext.ninf Ext.pinf 1 1 0
        emptyCache).map (fun r =>
      (r.1, findEntry r.2.ab (lineBoardL, 2, Ext.ninf, Ext.pinf),
        findEntry r.2.ab (lineBoardL, 2, Ext.ninf, Ext.fin (-3))))
    = some ((some (0, 2), Ext.fin (-3)), none,
        some (some (0, 2), Ext.fin (-3))) := by decide

/-- C7 (amended): on a cache miss, `alphabeta_min_node` stores its
result under `(board, color, alpha, min beta value)` — the received
`alpha` with the post-loop narrowed `beta` — and `alphabeta_max_node`
stores under `(board, color, max alpha value, beta)`; the received
window is the key only when no narrowing occurred. -/
theorem ab_store_under_final_window (R : Rules) (fuel : Nat) (b : Board) (c : ℤ)
    (alpha beta : Ext) (l ordering : ℤ) (cache : Cache)
    (hmiss : findEntry cache.ab (b, c, alpha, beta) = none)
    (hmoves : R.get_possible_moves b c ≠ []) (hl : l ≠ 0) :
    (∀ res c'', alphabeta_min_node R (fuel + 1) b c alpha beta l 1 ordering cache
        = some (res, c'') →
      findEntry c''.ab (b, c, alpha, min beta res.2) = some res) ∧
    (∀ res c'', alphabeta_max_node R (fuel + 1) b c alpha beta l 1 ordering cache
        = some (res, c'') →
      findEntry c''.ab (b, c, max alpha res.2, beta) = some res) := by
  have hleaf : ¬(R.get_possible_moves b c = [] ∨ l = 0) := by
    rintro (h | h)
    · exact hmoves h
    · exact hl h
  constructor
  · intro res c'' hrun
    rw [alphabeta_min_node_cache1_miss R fuel b c alpha beta l ordering cache hmiss,
      if_neg hleaf] at hrun
    cases habl : abLoopMin
        (fun a bb nb cc => alphabeta_max_node R fuel nb (3 - c) a bb (l - 1) 1 ordering cc)
        (fun m => R.play_move b c m.1 m.2) alpha (abMovesMin R b c ordering)
        none Ext.pinf beta cache with
    | none => rw [habl] at hrun; cases hrun
    | some r =>
      obtain ⟨res0, w0, c0⟩ := r
      rw [habl] at hrun
      injection hrun with h1
      injection h1 with h2 h3
      have hw := abLoopMin_beta_final _ _ _ _ _ _ _ beta _ _ _ _ habl
        (min_eq_left (Ext.le_pinf beta)).symm (fun _ => rfl)
      rw [← h3, ← h2, findEntry, if_pos (by rw [hw])]
  · intro res c'' hrun
    rw [alphabeta_max_node_cache1_miss R fuel b c alpha beta l ordering cache hmiss,
      if_neg hleaf] at hrun
    cases habl : abLoopMax
        (fun a bb nb cc => alphabeta_min_node R fuel nb (3 - c) a bb (l - 1) 1 ordering cc)
        (fun m => R.play_move b c m.1 m.2) beta (abMovesMax R b c ordering)
        none Ext.ninf alpha cache with
    | none => rw [habl] at hrun; cases hrun
    | some r =>
      obtain ⟨res0, w0, c0⟩ := r
      rw [habl] at hrun
      injection hrun with h1
      injection h1 with h2 h3
      have hw := abLoopMax_alpha_final _ _ _ _ _ _ _ alpha _ _ _ _ habl
        (max_eq_left (Ext.ninf_le alpha)).symm (fun _ => rfl)
      rw [← h3, ← h2, findEntry, if_pos (by rw [hw])]

theorem ab_store_under_final_window_witness :
    (alphabeta_min_node othelloRules 3 lineBoardL 2 Ext.ninf Ext.pinf 1 1 0 emptyCache
        = some ((some (0, 2), Ext.fin (-3)),
            Cache.mk [] [((lineBoardL, 2, Ext.ninf, Ext.fin (-3)),
              (some (0, 2), Ext.fin (-3)))])) ∧
    findEntry (Cache.mk ([] : List ((Board × ℤ) × (Option Move × Ext)))
        [((lineBoardL, 2, Ext.ninf, Ext.fin (-3)), (some (0, 2), Ext.fin (-3)))]).ab
      (lineBoardL, 2, Ext.ninf, min Ext.pinf (Ext.fin (-3)))
      = some (some (0, 2), Ext.fin (-3)) :=
  ⟨by decide,
   (ab_store_under_final_window othelloRules 2 lineBoardL 2 Ext.ninf Ext.pinf 1 0
      emptyCache (by decide) (by decide) (by decide)).1
    (some (0, 2), Ext.fin (-3))
    (Cache.mk [] [((lineBoardL, 2, Ext.ninf, Ext.fin (-3)),
      (some (0, 2), Ext.fin (-3)))]) (by decide)⟩

/-- C8: `compute_utility` returns dark − light for color 1, light − dark
for color 2, and the neutral value 0 for any other color (after logging
a diagnostic; the log is an I/O effect outside the embedding, and no
error propagates). -/
theorem compute_utility_spec (R : Rules) (b : Board) (c : ℤ) :
    (c = 1 → compute_utility R b c = (R.get_score b).1 - (R.get_score b).2) ∧
    (c = 2 → compute_utility R b c = (R.get_score b).2 - (R.get_score b).1) ∧
    (c ≠ 1 → c ≠ 2 → compute_utility R b c = 0) := by
  refine ⟨?_, ?_, ?_⟩
  · rintro rfl; rfl
  · rintro rfl; rfl
  · intro h1 h2
    rw [compute_utility]
    simp [h1, h2]

/-- C5: tie-break. With caching off, on a non-leaf node the minimax
functions return the move generated *earliest* among those attaining the
best child value: every earlier move is strictly worse and no later move
(even one with an equal value) replaces it.  Through `root_eq`, the
alpha-beta node functions started from the full window return the very
same move.  All functions are deterministic Lean functions, so repeated
runs with the same inputs return the same result by construction. -/
theorem tie_break_earliest (R : Rules) (fuel : Nat) (b : Board) (c l : ℤ)
    (cache : Cache) (res : Option Move × Ext) (c'' : Cache)
    (hmoves : R.get_possible_moves b c ≠ []) (hl : l ≠ 0) :
    (minimax_max_node R (fuel + 1) b c l 0 cache = some (res, c'') →
      ∃ pre m' post,
        R.get_possible_moves b c = pre ++ m' :: post ∧
        res = (some m', minVal R fuel (R.play_move b c m'.1 m'.2) (3 - c) (l - 1)) ∧
        alphabeta_max_node R (fuel + 1) b c Ext.ninf Ext.pinf l 0 0 cache
          = some (res, cache) ∧
        (∀ m ∈ pre, minVal R fuel (R.play_move b c m.1 m.2) (3 - c) (l - 1)
          < minVal R fuel (R.play_move b c m'.1 m'.2) (3 - c) (l - 1)) ∧
        (∀ m ∈ post, minVal R fuel (R.play_move b c m.1 m.2) (3 - c) (l - 1)
          ≤ minVal R fuel (R.play_move b c m'.1 m'.2) (3 - c) (l - 1))) ∧
    (minimax_min_node R (fuel + 1) b c l 0 cache = some (res, c'') →
      ∃ pre m' post,
        R.get_possible_moves b c = pre ++ m' :: post ∧
        res = (some m', maxVal R fuel (R.play_move b c m'.1 m'.2) (3 - c) (l - 1)) ∧
        alphabeta_min_node R (fuel + 1) b c Ext.ninf Ext.pinf l 0 0 cache
          = some (res, cache) ∧
        (∀ m ∈ pre, maxVal R fuel (R.play_move b c m'.1 m'.2) (3 - c) (l - 1)
          < maxVal R fuel (R.play_move b c m.1 m.2) (3 - c) (l - 1)) ∧
        (∀ m ∈ post, maxVal R fuel (R.play_move b c m'.1 m'.2) (3 - c) (l - 1)
          ≤ maxVal R fuel (R.play_move b c m.1 m.2) (3 - c) (l - 1))) := by
  have hleaf : ¬(R.get_possible_moves b c = [] ∨ l = 0) := by
    rintro (h | h)
    · exact hmoves h
    · exact hl h
  constructor
  · intro hrun
    have hpure := (minimax_nodes_pure R (fuel + 1) b c l).2
    obtain ⟨hc'', hall⟩ := hpure.some_all hrun
    have hsome : (minimax_max_node R (fuel + 1) b c l 0 emptyCache).isSome := by
      rw [hall emptyCache]; rfl
    have hv := minimax_max_children R fuel b c l hsome hleaf
    obtain ⟨pre, m', post, hsplit, hloop, hpre, hpost⟩ :=
      mmLoopMax_argmax
        (fun bb cc => minimax_min_node R fuel bb (3 - c) (l - 1) 0 cc)
        (fun m => R.play_move b c m.1 m.2)
        (fun m => minVal R fuel (R.play_move b c m.1 m.2) (3 - c) (l - 1))
        (R.get_possible_moves b c) cache hv hmoves
    have hrun2 := hall cache
    rw [minimax_max_node_nocache, if_neg hleaf, hloop] at hrun2
    injection hrun2 with h1
    injection h1 with h2 _
    refine ⟨pre, m', post, hsplit, h2.symm, ?_, hpre, hpost⟩
    exact (root_eq R (fuel + 1) b c l cache res).2 (hall cache)
  · intro hrun
    have hpure := (minimax_nodes_pure R (fuel + 1) b c l).1
    obtain ⟨hc'', hall⟩ := hpure.some_all hrun
    have hsome : (minimax_min_node R (fuel + 1) b c l 0 emptyCache).isSome := by
      rw [hall emptyCache]; rfl
    have hv := minimax_min_children R fuel b c l hsome hleaf
    obtain ⟨pre, m', post, hsplit, hloop, hpre, hpost⟩ :=
      mmLoopMin_argmin
        (fun bb cc => minimax_max_node R fuel bb (3 - c) (l - 1) 0 cc)
        (fun m => R.play_move b c m.1 m.2)
        (fun m => maxVal R fuel (R.play_move b c m.1 m.2) (3 - c) (l - 1))
        (R.get_possible_moves b c) cache hv hmoves
    have hrun2 := hall cache
    rw [minimax_min_node_nocache, if_neg hleaf, hloop] at hrun2
    injection hrun2 with h1
    injection h1 with h2 _
    refine ⟨pre, m', post, hsplit, h2.symm, ?_, hpre, hpost⟩
    exact (root_eq R (fuel + 1) b c l cache res).1 (hall cache)

theorem tie_break_earliest_witness :
    ∃ pre m' post,
      othelloRules.get_possible_moves lineBoard 1 = pre ++ m' :: post ∧
      ((some (0, 2) : Option Move), Ext.fin (-3))
        = (some m', minVal othelloRules 5 (othelloRules.play_move lineBoard 1 m'.1 m'.2)
            (3 - 1) (-1 - 1)) ∧
      alphabeta_max_node othelloRules 6 lineBoard 1 Ext.ninf Ext.pinf (-1) 0 0 emptyCache
        = some ((some (0, 2), Ext.fin (-3)), emptyCache) ∧
      (∀ m ∈ pre, minVal othelloRules 5 (othelloRules.play_move lineBoard 1 m.1 m.2)
          (3 - 1) (-1 - 1)
        < minVal othelloRules 5 (othelloRules.play_move lineBoard 1 m'.1 m'.2)
          (3 - 1) (-1 - 1)) ∧
      (∀ m ∈ post, minVal othelloRules 5 (othelloRules.play_move lineBoard 1 m.1 m.2)
          (3 - 1) (-1 - 1)
        ≤ minVal othelloRules 5 (othelloRules.play_move lineBoard 1 m'.1 m'.2)
          (3 - 1) (-1 - 1)) :=
  (tie_break_earliest othelloRules 5 lineBoard 1 (-1) emptyCache
    (some (0, 2), Ext.fin (-3)) emptyCache (by decide) (by decide)).1 (by decide)

/-! ### Spec-side heuristic (claim C9) -/

/-- Positional weight of cell `(i, j)` per the spec: corner cells 5,
non-corner border cells 2, interior cells 1. -/
def cellWeight (n i j : Nat) : ℤ :=
  if (i = 0 ∧ j = 0) ∨ (i = 0 ∧ j = n - 1) ∨ (i = n - 1 ∧ j = 0) ∨
      (i = n - 1 ∧ j = n - 1) then 5
  else if i = 0 ∨ i = n - 1 ∨ j = 0 ∨ j = n - 1 then 2
  else 1

/-- Sum of positional weights of the cells occupied by `color`. -/
def colorWeightSum (board : Board) (color : ℤ) : ℤ :=
  (List.range board.length).foldl (fun acc i =>
    (List.range board.length).foldl (fun acc2 j =>
      acc2 + (if (((board.get? i).getD []).get? j).getD 0 = color
        then cellWeight board.length i j else 0)) acc) 0

/-- The spec's stability term: Dark weight sum minus Light weight sum. -/
def stabilityOf (board : Board) : ℤ := colorWeightSum board 1 - colorWeightSum board 2

/-- The spec's parity term: Dark disk count minus Light disk count. -/
def parityOf (R : Rules) (board : Board) : ℤ :=
  (R.get_score board).1 - (R.get_score board).2

theorem foldl_pair {α : Type} (F : ℤ × ℤ → α → ℤ × ℤ) (f g : ℤ → α → ℤ)
    (h : ∀ p x, F p x = (f p.1 x, g p.2 x)) :
    ∀ (l : List α) (p : ℤ × ℤ), l.foldl F p = (l.foldl f p.1, l.foldl g p.2) := by
  intro l
  induction l with
  | nil => intro p; rfl
  | cons x xs ih =>
    intro p
    rw [List.foldl_cons, List.foldl_cons, List.foldl_cons, h p x]
    exact ih _

theorem heuristicStep_split (b : Board) (n : Nat) (acc : ℤ × ℤ) (i j : Nat) :
    heuristicStep b n acc i j
      = (acc.1 + (if (((b.get? i).getD []).get? j).getD 0 = 1
            then cellWeight n i j else 0),
         acc.2 + (if (((b.get? i).getD []).get? j).getD 0 = 2
            then cellWeight n i j else 0)) := by
  simp only [heuristicStep, cellWeight]
  split_ifs <;> simp_all

theorem heuristic_fold (b : Board) :
    (List.range b.length).foldl
      (fun acc i => (List.range b.length).foldl
        (fun acc2 j => heuristicStep b b.length acc2 i j) acc) ((0 : ℤ), (0 : ℤ))
    = (colorWeightSum b 1, colorWeightSum b 2) := by
  have hinner : ∀ (i : Nat) (p : ℤ × ℤ),
      (List.range b.length).foldl (fun acc2 j => heuristicStep b b.length acc2 i j) p
      = ((List.range b.length).foldl (fun x j =>
            x + (if (((b.get? i).getD []).get? j).getD 0 = 1
              then cellWeight b.length i j else 0)) p.1,
         (List.range b.length).foldl (fun x j =>
            x + (if (((b.get? i).getD []).get? j).getD 0 = 2
              then cellWeight b.length i j else 0)) p.2) := by
    intro i p
    exact foldl_pair
      (fun acc2 j => heuristicStep b b.length acc2 i j)
      (fun x j => x + (if (((b.get? i).getD []).get? j).getD 0 = 1
        then cellWeight b.length i j else 0))
      (fun x j => x + (if (((b.get? i).getD []).get? j).getD 0 = 2
        then cellWeight b.length i j else 0))
      (fun q j => heuristicStep_split b b.length q i j) (List.range b.length) p
  simp only [colorWeightSum]
  exact foldl_pair
    (fun acc i => (List.range b.length).foldl
      (fun acc2 j => heuristicStep b b.length acc2 i j) acc)
    (fun a i => (List.range b.length).foldl (fun x j =>
      x + (if (((b.get? i).getD []).get? j).getD 0 = 1
        then cellWeight b.length i j else 0)) a)
    (fun a i => (List.range b.length).foldl (fun x j =>
      x + (if (((b.get? i).getD []).get? j).getD 0 = 2
        then cellWeight b.length i j else 0)) a)
    (fun p i => hinner i p) (List.range b.length) (0, 0)

theorem compute_heuristic_eq (R : Rules) (b : Board) :
    compute_heuristic R b 1 = some ((3 / 10 : ℚ) * (parityOf R b : ℚ)
        + (7 / 10 : ℚ) * (stabilityOf b : ℚ)) ∧
    compute_heuristic R b 2 = some (-((3 / 10 : ℚ) * (parityOf R b : ℚ)
        + (7 / 10 : ℚ) * (stabilityOf b : ℚ))) ∧
    (∀ c : ℤ, c ≠ 1 → c ≠ 2 → compute_heuristic R b c = none) := by
  have hst := heuristic_fold b
  refine ⟨?_, ?_, ?_⟩
  · simp only [compute_heuristic, hst, parityOf, stabilityOf]
    norm_num
  · simp only [compute_heuristic, hst, parityOf, stabilityOf]
    norm_num
  · intro c h1 h2
    simp only [compute_heuristic]
    rw [if_neg h1, if_neg h2]

/-- C9: `compute_heuristic` weighs each occupied cell by positional
class (corners 5, other border cells 2, interior 1), takes
stability = Dark sum − Light sum and parity = Dark count − Light count,
and returns `0.3 * parity + 0.7 * stability`, negated for Light (and
Python `None` for any other color); on a board whose only disk is a
single Dark corner disk the value is `0.3·1 + 0.7·5 = 3.8 = 19/5`. -/
theorem compute_heuristic_spec (R : Rules) (b : Board) :
    compute_heuristic R b 1 = some ((3 / 10 : ℚ) * (parityOf R b : ℚ)
        + (7 / 10 : ℚ) * (stabilityOf b : ℚ)) ∧
    compute_heuristic R b 2 = some (-((3 / 10 : ℚ) * (parityOf R b : ℚ)
        + (7 / 10 : ℚ) * (stabilityOf b : ℚ))) ∧
    (∀ c : ℤ, c ≠ 1 → c ≠ 2 → compute_heuristic R b c = none) ∧
    compute_heuristic othelloRules cornerBoard 1 = some (19 / 5 : ℚ) := by
  refine ⟨(compute_heuristic_eq R b).1, (compute_heuristic_eq R b).2.1,
    (compute_heuristic_eq R b).2.2, ?_⟩
  have h1 : parityOf othelloRules cornerBoard = 1 := by decide
  have h2 : stabilityOf cornerBoard = 5 := by decide
  rw [(compute_heuristic_eq othelloRules cornerBoard).1, h1, h2]
  norm_num

theorem compute_heuristic_spec_witness :
    compute_heuristic othelloRules cornerBoard 5 = none ∧
    compute_heuristic othelloRules cornerBoard 1 = some (19 / 5 : ℚ) :=
  ⟨(compute_heuristic_spec othelloRules cornerBoard).2.2.1 5 (by decide) (by decide),
   (compute_heuristic_spec othelloRules cornerBoard).2.2.2⟩

theorem compute_utility_spec_witness :
    compute_utility othelloRules startBoard 1
        = (othelloRules.get_score startBoard).1 - (othelloRules.get_score startBoard).2 ∧
    compute_utility othelloRules startBoard 2
        = (othelloRules.get_score startBoard).2 - (othelloRules.get_score startBoard).1 ∧
    compute_utility othelloRules startBoard 5 = 0 :=
  ⟨(compute_utility_spec othelloRules startBoard 1).1 rfl,
   (compute_utility_spec othelloRules startBoard 2).2.1 rfl,
   (compute_utility_spec othelloRules startBoard 5).2.2 (by decide) (by decide)⟩

/-- A non-empty cache used to exercise cache-independence concretely. -/
def junkCache : Cache :=
  Cache.mk [((lineBoard, 2), (none, Ext.fin 7))]
    [((lineBoard, 2, Ext.ninf, Ext.pinf), (none, Ext.fin 7))]

theorem caching_off_no_cache_effect_witness :
    (minimax_max_node othelloRules 6 lineBoard 1 (-1) 0 emptyCache).map Prod.fst
      = (minimax_max_node othelloRules 6 lineBoard 1 (-1) 0 junkCache).map Prod.fst ∧
    emptyCache = emptyCache :=
  ⟨(caching_off_no_cache_effect othelloRules 6 lineBoard 1 Ext.ninf Ext.pinf (-1) 0
      emptyCache junkCache).2.1.1,
   (caching_off_no_cache_effect othelloRules 6 lineBoard 1 Ext.ninf Ext.pinf (-1) 0
      emptyCache junkCache).2.1.2 (some (0, 2), Ext.fin (-3)) emptyCache (by decide)⟩

/-- A miniature rules instance used to witness the caching-transparency
theorem concretely: a position with fewer than two rows has the single
legal move `(0, 0)`, playing a move prepends a row `[color]`, and the
dark score is the row count.  Every legal move adds exactly one row, so
`List.length` is the progress measure `hsz` asks for. -/
def toyRules : Rules where
  get_possible_moves b _ := if b.length ≤ 1 then [(0, 0)] else []
  play_move b c _ _ := [c] :: b
  get_score b := ((b.length : ℤ), 0)

/-- C3: caching is value-transparent.  For any rules under which every
legal move adds exactly one disk (`hsz`, a law of Othello: the measure
`sz` ties each reachable board to the one depth budget it is searched
with) and a root color in {1, 2}, starting from an empty `cached_states`
table the caching run of `minimax_max_node` returns exactly the
cache-free `(move, value)`, and whenever the alpha-beta entry-point run
terminates, the caching run of `alphabeta_max_node` from the full window
also returns exactly the cache-free `(move, value)`; both `select_move`
entry points therefore return identical moves with caching on and off. -/
theorem caching_value_transparent (R : Rules) (sz : Board → Nat)
    (hsz : ∀ b c m, m ∈ R.get_possible_moves b c →
      sz (R.play_move b c m.1 m.2) = sz b + 1)
    (fuel : Nat) (b : Board) (c L ordering : ℤ) (hc : c = 1 ∨ c = 2)
    (res : Option Move × Ext)
    (hmm : minimax_max_node R fuel b c L 0 emptyCache = some (res, emptyCache)) :
    (∃ cache', minimax_max_node R fuel b c L 1 emptyCache = some (res, cache')) ∧
    select_move_minimax R fuel b c L 1 emptyCache
      = select_move_minimax R fuel b c L 0 emptyCache ∧
    (∀ resA, alphabeta_max_node R fuel b c Ext.ninf Ext.pinf L 0 ordering emptyCache
        = some (resA, emptyCache) →
      (∃ cache', alphabeta_max_node R fuel b c Ext.ninf Ext.pinf L 1 ordering emptyCache
          = some (resA, cache')) ∧
      select_move_alphabeta R fuel b c L 1 ordering emptyCache
        = select_move_alphabeta R fuel b c L 0 ordering emptyCache) := by
  have hl : L = L - ((sz b : ℤ) - (sz b : ℤ)) := by ring
  have hInv0 : mmCacheInv R sz c b L emptyCache := by
    intro b' c' res' hfind
    simp [emptyCache, findEntry] at hfind
  have habInv0 : abCacheInv R sz c b L ordering emptyCache := by
    intro b' c' a' b'' res' hfind
    simp [emptyCache, findEntry] at hfind
  obtain ⟨cache1, hrun1, _⟩ :=
    (minimax_cached_run R sz hsz c hc b L fuel b L emptyCache res hl hInv0).1 hmm
  refine ⟨⟨cache1, hrun1⟩, ?_, ?_⟩
  · rw [select_move_minimax, select_move_minimax, hrun1, hmm]
    rfl
  · intro resA hfreeA
    have hmmS : (minimax_max_node R fuel b c L 0 emptyCache).isSome := by
      rw [hmm]; rfl
    obtain ⟨mv', cache2, habC, _, hmiss⟩ :=
      (alphabeta_cached_run R sz hsz c hc b L ordering fuel b L Ext.ninf Ext.pinf
        emptyCache resA hl (by decide) habInv0).1 hmmS hfreeA
    have hmv : mv' = resA.1 := hmiss rfl
    rw [hmv] at habC
    refine ⟨⟨cache2, by rw [habC]⟩, ?_⟩
    rw [select_move_alphabeta, select_move_alphabeta, habC, hfreeA]
    rfl

theorem caching_value_transparent_witness :
    (∃ cache', minimax_max_node toyRules 4 [] 1 (-1) 1 emptyCache
        = some ((some ((0 : ℤ), (0 : ℤ)), Ext.fin 2), cache')) ∧
    select_move_minimax toyRules 4 [] 1 (-1) 1 emptyCache
      = select_move_minimax toyRules 4 [] 1 (-1) 0 emptyCache ∧
    (∃ cache', alphabeta_max_node toyRules 4 [] 1 Ext.ninf Ext.pinf (-1) 1 0 emptyCache
        = some ((some ((0 : ℤ), (0 : ℤ)), Ext.fin 2), cache')) ∧
    select_move_alphabeta toyRules 4 [] 1 (-1) 1 0 emptyCache
      = select_move_alphabeta toyRules 4 [] 1 (-1) 0 0 emptyCache := by
  have h := caching_value_transparent toyRules List.length
    (fun b c m hm => by simp [toyRules])
    4 [] 1 (-1) 0 (Or.inl rfl) (some (0, 0), Ext.fin 2) (by decide)
  obtain ⟨h1, h2, h3⟩ := h
  have h4 := h3 (some (0, 0), Ext.fin 2) (by decide)
  exact ⟨h1, h2, h4.1, h4.2⟩

end OthelloAI
